import Mathlib

/-!
Verification of the dream-go Go engine core (`libdg_go`): the fast board
(`board_fast.rs`) and the Tromp-Taylor scoring routines (`utils/score.rs`).

The `point`, `color`, `point_state` (vertex codec), `zobrist`, `iter` and
`board` modules of the crate are not part of the sources at hand; where the
board and scoring code depends on them they are modelled from the
specification, and each such definition carries a doc comment saying so.
Machine integers are modelled as `Nat`: all hash values live below `2 ^ 64`
and are only combined with XOR, which never leaves that range.
-/

namespace DreamGo

/-- Modelled from the spec: the two stone colors (`color.rs` is not in the
sources). -/
inductive Color where
  | black : Color
  | white : Color
deriving DecidableEq, Repr

/-- Modelled from the spec: `Color::opposite`. -/
def Color.opposite : Color → Color
  | Color.black => Color.white
  | Color.white => Color.black

/-- Modelled from the spec: the board is 19 by 19; a `Point` is an integer
index into the vertex array, the playable indices being `0 ..= 360`
(`point.rs` is not in the sources). -/
def numPoints : Nat := 361

/-- Modelled from the spec: a single padding index standing for every
off-board slot; adjacency queries from a border point land here and are
filtered out by `is_part_of`. -/
def paddingPoint : Nat := 361

/-- Modelled from the spec: `Point::default()`, a sentinel distinct from
every playable point and from the padding slot. -/
def pointDefault : Nat := 362

/-- Modelled from the spec: `Point::all()`, the iterator over the 361
playable points. -/
def pointAll : List Nat := List.range numPoints

/-- Modelled from the spec: the per-vertex state (`point_state.rs` is not in
the sources).  The bit-packed `u32` codec is replaced by a structure with
one field per bit field; `valid` stands for `color != Invalid`, the padding
sentinel encoding, which `set_color` never touches (the codec writes Empty,
Black or White, never Invalid). -/
structure Vertex where
  color : Option Color
  next_point : Nat
  head_point : Nat
  num_liberties : Nat
  visited : Bool
  valid : Bool
deriving DecidableEq, Repr

/-- Modelled from the spec: the `empty()` encoding (all structural fields
cleared, color = Empty).  In the crate the cleared link value `0` lands on
a padding slot of the guard-row layout; this model keeps the playable
indices 0-based, so the cleared links carry its padding index instead. -/
def Vertex.empty : Vertex :=
  { color := none, next_point := 361, head_point := 361,
    num_liberties := 0, visited := false, valid := true }

/-- Modelled from the spec: the `invalid()` encoding populating padding
slots. -/
def Vertex.invalid : Vertex :=
  { color := none, next_point := 361, head_point := 361,
    num_liberties := 0, visited := false, valid := false }

/-- `BoardFast`: the vertex array, as a total function from indices to
vertex states (`board_fast.rs`). -/
structure BoardFast where
  vertices : Nat → Vertex

/-- `BoardFast::new()`: every playable vertex `empty()`, padding
`invalid()`. -/
def BoardFast.new : BoardFast :=
  ⟨fun p => if p < numPoints then Vertex.empty else Vertex.invalid⟩

/-- Pointwise update of one vertex slot (the `IndexMut` impl). -/
def BoardFast.modifyVertex (b : BoardFast) (p : Nat) (f : Vertex → Vertex) :
    BoardFast :=
  ⟨fun q => if q = p then f (b.vertices q) else b.vertices q⟩

/-- Codec write `set_color`. -/
def BoardFast.set_color (b : BoardFast) (p : Nat) (c : Option Color) :
    BoardFast :=
  b.modifyVertex p fun v => { v with color := c }

/-- Codec write `set_next_point`. -/
def BoardFast.set_next_point (b : BoardFast) (p : Nat) (n : Nat) :
    BoardFast :=
  b.modifyVertex p fun v => { v with next_point := n }

/-- Codec write `set_head_point`. -/
def BoardFast.set_head_point (b : BoardFast) (p : Nat) (h : Nat) :
    BoardFast :=
  b.modifyVertex p fun v => { v with head_point := h }

/-- Codec write `set_liberties`. -/
def BoardFast.set_liberties (b : BoardFast) (p : Nat) (n : Nat) :
    BoardFast :=
  b.modifyVertex p fun v => { v with num_liberties := n }

/-- Codec write `set_visited`. -/
def BoardFast.set_visited (b : BoardFast) (p : Nat) (x : Bool) :
    BoardFast :=
  b.modifyVertex p fun v => { v with visited := x }

/-- Codec write `add_liberties(k)`. -/
def BoardFast.add_liberties (b : BoardFast) (p : Nat) (k : Nat) :
    BoardFast :=
  b.modifyVertex p fun v => { v with num_liberties := v.num_liberties + k }

/-- Codec write `sub_liberties(k)`; the invariants forbid underflow, so
truncated `Nat` subtraction is faithful on every state the engine
reaches. -/
def BoardFast.sub_liberties (b : BoardFast) (p : Nat) (k : Nat) :
    BoardFast :=
  b.modifyVertex p fun v => { v with num_liberties := v.num_liberties - k }

/-- Modelled from the spec: the raw 4-neighbour enumeration of a point in
N, E, S, W order; a direction that leaves the board yields the padding
slot (`AdjacentIter` in `iter.rs` is not in the sources). -/
def adjacentRaw (p : Nat) : List Nat :=
  let x := p % 19
  let y := p / 19
  [ if y = 0 then paddingPoint else p - 19,
    if x = 18 then paddingPoint else p + 1,
    if y = 18 then paddingPoint else p + 19,
    if x = 0 then paddingPoint else p - 1 ]

/-- `is_part_of`: the vertex slot holds a non-Invalid encoding. -/
def BoardFast.is_part_of (b : BoardFast) (p : Nat) : Prop :=
  (b.vertices p).valid = true

instance (b : BoardFast) (p : Nat) : Decidable (b.is_part_of p) := by
  unfold BoardFast.is_part_of; infer_instance

/-- `adjacent_to`: the raw neighbours filtered by `is_part_of`
(`ValidIter`). -/
def BoardFast.adjacent_to (b : BoardFast) (p : Nat) : List Nat :=
  (adjacentRaw p).filter fun q => decide (b.is_part_of q)

/-- `get_n_liberty`: the liberty count stored on the chain head. -/
def BoardFast.get_n_liberty (b : BoardFast) (p : Nat) : Nat :=
  (b.vertices ((b.vertices p).head_point)).num_liberties

/-- `has_n_liberty`: whether the chain's stored liberty count is at least
`n`. -/
def BoardFast.has_n_liberty (b : BoardFast) (p : Nat) (n : Nat) : Prop :=
  n ≤ b.get_n_liberty p

instance (b : BoardFast) (p n : Nat) : Decidable (b.has_n_liberty p n) := by
  unfold BoardFast.has_n_liberty; infer_instance

/-- `is_valid`: Tromp-Taylor legality without super-ko. -/
def BoardFast.is_valid (b : BoardFast) (color : Color) (at_point : Nat) :
    Bool :=
  decide ((b.vertices at_point).color = none) &&
    (b.adjacent_to at_point).any fun other_point =>
      let value := (b.vertices other_point).color
      decide (value = none) ||
        (decide (value = some color) == decide (b.has_n_liberty other_point 2))

/-- Modelled from the spec: `block_at` / `ChainIter` (`iter.rs` is not in
the sources) yields every member of the chain containing the start,
following `next_point` until returning to the start.  `chainAux` collects
the tail of that walk; the fuel bounds the walk by the board area, which
no well-formed chain exceeds.  The loop bodies below never modify a
`next_point` link of the chain they traverse, so computing the member list
from the starting board is faithful. -/
def chainAux (b : BoardFast) (stop : Nat) : Nat → Nat → List Nat
  | _, 0 => []
  | cur, fuel + 1 =>
      if cur = stop then []
      else cur :: chainAux b stop ((b.vertices cur).next_point) fuel

/-- The member list of the chain containing `p` (see `chainAux`). -/
def chainList (b : BoardFast) (p : Nat) : List Nat :=
  p :: chainAux b p ((b.vertices p).next_point) numPoints

/-- `is_liberty_of`: is `liberty` adjacent to a member of the block headed
by `block_at`? -/
def BoardFast.is_liberty_of (b : BoardFast) (liberty block_at : Nat) :
    Bool :=
  (b.adjacent_to liberty).any fun adj_point =>
    decide ((b.vertices adj_point).color = (b.vertices block_at).color) &&
      decide ((b.vertices adj_point).head_point = block_at)

/-- The inner body of the liberty-counting loop of `join_blocks`: one
neighbour of one member of the first chain counts when it is a new empty
vertex that is not already a liberty of the surviving chain. -/
def countLibStep (b1 : BoardFast) (head_two : Nat)
    (st : (Nat → Bool) × Nat) (adj_point : Nat) : (Nat → Bool) × Nat :=
  let is_empty := (b1.vertices adj_point).color = none
  let is_new := st.1 adj_point = false
  if is_empty ∧ is_new ∧ b1.is_liberty_of adj_point head_two = false
  then (fun q => if q = adj_point then true else st.1 q, st.2 + 1)
  else st

/-- The liberty-counting loop of `join_blocks`: how many additional
liberties the surviving chain gains from the first chain's empty
neighbours, deduplicated through a point-indexed scratch array. -/
def joinCount (b1 : BoardFast) (one head_two : Nat) : Nat :=
  ((chainList b1 one).foldl
    (fun (st : (Nat → Bool) × Nat) point =>
      (b1.adjacent_to point).foldl (countLibStep b1 head_two) st)
    (fun _ => false, 0)).2

/-- The merge performed by `join_blocks` once the two heads are known to
differ, starting from the board `b1` on which the filled liberty has
already been deducted. -/
def joinStructure (b1 : BoardFast) (one two head_two : Nat) : BoardFast :=
  let num_additional_liberties := joinCount b1 one head_two
  let b2 :=
    (chainList b1 one).foldl
      (fun bb point => bb.set_head_point point head_two) b1
  let b3 := b2.add_liberties head_two num_additional_liberties
  let one_prev := (b3.vertices one).next_point
  let two_prev := (b3.vertices two).next_point
  let b4 := b3.set_next_point two one_prev
  b4.set_next_point one two_prev

/-- `join_blocks`: merge the chain of `one` into the chain of `two`. -/
def BoardFast.join_blocks (b : BoardFast) (one two : Nat) : BoardFast :=
  let head_one := (b.vertices one).head_point
  let head_two := (b.vertices two).head_point
  if head_one = head_two then b
  else joinStructure (b.sub_liberties head_two 1) one two head_two

/-- The loop body of `incr_adjacent_liberties`: one raw neighbour credits
its block one liberty when occupied, in a different block, and not yet
credited. -/
def incrStep (head : Nat) (st : BoardFast × List Nat)
    (iadj : Nat × Nat) : BoardFast × List Nat :=
  let i := iadj.1
  let adj_point := iadj.2
  let adj_state := st.1.vertices adj_point
  if adj_state.color ≠ none then
    let adj_head := adj_state.head_point
    let is_different_block := adj_head ≠ head
    let is_already_changed := st.2.contains adj_head
    if is_different_block ∧ ¬ is_already_changed then
      (st.1.add_liberties adj_head 1, st.2.set i adj_head)
    else st
  else st

/-- `incr_adjacent_liberties`: add one liberty to each distinct adjacent
block different from the block of `starting_point`, deduplicated through a
4-slot scratch indexed by iteration position. -/
def BoardFast.incr_adjacent_liberties (b : BoardFast) (starting_point : Nat) :
    BoardFast :=
  let head := (b.vertices starting_point).head_point
  ((adjacentRaw starting_point).enum.foldl (incrStep head)
    (b, List.replicate 4 pointDefault)).1

/-- Modelled from the spec: the Zobrist table (`zobrist.rs` is not in the
sources), a stable table of arbitrary 64-bit values indexed by color and
point; a fixed pseudorandom formula stands in for the crate's random
constants, none of the proofs depending on the values. -/
def TABLE (c : Color) (p : Nat) : Nat :=
  (2654435761 * (p + 1) +
    (match c with
     | Color.black => 0x9E3779B97F4A7C15
     | Color.white => 0xC2B2AE3D27D4EB4F)) % (2 ^ 64)

/-- `capture_if`: the hash adjustment a capture of the block at `at_point`
would make. -/
def BoardFast.capture_if (b : BoardFast) (color : Color) (at_point : Nat) :
    Nat :=
  (chainList b at_point).foldl (fun adjust cur => adjust ^^^ TABLE color cur) 0

/-- The loop body of `capture`, processing one member of the captured
chain: record its Zobrist entry, clear it, credit adjacent blocks. -/
def captureStep (color : Color) (st : BoardFast × Nat)
    (other_index : Nat) : BoardFast × Nat :=
  let hash := st.2 ^^^ TABLE color other_index
  let bb := st.1.set_color other_index none
  (bb.incr_adjacent_liberties other_index, hash)

/-- `capture`: remove every stone of the block at `at_point`, crediting a
liberty to each distinct adjacent block as each stone comes off, and
return the hash adjustment. -/
def BoardFast.capture (b : BoardFast) (color : Color) (at_point : Nat) :
    BoardFast × Nat :=
  (chainList b at_point).foldl (captureStep color) (b, 0)

/-- The loop body of `place_if`, handling one (position, neighbour) pair:
an unseen opposing block left without two liberties contributes its
capture preview. -/
def placeIfStep (b : BoardFast) (opponent : Color)
    (st : Nat × List Nat) (iother : Nat × Nat) : Nat × List Nat :=
  let i := iother.1
  let other_point := iother.2
  let head := (b.vertices other_point).head_point
  if (b.vertices head).color = some opponent ∧ ¬ b.has_n_liberty head 2
  then
    if ¬ st.2.contains head then
      (st.1 ^^^ b.capture_if opponent head, st.2.set i head)
    else st
  else st

/-- `place_if`: the hash adjustment `place` would make, computed without
mutating. -/
def BoardFast.place_if (b : BoardFast) (color : Color) (at_point : Nat) :
    Nat :=
  let opponent := color.opposite
  ((b.adjacent_to at_point).enum.foldl (placeIfStep b opponent)
    (TABLE color at_point, List.replicate 4 pointDefault)).1

/-- The loop body of `place`, handling one (position, raw neighbour) pair:
merge with a friendly neighbour; for an unseen opposing block, deduct the
filled liberty and capture it when none remain. -/
def placeStep (color : Color) (at_point : Nat)
    (st : BoardFast × Nat × List Nat) (iother : Nat × Nat) :
    BoardFast × Nat × List Nat :=
  let opponent := color.opposite
  let i := iother.1
  let other_point := iother.2
  let bb := st.1
  let value := (bb.vertices other_point).color
  if value = some color then
    (bb.join_blocks at_point other_point, st.2)
  else if value = some opponent then
    let head := (bb.vertices other_point).head_point
    if ¬ st.2.2.contains head then
      let bb := bb.sub_liberties head 1
      let seen := st.2.2.set i head
      if ¬ bb.has_n_liberty head 1 then
        let r := bb.capture opponent head
        (r.1, st.2.1 ^^^ r.2, seen)
      else (bb, st.2.1, seen)
    else st
  else st

/-- The prefix of `place` before its neighbour loop: the new stone is
written as a fresh singleton chain carrying its immediate liberties. -/
def placeInit (b : BoardFast) (color : Color) (at_point : Nat) : BoardFast :=
  let num_immediate_liberties :=
    ((b.adjacent_to at_point).filter fun adj_point =>
      decide ((b.vertices adj_point).color = none)).length
  ((((b.set_color at_point (some color)).set_next_point at_point
    at_point).set_head_point at_point at_point).set_liberties at_point
      num_immediate_liberties).set_visited at_point true

/-- `place`: put a stone of `color` on `at_point` (assumed valid), joining
friendly neighbours, deducting the filled liberty from each distinct
adjacent opposing block and capturing those that reach zero; returns the
hash adjustment. -/
def BoardFast.place (b : BoardFast) (color : Color) (at_point : Nat) :
    BoardFast × Nat :=
  let num_immediate_liberties :=
    ((b.adjacent_to at_point).filter fun adj_point =>
      decide ((b.vertices adj_point).color = none)).length
  let b0 := b.set_color at_point (some color)
  let b0 := b0.set_next_point at_point at_point
  let b0 := b0.set_head_point at_point at_point
  let b0 := b0.set_liberties at_point num_immediate_liberties
  let b0 := b0.set_visited at_point true
  let st :=
    (adjacentRaw at_point).enum.foldl (placeStep color at_point)
      (b0, TABLE color at_point, List.replicate 4 pointDefault)
  (st.1, st.2.1)

/-- Modelled from the spec: the outer `Board` wrapper (`board.rs` is not in
the sources) as far as scoring consumes it: the fast board plus the
incrementally maintained Zobrist hash, which is `0` exactly until a stone
has been played. -/
structure Board where
  inner : BoardFast
  zobrist_hash : Nat

/-- Modelled from the spec: `Board::new`, the wrapper around the empty fast
board, whose Zobrist hash (the XOR over no stones) is `0`. -/
def Board.new : Board :=
  ⟨BoardFast.new, 0⟩

/-- The relaxation body of the flood loop in `get_territory_distance`: for
one neighbour `other_point` of the popped probe, lower its distance to `t`
and push it when it is empty and its current distance exceeds `t`. -/
def relaxStep (board : BoardFast) (t : Nat)
    (st : (Nat → Nat) × List Nat) (other_point : Nat) :
    (Nat → Nat) × List Nat :=
  if (board.vertices other_point).color = none ∧ t < st.1 other_point
  then (fun q => if q = other_point then t else st.1 q,
        st.2 ++ [other_point])
  else st

/-- One iteration of the territory-flood relaxation loop in
`get_territory_distance`: pop the front probe and relax each of its valid
neighbours.  The fuel is spent once per loop iteration; `territoryFuel`
below exceeds the largest possible number of iterations. -/
def territoryLoop (board : BoardFast) :
    (Nat → Nat) → List Nat → Nat → (Nat → Nat)
  | territory, [], _ => territory
  | territory, _, 0 => territory
  | territory, index :: probes, fuel + 1 =>
      let t := territory index + 1
      let st :=
        (board.adjacent_to index).foldl (relaxStep board t)
          (territory, probes)
      territoryLoop board st.1 st.2 fuel

/-- Enough fuel for `territoryLoop` to drain its queue: every iteration
strictly decreases `sum of distances + queue length`, which starts below
`361 * 255 + 361`. -/
def territoryFuel : Nat := 93000

/-- The seeding body of `get_territory_distance`: a stone of the color
gets distance `0` and is pushed as a probe. -/
def seedStep (board : BoardFast) (color : Color)
    (st : (Nat → Nat) × List Nat) (point : Nat) :
    (Nat → Nat) × List Nat :=
  if (board.vertices point).color = some color then
    (fun q => if q = point then 0 else st.1 q, st.2 ++ [point])
  else st

/-- `get_territory_distance`: per-vertex Manhattan distance to the nearest
stone of `color` through empty vertices, `0xff` (= 255) meaning
unreachable; opposite stones block propagation. -/
def get_territory_distance (board : BoardFast) (color : Color) :
    Nat → Nat :=
  let seeded := pointAll.foldl (seedStep board color) (fun _ => 255, [])
  territoryLoop board seeded.1 seeded.2 territoryFuel

/-- `get_tt_score`: Tromp-Taylor area score `(black, white)` from the two
territory-distance arrays. -/
def get_tt_score (board : BoardFast) : Nat × Nat :=
  let black_distance := get_territory_distance board Color.black
  let white_distance := get_territory_distance board Color.white
  pointAll.foldl
    (fun (bw : Nat × Nat) i =>
      if black_distance i = 0 then (bw.1 + 1, bw.2)
      else if white_distance i = 0 then (bw.1, bw.2 + 1)
      else if white_distance i = 255 then (bw.1 + 1, bw.2)
      else if black_distance i = 255 then (bw.1, bw.2 + 1)
      else bw)
    (0, 0)

/-- `is_scorable`: both colors present, no vertex reachable from both
colors, no stone in atari. -/
def Board.is_scorable (self : Board) : Bool :=
  let some_black :=
    pointAll.any fun i => decide ((self.inner.vertices i).color = some Color.black)
  let some_white :=
    pointAll.any fun i => decide ((self.inner.vertices i).color = some Color.white)
  some_black && some_white &&
    (let black_distance := get_territory_distance self.inner Color.black
     let white_distance := get_territory_distance self.inner Color.white
     pointAll.all fun i =>
       decide (black_distance i = 255) || decide (white_distance i = 255)) &&
    (pointAll.all fun i =>
       decide ((self.inner.vertices i).color = none) ||
         decide (self.inner.has_n_liberty i 2))

/-- `get_score`: Tromp-Taylor score, or `(0, 0)` when no stone has been
played (Zobrist hash still `0`). -/
def Board.get_score (self : Board) : Nat × Nat :=
  if self.zobrist_hash ≠ 0 then get_tt_score self.inner else (0, 0)

/-- The loop body of the clean-up pass of `get_guess_score` (score.rs lines
144-159), processing one vertex of the copy `other` of the live board. -/
def cleanupStep (finished : BoardFast)
    (black_distance white_distance : Nat → Nat) (other : BoardFast)
    (i : Nat) : BoardFast :=
  if (other.vertices i).color = (finished.vertices i).color then other
  else if (other.vertices i).color ≠ none then
    if (finished.vertices i).color = none then
      let is_dead_black :=
        (other.vertices i).color = some Color.black ∧ white_distance i ≠ 255
      let is_dead_white :=
        (other.vertices i).color = some Color.white ∧ black_distance i ≠ 255
      if is_dead_black ∨ is_dead_white then other.set_color i none
      else other
    else other.set_color i none
  else other

/-- The clean-up pass of `get_guess_score` (score.rs lines 140-159): build
the copy of the live board that is scored, dropping live stones the
finished board contradicts. -/
def guessCleanup (live finished : BoardFast) : BoardFast :=
  pointAll.foldl
    (cleanupStep finished (get_territory_distance finished Color.black)
      (get_territory_distance finished Color.white))
    live

/-- `get_guess_score`: Tromp-Taylor score of the cleaned-up copy of the
live board. -/
def Board.get_guess_score (self : Board) (finished : Board) : Nat × Nat :=
  get_tt_score (guessCleanup self.inner finished.inner)

/-! ### Basic lemmas about vertex updates -/

theorem modifyVertex_vertices (b : BoardFast) (p : Nat) (f : Vertex → Vertex)
    (q : Nat) :
    ((b.modifyVertex p f).vertices q) =
      if q = p then f (b.vertices q) else b.vertices q := rfl

theorem modifyVertex_vertices_self (b : BoardFast) (p : Nat)
    (f : Vertex → Vertex) :
    ((b.modifyVertex p f).vertices p) = f (b.vertices p) := by
  simp [modifyVertex_vertices]

theorem modifyVertex_vertices_ne (b : BoardFast) (p : Nat)
    (f : Vertex → Vertex) (q : Nat) (h : q ≠ p) :
    ((b.modifyVertex p f).vertices q) = b.vertices q := by
  simp [modifyVertex_vertices, h]

theorem set_color_color_self (b : BoardFast) (p : Nat) (c : Option Color) :
    ((b.set_color p c).vertices p).color = c := by
  simp [BoardFast.set_color, modifyVertex_vertices_self]

theorem set_color_vertices_ne (b : BoardFast) (p : Nat) (c : Option Color)
    (q : Nat) (h : q ≠ p) :
    ((b.set_color p c).vertices q) = b.vertices q := by
  simp [BoardFast.set_color, modifyVertex_vertices_ne _ _ _ _ h]

/-! ### C9: scoring the empty board -/

set_option maxRecDepth 20000 in
/-- C9: on a board with no stones played, `get_score` returns `(0, 0)` and
`is_scorable` returns `false`. -/
theorem empty_board_score :
    Board.new.get_score = (0, 0) ∧ Board.new.is_scorable = false := by
  constructor
  · rfl
  · decide

/-! ### C10: `get_tt_score` classifies each vertex toward at most one
color -/

theorem foldl_pair_sum_le {α : Type} (f : Nat × Nat → α → Nat × Nat)
    (hf : ∀ bw a, (f bw a).1 + (f bw a).2 ≤ bw.1 + bw.2 + 1) :
    ∀ (l : List α) (init : Nat × Nat),
      (l.foldl f init).1 + (l.foldl f init).2 ≤ init.1 + init.2 + l.length := by
  intro l
  induction l with
  | nil => intro init; simp
  | cons a l ih =>
      intro init
      calc (List.foldl f (f init a) l).1 + (List.foldl f (f init a) l).2
          ≤ (f init a).1 + (f init a).2 + l.length := ih (f init a)
        _ ≤ init.1 + init.2 + 1 + l.length := by
            have := hf init a; omega
        _ = init.1 + init.2 + (a :: l).length := by simp; omega

/-- C10: the per-vertex if-chain of `get_tt_score` credits each playable
vertex to at most one color, so the two areas sum to at most 361. -/
theorem get_tt_score_sum_le (board : BoardFast) :
    (get_tt_score board).1 + (get_tt_score board).2 ≤ 361 := by
  have h :=
    foldl_pair_sum_le
      (fun (bw : Nat × Nat) i =>
        if get_territory_distance board Color.black i = 0 then (bw.1 + 1, bw.2)
        else if get_territory_distance board Color.white i = 0 then
          (bw.1, bw.2 + 1)
        else if get_territory_distance board Color.white i = 255 then
          (bw.1 + 1, bw.2)
        else if get_territory_distance board Color.black i = 255 then
          (bw.1, bw.2 + 1)
        else bw)
      (by
        intro bw a
        dsimp only
        repeat' split
        all_goals omega)
      pointAll (0, 0)
  have hl : pointAll.length = 361 := by
    simp [pointAll, numPoints]
  rw [hl] at h
  norm_num at h
  unfold get_tt_score
  exact h

/-! ### C3: characterization of `is_valid` -/

theorem opposite_ne (c : Color) : c.opposite ≠ c := by
  cases c <;> simp [Color.opposite]

theorem color_cases (c col : Color) (h : col ≠ c) : col = c.opposite := by
  cases c <;> cases col <;> simp_all [Color.opposite]

/-- C3: `is_valid(c, p)` holds iff `p` is empty and some valid neighbour is
empty, or is friendly with a chain of at least two stored liberties, or is
opposing with a chain of at most one stored liberty; with no such
neighbour the move is suicide and `is_valid` is `false`. -/
theorem is_valid_characterization (b : BoardFast) (c : Color) (p : Nat) :
    b.is_valid c p = true ↔
      ((b.vertices p).color = none ∧
        ∃ n ∈ b.adjacent_to p,
          (b.vertices n).color = none ∨
          ((b.vertices n).color = some c ∧ 2 ≤ b.get_n_liberty n) ∨
          ((b.vertices n).color = some c.opposite ∧ b.get_n_liberty n ≤ 1)) := by
  unfold BoardFast.is_valid
  simp only [Bool.and_eq_true, decide_eq_true_eq, List.any_eq_true,
    Bool.or_eq_true, beq_iff_eq, decide_eq_decide]
  constructor
  · rintro ⟨hempty, n, hn, hcond⟩
    refine ⟨hempty, n, hn, ?_⟩
    rcases hcond with hcond | hiff
    · exact Or.inl hcond
    · rcases hor : (b.vertices n).color with _ | col
      · exact Or.inl rfl
      · rw [hor] at hiff
        by_cases hcc : col = c
        · subst hcc
          have h2 : b.has_n_liberty n 2 := hiff.mp rfl
          exact Or.inr (Or.inl ⟨rfl, h2⟩)
        · have hop : col = c.opposite := color_cases c col hcc
          subst hop
          have h2 : ¬ b.has_n_liberty n 2 := by
            intro hl
            exact (opposite_ne c) (Option.some.injEq .. ▸ (hiff.mpr hl))
          refine Or.inr (Or.inr ⟨rfl, ?_⟩)
          unfold BoardFast.has_n_liberty at h2
          omega
  · rintro ⟨hempty, n, hn, hcond⟩
    refine ⟨hempty, n, hn, ?_⟩
    rcases hcond with hcond | ⟨hcol, hlib⟩ | ⟨hcol, hlib⟩
    · exact Or.inl hcond
    · refine Or.inr ?_
      rw [hcol]
      exact ⟨fun _ => hlib, fun _ => rfl⟩
    · refine Or.inr ?_
      rw [hcol]
      constructor
      · intro hs
        exact absurd (Option.some_injective _ hs) (opposite_ne c)
      · intro hl
        unfold BoardFast.has_n_liberty at hl
        omega

/-! ### C1: the clean-up rule of `get_guess_score` -/

theorem foldl_step_vertices_of_not_mem
    (step : BoardFast → Nat → BoardFast)
    (hstep : ∀ acc j q, q ≠ j → ((step acc j).vertices q) = acc.vertices q)
    (l : List Nat) (acc : BoardFast) (i : Nat) (hi : i ∉ l) :
    ((l.foldl step acc).vertices i) = acc.vertices i := by
  induction l generalizing acc with
  | nil => rfl
  | cons a l ih =>
      have hia : i ≠ a := by
        intro h; exact hi (h ▸ List.mem_cons_self a l)
      have hil : i ∉ l := fun h => hi (List.mem_cons_of_mem _ h)
      rw [List.foldl_cons, ih _ hil, hstep _ _ _ hia]

theorem range_split_at (n i : Nat) (h : i < n) :
    ∃ l₁ l₂ : List Nat,
      List.range n = l₁ ++ i :: l₂ ∧ i ∉ l₁ ∧ i ∉ l₂ := by
  refine ⟨List.range i, (List.range (n - i - 1)).map (fun k => i + (k + 1)),
    ?_, ?_, ?_⟩
  · rw [show n = i + ((n - i - 1) + 1) by omega, List.range_add,
      List.range_succ_eq_map]
    simp [List.map_map, Function.comp_def]
  · intro hmem
    exact absurd (List.mem_range.mp hmem) (by omega)
  · intro hmem
    rcases List.mem_map.mp hmem with ⟨k, _, hk⟩
    omega

theorem cleanupStep_vertices_ne (finished : BoardFast) (bd wd : Nat → Nat)
    (acc : BoardFast) (j q : Nat) (h : q ≠ j) :
    ((cleanupStep finished bd wd acc j).vertices q) = acc.vertices q := by
  unfold cleanupStep
  split
  · rfl
  split
  · split
    · dsimp only
      split
      · exact set_color_vertices_ne _ _ _ _ h
      · rfl
    · exact set_color_vertices_ne _ _ _ _ h
  · rfl

theorem cleanupStep_color_self (finished : BoardFast) (bd wd : Nat → Nat)
    (acc : BoardFast) (i : Nat)
    (hlive : (acc.vertices i).color ≠ none)
    (hfin : (finished.vertices i).color = none) :
    ((cleanupStep finished bd wd acc i).vertices i).color =
      (if ((acc.vertices i).color = some Color.black ∧ wd i ≠ 255) ∨
          ((acc.vertices i).color = some Color.white ∧ bd i ≠ 255)
       then none else (acc.vertices i).color) := by
  by_cases hdead :
      ((acc.vertices i).color = some Color.black ∧ wd i ≠ 255) ∨
        ((acc.vertices i).color = some Color.white ∧ bd i ≠ 255)
  · simp [cleanupStep, hfin, hlive, hdead, set_color_color_self]
  · simp [cleanupStep, hfin, hlive, hdead]

/-- C1 (amended): where the live board has a stone and the finished board
is empty, the clean-up pass of `get_guess_score` removes the stone exactly
when the finished-board territory contradicts its color (a black stone
with white-reachable territory, or a white stone with black-reachable
territory); otherwise the stone is kept. -/
theorem guess_cleanup_dead_stone_rule (live finished : BoardFast) (i : Nat)
    (hi : i < 361) (hlive : (live.vertices i).color ≠ none)
    (hfin : (finished.vertices i).color = none) :
    ((guessCleanup live finished).vertices i).color =
      (if ((live.vertices i).color = some Color.black ∧
            get_territory_distance finished Color.white i ≠ 255) ∨
          ((live.vertices i).color = some Color.white ∧
            get_territory_distance finished Color.black i ≠ 255)
       then none else (live.vertices i).color) := by
  unfold guessCleanup
  obtain ⟨l₁, l₂, hsplit, hi₁, hi₂⟩ := range_split_at 361 i hi
  have hpa : pointAll = l₁ ++ i :: l₂ := by
    rw [pointAll, numPoints, hsplit]
  rw [hpa, List.foldl_append, List.foldl_cons]
  have hstepne := cleanupStep_vertices_ne finished
    (get_territory_distance finished Color.black)
    (get_territory_distance finished Color.white)
  have hacc :
      (((l₁.foldl (cleanupStep finished
          (get_territory_distance finished Color.black)
          (get_territory_distance finished Color.white)) live)).vertices i) =
        live.vertices i :=
    foldl_step_vertices_of_not_mem _ hstepne l₁ live i hi₁
  rw [foldl_step_vertices_of_not_mem _ hstepne l₂ _ i hi₂]
  rw [cleanupStep_color_self _ _ _ _ _ (by rw [hacc]; exact hlive) hfin]
  rw [hacc]

set_option maxRecDepth 20000 in
/-- C1 (counterexample): a live black stone on a vertex the finished board
leaves empty, with the finished-board territory NOT contradicting it
(white's territory distance is `0xff` there), is kept by the clean-up pass
of `get_guess_score` — it is not "removed anyway". -/
theorem guess_cleanup_keeps_uncontradicted :
    ((BoardFast.new.set_color 0 (some Color.black)).vertices 0).color =
        some Color.black ∧
      (BoardFast.new.vertices 0).color = none ∧
      get_territory_distance BoardFast.new Color.white 0 = 255 ∧
      ((guessCleanup (BoardFast.new.set_color 0 (some Color.black))
          BoardFast.new).vertices 0).color = some Color.black := by
  refine ⟨by decide, by decide, by decide, by decide⟩

set_option maxRecDepth 20000 in
/-- Witness for `guess_cleanup_dead_stone_rule` at a concrete input: a lone
black stone on an otherwise empty live board against an empty finished
board. -/
theorem guess_cleanup_dead_stone_rule_witness :
    ((0 : Nat) < 361 ∧
      ((BoardFast.new.set_color 0 (some Color.black)).vertices 0).color ≠ none ∧
      (BoardFast.new.vertices 0).color = none) ∧
    ((guessCleanup (BoardFast.new.set_color 0 (some Color.black))
        BoardFast.new).vertices 0).color =
      (if (((BoardFast.new.set_color 0 (some Color.black)).vertices 0).color =
              some Color.black ∧
            get_territory_distance BoardFast.new Color.white 0 ≠ 255) ∨
          (((BoardFast.new.set_color 0 (some Color.black)).vertices 0).color =
              some Color.white ∧
            get_territory_distance BoardFast.new Color.black 0 ≠ 255)
       then none
       else ((BoardFast.new.set_color 0 (some Color.black)).vertices 0).color) :=
  ⟨⟨by decide, by decide, by decide⟩,
    guess_cleanup_dead_stone_rule _ _ 0 (by decide) (by decide) (by decide)⟩

/-! ### C8: correctness of `get_territory_distance`

The reference notion of distance: a vertex is reached in `k` steps when a
path of `k` steps leads to it from a stone of the color, every vertex after
the stone being empty.  `ReachesIn b c k v` is the specification;
`reachSet b c k` is the executable breadth-first closure used inside the
proofs. -/

/-- `ReachesIn b c k v`: some path of exactly `k` adjacency steps starts at
a stone of color `c`, moves through empty vertices only, and ends at `v`
(its Manhattan length through empty vertices is `k`). -/
inductive ReachesIn (b : BoardFast) (c : Color) : Nat → Nat → Prop where
  | stone : ∀ v, v < 361 → (b.vertices v).color = some c → ReachesIn b c 0 v
  | step : ∀ k u v, ReachesIn b c k u → v ∈ b.adjacent_to u →
      (b.vertices v).color = none → v < 361 → ReachesIn b c (k + 1) v

/-- The breadth-first closure: vertices reachable within `k` steps. -/
def reachSet (b : BoardFast) (c : Color) : Nat → List Nat
  | 0 => pointAll.filter fun v => decide ((b.vertices v).color = some c)
  | k + 1 =>
      let s := reachSet b c k
      s ++ pointAll.filter fun v =>
        decide (v ∉ s) && decide ((b.vertices v).color = none) &&
          s.any fun u => decide (v ∈ b.adjacent_to u)

theorem reachSet_zero_mem (b : BoardFast) (c : Color) (v : Nat) :
    v ∈ reachSet b c 0 ↔ v < 361 ∧ (b.vertices v).color = some c := by
  simp [reachSet, pointAll, numPoints, List.mem_filter]

theorem reachSet_succ_mem (b : BoardFast) (c : Color) (k v : Nat) :
    v ∈ reachSet b c (k + 1) ↔
      v ∈ reachSet b c k ∨
        (v < 361 ∧ v ∉ reachSet b c k ∧ (b.vertices v).color = none ∧
          ∃ u ∈ reachSet b c k, v ∈ b.adjacent_to u) := by
  simp [reachSet, pointAll, numPoints, List.mem_append, List.mem_filter,
    List.any_eq_true]
  tauto

theorem reachSet_mono_succ (b : BoardFast) (c : Color) (k : Nat) :
    ∀ v ∈ reachSet b c k, v ∈ reachSet b c (k + 1) := by
  intro v hv
  rw [reachSet_succ_mem]
  exact Or.inl hv

theorem reachSet_mono (b : BoardFast) (c : Color) {j k : Nat} (h : j ≤ k) :
    ∀ v ∈ reachSet b c j, v ∈ reachSet b c k := by
  induction k with
  | zero => intro v hv; rwa [Nat.le_zero.mp h] at hv
  | succ k ih =>
      rcases Nat.lt_or_ge j (k + 1) with hlt | hge
      · intro v hv
        exact reachSet_mono_succ b c k v (ih (Nat.lt_succ_iff.mp hlt) v hv)
      · intro v hv
        rwa [Nat.le_antisymm h hge] at hv

theorem reachSet_lt (b : BoardFast) (c : Color) (k : Nat) :
    ∀ v ∈ reachSet b c k, v < 361 := by
  induction k with
  | zero => intro v hv; exact (reachSet_zero_mem b c v).mp hv |>.1
  | succ k ih =>
      intro v hv
      rcases (reachSet_succ_mem b c k v).mp hv with h | h
      · exact ih v h
      · exact h.1

/-- A step of the closure from a member. -/
theorem reachSet_step (b : BoardFast) (c : Color) (k u v : Nat)
    (hu : u ∈ reachSet b c k) (hadj : v ∈ b.adjacent_to u)
    (hcol : (b.vertices v).color = none) (hv : v < 361) :
    v ∈ reachSet b c (k + 1) := by
  rw [reachSet_succ_mem]
  by_cases hmem : v ∈ reachSet b c k
  · exact Or.inl hmem
  · exact Or.inr ⟨hv, hmem, hcol, u, hu, hadj⟩

theorem reachSet_iff_reachesIn (b : BoardFast) (c : Color) :
    ∀ k v, v ∈ reachSet b c k ↔ ∃ j ≤ k, ReachesIn b c j v := by
  intro k
  induction k with
  | zero =>
      intro v
      rw [reachSet_zero_mem]
      constructor
      · rintro ⟨hv, hcol⟩
        exact ⟨0, Nat.le_refl 0, ReachesIn.stone v hv hcol⟩
      · rintro ⟨j, hj, hr⟩
        rcases hr with ⟨v, hv, hcol⟩ | _
        · exact ⟨hv, hcol⟩
        · omega
  | succ k ih =>
      intro v
      rw [reachSet_succ_mem]
      constructor
      · rintro (h | ⟨hv, _, hcol, u, hu, hadj⟩)
        · rcases (ih v).mp h with ⟨j, hj, hr⟩
          exact ⟨j, Nat.le_succ_of_le hj, hr⟩
        · rcases (ih u).mp hu with ⟨j, hj, hr⟩
          exact ⟨j + 1, Nat.succ_le_succ hj,
            ReachesIn.step j u v hr hadj hcol hv⟩
      · rintro ⟨j, hj, hr⟩
        rcases hr with ⟨v, hv, hcol⟩ | ⟨j', u, v, hr', hadj, hcol, hv⟩
        · exact Or.inl ((ih v).mpr ⟨0, Nat.zero_le k, ReachesIn.stone v hv hcol⟩)
        · rcases Nat.lt_or_ge j' k with hlt | hge
          · exact Or.inl ((ih v).mpr
              ⟨j' + 1, hlt, ReachesIn.step j' u v hr' hadj hcol hv⟩)
          · have hj'k : j' = k := by omega
            subst hj'k
            have hu : u ∈ reachSet b c j' := (ih u).mpr ⟨j', le_rfl, hr'⟩
            exact (reachSet_succ_mem b c j' v).mp
              (reachSet_step b c j' u v hu hadj hcol hv)

theorem adjacentRaw_cases (u : Nat) (hu : u < 361) :
    ∀ w ∈ adjacentRaw u, w = paddingPoint ∨ w < 361 := by
  intro w hw
  unfold adjacentRaw at hw
  simp only [List.mem_cons, List.mem_singleton, List.not_mem_nil, or_false] at hw
  rcases hw with h | h | h | h <;> rw [h] <;> split
  all_goals first | exact Or.inl rfl | (right; omega)

theorem self_not_mem_adjacentRaw (u : Nat) (hu : u < 361) :
    u ∉ adjacentRaw u := by
  intro hw
  unfold adjacentRaw at hw
  simp only [List.mem_cons, List.mem_singleton, List.not_mem_nil, or_false] at hw
  rcases hw with h | h | h | h <;> (rw [paddingPoint] at h; split at h <;> omega)

theorem mem_adjacent_to_raw (b : BoardFast) (p w : Nat) :
    w ∈ b.adjacent_to p → w ∈ adjacentRaw p ∧ (b.vertices w).valid = true := by
  intro hw
  have := List.mem_filter.mp hw
  exact ⟨this.1, of_decide_eq_true this.2⟩

theorem adjacent_to_lt (b : BoardFast)
    (hpad : (b.vertices paddingPoint).valid = false) (u : Nat) (hu : u < 361) :
    ∀ w ∈ b.adjacent_to u, w < 361 := by
  intro w hw
  obtain ⟨hraw, hval⟩ := mem_adjacent_to_raw b u w hw
  rcases adjacentRaw_cases u hu w hraw with h | h
  · rw [h, hpad] at hval; cases hval
  · exact h

theorem self_not_mem_adjacent_to (b : BoardFast) (u : Nat) (hu : u < 361) :
    u ∉ b.adjacent_to u := by
  intro hw
  exact self_not_mem_adjacentRaw u hu (mem_adjacent_to_raw b u u hw).1

/-! Sum bookkeeping for the termination measure of the flood. -/

/-- Sum of the territory values over the playable points. -/
def sumTerr (f : Nat → Nat) : Nat := (pointAll.map f).sum

theorem map_update_of_not_mem (f : Nat → Nat) (t w : Nat) (l : List Nat)
    (hw : w ∉ l) :
    l.map (fun q => if q = w then t else f q) = l.map f := by
  refine List.map_congr_left fun q hq => ?_
  have hne : q ≠ w := by intro h; rw [h] at hq; exact hw hq
  exact if_neg hne

theorem sum_map_update (l : List Nat) (hnd : l.Nodup) (f : Nat → Nat)
    (w t : Nat) (hw : w ∈ l) :
    (l.map (fun q => if q = w then t else f q)).sum + f w =
      (l.map f).sum + t := by
  induction l with
  | nil => cases hw
  | cons a l ih =>
      have hnda : a ∉ l := (List.nodup_cons.mp hnd).1
      have hndl : l.Nodup := (List.nodup_cons.mp hnd).2
      rcases List.mem_cons.mp hw with h | h
      · rw [h]
        rw [List.map_cons, List.sum_cons, List.map_cons, List.sum_cons,
          map_update_of_not_mem f t a l hnda, if_pos rfl]
        omega
      · have hne : a ≠ w := by intro hh; rw [hh] at hnda; exact hnda h
        rw [List.map_cons, List.sum_cons, List.map_cons, List.sum_cons,
          if_neg hne]
        have := ih hndl h
        omega

theorem sum_map_le_const (l : List Nat) (f : Nat → Nat) (M : Nat)
    (h : ∀ v ∈ l, f v ≤ M) : (l.map f).sum ≤ l.length * M := by
  induction l with
  | nil => simp
  | cons a l ih =>
      simp only [List.map_cons, List.sum_cons, List.length_cons]
      have h1 := h a (List.mem_cons_self a l)
      have h2 := ih fun v hv => h v (List.mem_cons_of_mem _ hv)
      calc f a + (l.map f).sum ≤ M + l.length * M := by omega
        _ = (l.length + 1) * M := by ring

/-! Stabilization of the breadth-first closure. -/

theorem reachSet_nodup (b : BoardFast) (c : Color) (k : Nat) :
    (reachSet b c k).Nodup := by
  induction k with
  | zero => exact (List.nodup_range numPoints).filter _
  | succ k ih =>
      refine List.Nodup.append ih ((List.nodup_range numPoints).filter _) ?_
      intro v hv hv'
      have := List.mem_filter.mp hv'
      simp only [Bool.and_eq_true, decide_eq_true_eq] at this
      exact this.2.1.1 hv

theorem length_le_of_nodup_sub_range (l : List Nat) (n : Nat)
    (hnd : l.Nodup) (hsub : ∀ v ∈ l, v < n) : l.length ≤ n := by
  classical
  have hcard : l.toFinset.card = l.length := List.toFinset_card_of_nodup hnd
  have hsub' : l.toFinset ⊆ Finset.range n := by
    intro v hv
    exact Finset.mem_range.mpr (hsub v (List.mem_toFinset.mp hv))
  calc l.length = l.toFinset.card := hcard.symm
    _ ≤ (Finset.range n).card := Finset.card_le_card hsub'
    _ = n := Finset.card_range n

theorem reachSet_length_le (b : BoardFast) (c : Color) (k : Nat) :
    (reachSet b c k).length ≤ 361 :=
  length_le_of_nodup_sub_range _ 361 (reachSet_nodup b c k)
    (reachSet_lt b c k)

theorem reachSet_collapse (b : BoardFast) (c : Color) :
    ∀ m v, v ∈ reachSet b c m → v ∈ reachSet b c 361 := by
  have key : ∃ k, k ≤ 361 ∧
      ∀ v, v ∈ reachSet b c (k + 1) → v ∈ reachSet b c k := by
    by_contra hno
    push_neg at hno
    have hgrow : ∀ k, k ≤ 361 →
        (reachSet b c k).length + 1 ≤ (reachSet b c (k + 1)).length := by
      intro k hk
      obtain ⟨v, hv1, hv0⟩ := hno k hk
      have hsplit : reachSet b c (k + 1) =
          reachSet b c k ++ (pointAll.filter fun v =>
            decide (v ∉ reachSet b c k) &&
              decide ((b.vertices v).color = none) &&
              (reachSet b c k).any fun u => decide (v ∈ b.adjacent_to u)) := rfl
      have hvnew : v ∈ (pointAll.filter fun v =>
          decide (v ∉ reachSet b c k) &&
            decide ((b.vertices v).color = none) &&
            (reachSet b c k).any fun u => decide (v ∈ b.adjacent_to u)) := by
        rw [hsplit] at hv1
        rcases List.mem_append.mp hv1 with h | h
        · exact absurd h hv0
        · exact h
      rw [hsplit, List.length_append]
      have : 1 ≤ (pointAll.filter fun v =>
          decide (v ∉ reachSet b c k) &&
            decide ((b.vertices v).color = none) &&
            (reachSet b c k).any fun u => decide (v ∈ b.adjacent_to u)).length :=
        List.length_pos.mpr (List.ne_nil_of_mem hvnew)
      omega
    have hlen : ∀ k, k ≤ 362 → k ≤ (reachSet b c k).length := by
      intro k
      induction k with
      | zero => intro _; exact Nat.zero_le _
      | succ k ih =>
          intro hk
          have h1 := ih (by omega)
          have h2 := hgrow k (by omega)
          omega
    have := hlen 362 le_rfl
    have := reachSet_length_le b c 362
    omega
  obtain ⟨k, hk, hstab⟩ := key
  have hall : ∀ m v, v ∈ reachSet b c m → v ∈ reachSet b c k := by
    intro m
    induction m with
    | zero => exact fun v hv => reachSet_mono b c (Nat.zero_le k) v hv
    | succ m ih =>
        intro v hv
        rcases (reachSet_succ_mem b c m v).mp hv with h | ⟨hv361, _, hcol, u, hu, hadj⟩
        · exact ih v h
        · exact hstab v (reachSet_step b c k u v (ih u hu) hadj hcol hv361)
  intro m v hv
  exact reachSet_mono b c hk v (hall m v hv)

/-- Every member of the closure is a stone of the color or empty. -/
theorem reachSet_color (b : BoardFast) (c : Color) (k : Nat) :
    ∀ v ∈ reachSet b c k,
      (b.vertices v).color = some c ∨ (b.vertices v).color = none := by
  induction k with
  | zero =>
      intro v hv
      exact Or.inl ((reachSet_zero_mem b c v).mp hv).2
  | succ k ih =>
      intro v hv
      rcases (reachSet_succ_mem b c k v).mp hv with h | h
      · exact ih v h
      · exact Or.inr h.2.2.1

/-! Characterization of the seeding pass. -/

theorem seed_fold_spec (board : BoardFast) (color : Color) :
    ∀ (l : List Nat) (f : Nat → Nat) (q : List Nat),
      (∀ v, (l.foldl (seedStep board color) (f, q)).1 v =
        if v ∈ l ∧ (board.vertices v).color = some color then 0 else f v) ∧
      (l.foldl (seedStep board color) (f, q)).2 =
        q ++ l.filter fun v => decide ((board.vertices v).color = some color) := by
  intro l
  induction l with
  | nil =>
      intro f q
      constructor
      · intro v; simp
      · simp
  | cons a l ih =>
      intro f q
      rw [List.foldl_cons]
      by_cases ha : (board.vertices a).color = some color
      · have hstep : seedStep board color (f, q) a =
            (fun w => if w = a then 0 else f w, q ++ [a]) := by
          unfold seedStep; rw [if_pos ha]
        rw [hstep]
        obtain ⟨ih1, ih2⟩ := ih (fun w => if w = a then 0 else f w) (q ++ [a])
        constructor
        · intro v
          rw [ih1 v]
          by_cases hvl : v ∈ l ∧ (board.vertices v).color = some color
          · rw [if_pos hvl, if_pos ⟨List.mem_cons_of_mem _ hvl.1, hvl.2⟩]
          · rw [if_neg hvl]
            by_cases hva : v = a
            · subst hva
              rw [if_pos rfl, if_pos ⟨List.mem_cons_self v l, ha⟩]
            · rw [if_neg hva]
              have : ¬ (v ∈ a :: l ∧ (board.vertices v).color = some color) := by
                rintro ⟨hm, hc⟩
                rcases List.mem_cons.mp hm with h | h
                · exact hva h
                · exact hvl ⟨h, hc⟩
              rw [if_neg this]
        · rw [ih2, List.filter_cons, if_pos (by simpa using ha)]
          simp
      · have hstep : seedStep board color (f, q) a = (f, q) := by
          unfold seedStep; rw [if_neg ha]
        rw [hstep]
        obtain ⟨ih1, ih2⟩ := ih f q
        constructor
        · intro v
          rw [ih1 v]
          by_cases hvl : v ∈ l ∧ (board.vertices v).color = some color
          · rw [if_pos hvl, if_pos ⟨List.mem_cons_of_mem _ hvl.1, hvl.2⟩]
          · rw [if_neg hvl]
            have : ¬ (v ∈ a :: l ∧ (board.vertices v).color = some color) := by
              rintro ⟨hm, hc⟩
              rcases List.mem_cons.mp hm with h | h
              · rw [h] at hc; exact ha hc
              · exact hvl ⟨h, hc⟩
            rw [if_neg this]
        · rw [ih2, List.filter_cons, if_neg (by simpa using ha)]

/-! Characterization of one relaxation pass over the neighbours of the
popped probe. -/

theorem relax_fold_spec (board : BoardFast) (t : Nat) :
    ∀ (L : List Nat) (f : Nat → Nat) (q : List Nat),
      (∀ v, (L.foldl (relaxStep board t) (f, q)).1 v = f v ∨
        ((L.foldl (relaxStep board t) (f, q)).1 v = t ∧ t < f v ∧
          (board.vertices v).color = none ∧ v ∈ L)) ∧
      (∀ w ∈ L, (board.vertices w).color = none →
        (L.foldl (relaxStep board t) (f, q)).1 w ≤ t) ∧
      (∃ new, (L.foldl (relaxStep board t) (f, q)).2 = q ++ new ∧
        ∀ e ∈ new, e ∈ L ∧ (L.foldl (relaxStep board t) (f, q)).1 e = t ∧
          t < f e) ∧
      (∀ v, (L.foldl (relaxStep board t) (f, q)).1 v ≠ f v →
        v ∈ (L.foldl (relaxStep board t) (f, q)).2) ∧
      ((∀ w ∈ L, w < 361) →
        sumTerr (L.foldl (relaxStep board t) (f, q)).1 +
            (L.foldl (relaxStep board t) (f, q)).2.length ≤
          sumTerr f + q.length) := by
  intro L
  induction L with
  | nil =>
      intro f q
      refine ⟨fun v => Or.inl rfl, by simp, ⟨[], by simp, by simp⟩,
        fun v hv => absurd rfl hv, fun _ => le_rfl⟩
  | cons a L ih =>
      intro f q
      rw [List.foldl_cons]
      by_cases hcond : (board.vertices a).color = none ∧ t < f a
      · have hstep : relaxStep board t (f, q) a =
            (fun w => if w = a then t else f w, q ++ [a]) := by
          unfold relaxStep; rw [if_pos hcond]
        rw [hstep]
        obtain ⟨ih1, ih2, ⟨new, hnew, hnewmem⟩, ih4, ih5⟩ :=
          ih (fun w => if w = a then t else f w) (q ++ [a])
        refine ⟨?_, ?_, ?_, ?_, ?_⟩
        · intro v
          rcases ih1 v with h | ⟨h1, h2, h3, h4⟩
          · by_cases hva : v = a
            · subst hva
              rw [if_pos rfl] at h
              exact Or.inr ⟨h, hcond.2, hcond.1, List.mem_cons_self v L⟩
            · rw [if_neg hva] at h
              exact Or.inl h
          · by_cases hva : v = a
            · subst hva
              rw [if_pos rfl] at h2
              omega
            · rw [if_neg hva] at h2
              exact Or.inr ⟨h1, h2, h3, List.mem_cons_of_mem _ h4⟩
        · intro w hw hcol
          rcases List.mem_cons.mp hw with hwa | hwL
          · subst hwa
            rcases ih1 w with h | ⟨h1, _⟩
            · rw [if_pos rfl] at h; omega
            · omega
          · exact ih2 w hwL hcol
        · refine ⟨a :: new, by rw [hnew]; simp, ?_⟩
          intro e he
          rcases List.mem_cons.mp he with hea | hen
          · subst hea
            refine ⟨List.mem_cons_self e L, ?_, hcond.2⟩
            rcases ih1 e with h | ⟨h1, _⟩
            · rw [if_pos rfl] at h; exact h
            · exact h1
          · obtain ⟨h1, h2, h3⟩ := hnewmem e hen
            have hea : e ≠ a := by
              intro hh
              rw [hh, if_pos rfl] at h3
              omega
            rw [if_neg hea] at h3
            exact ⟨List.mem_cons_of_mem _ h1, h2, h3⟩
        · intro v hv
          by_cases hch : (List.foldl (relaxStep board t)
              (fun w => if w = a then t else f w, q ++ [a]) L).1 v =
                (fun w => if w = a then t else f w) v
          · by_cases hva : v = a
            · subst hva
              rw [hnew]
              simp
            · exfalso
              rw [hch] at hv
              simp only [if_neg hva] at hv
              exact hv rfl
          · exact ih4 v hch
        · intro hL
          have h5 := ih5 fun w hw => hL w (List.mem_cons_of_mem _ hw)
          have ha361 : a < 361 := hL a (List.mem_cons_self a L)
          have hupd := sum_map_update pointAll
            (List.nodup_range numPoints) f a t
            (by rw [pointAll, numPoints]; exact List.mem_range.mpr ha361)
          unfold sumTerr at h5 hupd ⊢
          rw [List.length_append] at h5
          have ht : t < f a := hcond.2
          simp only [List.length_singleton] at h5
          omega
      · have hstep : relaxStep board t (f, q) a = (f, q) := by
          unfold relaxStep; rw [if_neg hcond]
        rw [hstep]
        obtain ⟨ih1, ih2, ⟨new, hnew, hnewmem⟩, ih4, ih5⟩ := ih f q
        refine ⟨?_, ?_, ?_, ?_, ?_⟩
        · intro v
          rcases ih1 v with h | ⟨h1, h2, h3, h4⟩
          · exact Or.inl h
          · exact Or.inr ⟨h1, h2, h3, List.mem_cons_of_mem _ h4⟩
        · intro w hw hcol
          rcases List.mem_cons.mp hw with hwa | hwL
          · subst hwa
            have hle : f w ≤ t := by
              by_contra hgt
              exact hcond ⟨hcol, by omega⟩
            rcases ih1 w with h | ⟨h1, _⟩
            · omega
            · omega
          · exact ih2 w hwL hcol
        · refine ⟨new, hnew, ?_⟩
          intro e hen
          obtain ⟨h1, h2, h3⟩ := hnewmem e hen
          exact ⟨List.mem_cons_of_mem _ h1, h2, h3⟩
        · exact ih4
        · intro hL
          exact ih5 fun w hw => hL w (List.mem_cons_of_mem _ hw)

/-- The invariant carried through the flood loop. -/
def FloodInv (b : BoardFast) (c : Color) (terr : Nat → Nat)
    (q : List Nat) : Prop :=
  (∀ u ∈ q, u < 361 ∧ terr u ≤ 254) ∧
  (∀ v, v < 361 → terr v ≤ 255) ∧
  (∀ v, v < 361 → (b.vertices v).color = some c → terr v = 0) ∧
  (∀ v, v < 361 → terr v < 255 → v ∈ reachSet b c (terr v)) ∧
  (∀ u, u < 361 → u ∈ q ∨
    ∀ w ∈ b.adjacent_to u, (b.vertices w).color = none →
      terr w ≤ terr u + 1)

/-- What holds of the distances once the queue has drained. -/
def FloodFinal (b : BoardFast) (c : Color) (terr : Nat → Nat) : Prop :=
  (∀ v, v < 361 → terr v ≤ 255) ∧
  (∀ v, v < 361 → (b.vertices v).color = some c → terr v = 0) ∧
  (∀ v, v < 361 → terr v < 255 → v ∈ reachSet b c (terr v)) ∧
  (∀ u, u < 361 →
    ∀ w ∈ b.adjacent_to u, (b.vertices w).color = none →
      terr w ≤ terr u + 1)

theorem territoryLoop_nil (b : BoardFast) (terr : Nat → Nat) (fuel : Nat) :
    territoryLoop b terr [] fuel = terr := by
  cases fuel <;> rfl

theorem territoryLoop_cons (b : BoardFast) (terr : Nat → Nat)
    (index : Nat) (probes : List Nat) (fuel : Nat) :
    territoryLoop b terr (index :: probes) (fuel + 1) =
      territoryLoop b
        ((b.adjacent_to index).foldl (relaxStep b (terr index + 1))
          (terr, probes)).1
        ((b.adjacent_to index).foldl (relaxStep b (terr index + 1))
          (terr, probes)).2
        fuel := rfl

theorem final_of_inv_nil (b : BoardFast) (c : Color) (terr : Nat → Nat)
    (hinv : FloodInv b c terr []) : FloodFinal b c terr := by
  obtain ⟨_, h2, h3, h4, h5⟩ := hinv
  refine ⟨h2, h3, h4, ?_⟩
  intro u hu
  rcases h5 u hu with h | h
  · cases h
  · exact h

theorem territoryLoop_spec (b : BoardFast) (c : Color)
    (hpad : (b.vertices paddingPoint).valid = false) :
    ∀ (fuel : Nat) (terr : Nat → Nat) (q : List Nat),
      FloodInv b c terr q → sumTerr terr + q.length ≤ fuel →
      FloodFinal b c (territoryLoop b terr q fuel) := by
  intro fuel
  induction fuel with
  | zero =>
      intro terr q hinv hfuel
      cases q with
      | nil => rw [territoryLoop_nil]; exact final_of_inv_nil b c terr hinv
      | cons idx probes => simp [List.length_cons] at hfuel
  | succ fuel ih =>
      intro terr q hinv hfuel
      cases q with
      | nil => rw [territoryLoop_nil]; exact final_of_inv_nil b c terr hinv
      | cons idx probes =>
          rw [territoryLoop_cons]
          obtain ⟨hq, h255, hstone, hsound, hrelax⟩ := hinv
          have hidx : idx < 361 ∧ terr idx ≤ 254 :=
            hq idx (List.mem_cons_self idx probes)
          have hL : ∀ w ∈ b.adjacent_to idx, w < 361 :=
            adjacent_to_lt b hpad idx hidx.1
          obtain ⟨f0, f2, ⟨new, hnew, hnewmem⟩, f3, f4⟩ :=
            relax_fold_spec b (terr idx + 1) (b.adjacent_to idx) terr probes
          refine ih _ _ ⟨?_, ?_, ?_, ?_, ?_⟩ ?_
          · -- queue elements playable with value ≤ 254
            intro u hu
            rw [hnew] at hu
            rcases List.mem_append.mp hu with hu | hu
            · have h1 := hq u (List.mem_cons_of_mem _ hu)
              rcases f0 u with h | ⟨he, hlt, _, _⟩
              · exact ⟨h1.1, by omega⟩
              · exact ⟨h1.1, by omega⟩
            · obtain ⟨hmem, hval, hlt⟩ := hnewmem u hu
              have hu361 : u < 361 := hL u hmem
              have := h255 u hu361
              exact ⟨hu361, by omega⟩
          · -- all playable values ≤ 255
            intro v hv
            rcases f0 v with h | ⟨he, _, _, _⟩
            · rw [h]; exact h255 v hv
            · rw [he]; omega
          · -- stones of the color keep value 0
            intro v hv hcol
            rcases f0 v with h | ⟨_, _, hnone, _⟩
            · rw [h]; exact hstone v hv hcol
            · rw [hcol] at hnone; cases hnone
          · -- finite values are sound
            intro v hv hlt
            rcases f0 v with h | ⟨he, _, hnone, hmem⟩
            · rw [h]
              rw [h] at hlt
              exact hsound v hv hlt
            · rw [he]
              have hidxmem : idx ∈ reachSet b c (terr idx) :=
                hsound idx hidx.1 (by omega)
              exact reachSet_step b c (terr idx) idx v hidxmem hmem hnone hv
          · -- each vertex is queued or relaxed
            intro u hu
            by_cases hchg :
                ((b.adjacent_to idx).foldl (relaxStep b (terr idx + 1))
                  (terr, probes)).1 u = terr u
            · rcases hrelax u hu with hmem | hrel
              · rcases List.mem_cons.mp hmem with hmem | hmem
                · subst hmem
                  right
                  intro w hw hcol
                  have := f2 w hw hcol
                  omega
                · left
                  rw [hnew]
                  exact List.mem_append.mpr (Or.inl hmem)
              · right
                intro w hw hcol
                have h1 := hrel w hw hcol
                rcases f0 w with h | ⟨he, hlt, _, _⟩
                · omega
                · omega
            · left
              exact f3 u hchg
          · -- the measure dropped by at least one
            have h4 := f4 hL
            simp only [List.length_cons] at hfuel
            omega

theorem get_territory_distance_final (b : BoardFast) (c : Color)
    (hpad : (b.vertices paddingPoint).valid = false) :
    FloodFinal b c (get_territory_distance b c) := by
  obtain ⟨s1, s2⟩ := seed_fold_spec b c pointAll (fun _ => 255) []
  have hterr :
      get_territory_distance b c =
        territoryLoop b (pointAll.foldl (seedStep b c) (fun _ => 255, [])).1
          (pointAll.foldl (seedStep b c) (fun _ => 255, [])).2
          territoryFuel := rfl
  rw [hterr]
  apply territoryLoop_spec b c hpad
  · refine ⟨?_, ?_, ?_, ?_, ?_⟩
    · intro u hu
      rw [s2, List.nil_append] at hu
      have hmem := List.mem_filter.mp hu
      have hu361 : u < 361 := by
        have := hmem.1
        rw [pointAll, numPoints] at this
        exact List.mem_range.mp this
      have hcol : (b.vertices u).color = some c := of_decide_eq_true hmem.2
      rw [s1 u, if_pos ⟨hmem.1, hcol⟩]
      exact ⟨hu361, by omega⟩
    · intro v hv
      rw [s1 v]
      split <;> omega
    · intro v hv hcol
      have hvm : v ∈ pointAll := by
        rw [pointAll, numPoints]; exact List.mem_range.mpr hv
      rw [s1 v, if_pos ⟨hvm, hcol⟩]
    · intro v hv hlt
      rw [s1 v] at hlt ⊢
      by_cases hc : v ∈ pointAll ∧ (b.vertices v).color = some c
      · rw [if_pos hc] at hlt ⊢
        exact (reachSet_zero_mem b c v).mpr ⟨hv, hc.2⟩
      · rw [if_neg hc] at hlt
        omega
    · intro u hu
      by_cases hcol : (b.vertices u).color = some c
      · left
        rw [s2, List.nil_append]
        refine List.mem_filter.mpr ⟨?_, by simpa using hcol⟩
        rw [pointAll, numPoints]
        exact List.mem_range.mpr hu
      · right
        intro w hw hc
        have hunot : ¬ (u ∈ pointAll ∧ (b.vertices u).color = some c) := by
          rintro ⟨_, hcc⟩
          exact hcol hcc
        rw [s1 w, s1 u, if_neg hunot]
        split <;> omega
  · have hsum : sumTerr (pointAll.foldl (seedStep b c)
        (fun _ => 255, [])).1 ≤ 361 * 255 := by
      unfold sumTerr
      have := sum_map_le_const pointAll
        (pointAll.foldl (seedStep b c) (fun _ => 255, [])).1 255
        (fun v _ => by rw [s1 v]; split <;> omega)
      have hlen : pointAll.length = 361 := by simp [pointAll, numPoints]
      rw [hlen] at this
      exact this
    have hql : (pointAll.foldl (seedStep b c) (fun _ => 255, [])).2.length ≤
        361 := by
      rw [s2, List.nil_append]
      calc (pointAll.filter fun v =>
            decide ((b.vertices v).color = some c)).length ≤
          pointAll.length := List.length_filter_le _ _
        _ = 361 := by simp [pointAll, numPoints]
    rw [territoryFuel]
    omega

/-- A vertex reachable within `k` steps ends with distance at most `k`. -/
theorem terr_le_of_reach (b : BoardFast) (c : Color) (terr : Nat → Nat)
    (hfin : FloodFinal b c terr) :
    ∀ k v, v ∈ reachSet b c k → terr v ≤ k := by
  obtain ⟨h255, hstone, _, hrelax⟩ := hfin
  intro k
  induction k with
  | zero =>
      intro v hv
      obtain ⟨hv361, hcol⟩ := (reachSet_zero_mem b c v).mp hv
      rw [hstone v hv361 hcol]
  | succ k ih =>
      intro v hv
      rcases (reachSet_succ_mem b c k v).mp hv with h | ⟨hv361, _, hcol, u, hu, hadj⟩
      · exact Nat.le_succ_of_le (ih v h)
      · have hu361 : u < 361 := reachSet_lt b c k u hu
        have h1 := hrelax u hu361 v hadj hcol
        have h2 := ih u hu
        omega

/-- C8: `get_territory_distance` is `0` exactly on the color's stones, `255`
(`0xff`) on opposite stones and on empty vertices with no all-empty path
from a stone of the color, and the Manhattan shortest-path distance through
empty vertices on every other empty vertex (whenever that distance fits in
the byte, which every 19x19 position satisfies). -/
theorem get_territory_distance_correct (b : BoardFast) (c : Color)
    (hpad : (b.vertices paddingPoint).valid = false) (v : Nat)
    (hv : v < 361) :
    (get_territory_distance b c v = 0 ↔ (b.vertices v).color = some c) ∧
    ((b.vertices v).color = some c.opposite →
      get_territory_distance b c v = 255) ∧
    ((b.vertices v).color = none → (∀ j, ¬ ReachesIn b c j v) →
      get_territory_distance b c v = 255) ∧
    (∀ d, (b.vertices v).color = none → ReachesIn b c d v →
      (∀ j, ReachesIn b c j v → d ≤ j) → d ≤ 255 →
      1 ≤ d ∧ get_territory_distance b c v = d) := by
  have hfin := get_territory_distance_final b c hpad
  obtain ⟨h255, hstone, hsound, hrelax⟩ := hfin
  have hub := terr_le_of_reach b c (get_territory_distance b c)
    ⟨h255, hstone, hsound, hrelax⟩
  refine ⟨⟨?_, ?_⟩, ?_, ?_, ?_⟩
  · intro h0
    have hmem := hsound v hv (by omega)
    rw [h0] at hmem
    exact ((reachSet_zero_mem b c v).mp hmem).2
  · intro hcol
    exact hstone v hv hcol
  · intro hcol
    rcases Nat.lt_or_ge (get_territory_distance b c v) 255 with hlt | hge
    · exfalso
      have hmem := hsound v hv hlt
      rcases reachSet_color b c _ v hmem with h | h
      · rw [hcol] at h
        have : c.opposite = c := by
          injection h
        exact opposite_ne c this
      · rw [hcol] at h
        cases h
    · have := h255 v hv
      omega
  · intro hcol hnone
    rcases Nat.lt_or_ge (get_territory_distance b c v) 255 with hlt | hge
    · exfalso
      have hmem := hsound v hv hlt
      obtain ⟨j, _, hr⟩ := (reachSet_iff_reachesIn b c _ v).mp hmem
      exact hnone j hr
    · have := h255 v hv
      omega
  · intro d hcol hd hleast hd255
    have h1d : 1 ≤ d := by
      rcases Nat.eq_zero_or_pos d with h0 | h1
      · exfalso
        rw [h0] at hd
        rcases hd with ⟨v, _, hc⟩ | _
        · rw [hcol] at hc; cases hc
      · exact h1
    refine ⟨h1d, ?_⟩
    have hmemd : v ∈ reachSet b c d :=
      (reachSet_iff_reachesIn b c d v).mpr ⟨d, le_rfl, hd⟩
    have hle : get_territory_distance b c v ≤ d := hub d v hmemd
    rcases Nat.lt_or_ge (get_territory_distance b c v) 255 with hlt | hge
    · have hmem := hsound v hv hlt
      obtain ⟨j, hj, hr⟩ := (reachSet_iff_reachesIn b c _ v).mp hmem
      have := hleast j hr
      omega
    · have := h255 v hv
      omega

/-! ### Chain structure: paths along `next_point`, well-formed cycles -/

/-- `NextPath b u l v`: starting at `u` and repeatedly following
`next_point` visits exactly the vertices of `l` (in order, `u` first) and
then stands at `v`. -/
inductive NextPath (b : BoardFast) : Nat → List Nat → Nat → Prop where
  | nil : ∀ u, NextPath b u [] u
  | cons : ∀ u l v, NextPath b ((b.vertices u).next_point) l v →
      NextPath b u (u :: l) v

theorem NextPath.nil_eq {b : BoardFast} {u v : Nat}
    (h : NextPath b u [] v) : u = v := by
  cases h; rfl

theorem NextPath.cons_eq {b : BoardFast} {u q v : Nat} {l : List Nat}
    (h : NextPath b u (q :: l) v) :
    q = u ∧ NextPath b ((b.vertices u).next_point) l v := by
  cases h; exact ⟨rfl, by assumption⟩

theorem NextPath.append {b : BoardFast} {u m v : Nat} {l₁ l₂ : List Nat}
    (h1 : NextPath b u l₁ m) (h2 : NextPath b m l₂ v) :
    NextPath b u (l₁ ++ l₂) v := by
  induction h1 with
  | nil _ => exact h2
  | cons u' l' v' _ ih => exact NextPath.cons u' _ v (ih h2)

theorem NextPath.split {b : BoardFast} {u v : Nat} {l₁ l₂ : List Nat} :
    NextPath b u (l₁ ++ l₂) v →
      ∃ m, NextPath b u l₁ m ∧ NextPath b m l₂ v := by
  induction l₁ generalizing u with
  | nil => intro h; exact ⟨u, NextPath.nil u, h⟩
  | cons a l₁ ih =>
      intro h
      obtain ⟨hqa, h'⟩ := h.cons_eq
      obtain ⟨m, hm1, hm2⟩ := ih h'
      subst hqa
      exact ⟨m, NextPath.cons _ _ _ hm1, hm2⟩

theorem NextPath.congr {b b' : BoardFast} {u v : Nat} {l : List Nat}
    (h : NextPath b u l v)
    (hagree : ∀ q ∈ l,
      (b'.vertices q).next_point = (b.vertices q).next_point) :
    NextPath b' u l v := by
  induction h with
  | nil u => exact NextPath.nil u
  | cons u' l' v' h ih =>
      refine NextPath.cons u' l' v' ?_
      rw [hagree u' (List.mem_cons_self _ _)]
      exact ih fun q hq => hagree q (List.mem_cons_of_mem _ hq)

theorem chainAux_length_le (b : BoardFast) (stop : Nat) :
    ∀ fuel cur, (chainAux b stop cur fuel).length ≤ fuel := by
  intro fuel
  induction fuel with
  | zero => intro cur; simp [chainAux]
  | succ fuel ih =>
      intro cur
      unfold chainAux
      split
      · simp
      · simpa using Nat.succ_le_succ (ih _)

/-- A traversal that stops before its fuel runs out ended by reaching
`stop`. -/
theorem chainAux_path (b : BoardFast) (stop : Nat) :
    ∀ fuel cur, (chainAux b stop cur fuel).length < fuel →
      NextPath b cur (chainAux b stop cur fuel) stop := by
  intro fuel
  induction fuel with
  | zero => intro cur h; simp [chainAux] at h
  | succ fuel ih =>
      intro cur h
      unfold chainAux at h ⊢
      split
      · next heq => rw [heq]; exact NextPath.nil stop
      · next hne =>
          rw [if_neg hne] at h
          simp only [List.length_cons] at h
          exact NextPath.cons _ _ _ (ih _ (by omega))

/-- The traversal reproduces a given path to `stop` that avoids `stop`,
provided the fuel covers its length. -/
theorem chainAux_eq_of_path (b : BoardFast) (stop : Nat) :
    ∀ (l : List Nat) (cur fuel : Nat), NextPath b cur l stop →
      stop ∉ l → l.length ≤ fuel → chainAux b stop cur fuel = l := by
  intro l
  induction l with
  | nil =>
      intro cur fuel h _ _
      have := h.nil_eq
      subst this
      cases fuel <;> simp [chainAux]
  | cons a l ih =>
      intro cur fuel h hstop hlen
      obtain ⟨hqa, h'⟩ := h.cons_eq
      subst hqa
      have hne : a ≠ stop := by
        intro hh; exact hstop (hh ▸ List.mem_cons_self a l)
      cases fuel with
      | zero => simp at hlen
      | succ fuel =>
          unfold chainAux
          rw [if_neg (fun hh => hne hh)]
          have := ih ((b.vertices a).next_point) fuel h'
            (fun hh => hstop (List.mem_cons_of_mem _ hh))
            (by simpa using Nat.lt_succ_iff.mp (Nat.lt_of_lt_of_le
              (Nat.lt_succ_of_le le_rfl) (by simpa using hlen)))
          rw [this]

theorem chainAux_congr (b b' : BoardFast) (stop : Nat) :
    ∀ fuel cur,
      (∀ q ∈ chainAux b stop cur fuel,
        (b'.vertices q).next_point = (b.vertices q).next_point) →
      chainAux b' stop cur fuel = chainAux b stop cur fuel := by
  intro fuel
  induction fuel with
  | zero => intro cur _; rfl
  | succ fuel ih =>
      intro cur hagree
      unfold chainAux
      split
      · rfl
      · next hne =>
          have hcur : cur ∈ chainAux b stop cur (fuel + 1) := by
            unfold chainAux
            rw [if_neg hne]
            exact List.mem_cons_self _ _
          rw [hagree cur hcur]
          congr 1
          refine ih _ fun q hq => hagree q ?_
          unfold chainAux
          rw [if_neg hne]
          exact List.mem_cons_of_mem _ hq

theorem chainList_ne_nil (b : BoardFast) (p : Nat) : chainList b p ≠ [] := by
  unfold chainList
  exact List.cons_ne_nil _ _

theorem self_mem_chainList (b : BoardFast) (p : Nat) : p ∈ chainList b p := by
  unfold chainList
  exact List.mem_cons_self _ _

theorem chainList_congr (b b' : BoardFast) (p : Nat)
    (hagree : ∀ q ∈ chainList b p,
      (b'.vertices q).next_point = (b.vertices q).next_point) :
    chainList b' p = chainList b p := by
  unfold chainList
  rw [hagree p (self_mem_chainList b p)]
  congr 1
  refine chainAux_congr b b' p numPoints _ fun q hq => hagree q ?_
  unfold chainList
  exact List.mem_cons_of_mem _ hq

/-- A well-formed chain at `p`: the traversal visits pairwise distinct
playable vertices of one color sharing one head, closes back to `p`, and
passes through the head. -/
def ChainOk (b : BoardFast) (p : Nat) : Prop :=
  (chainList b p).Nodup ∧
  (∀ q ∈ chainList b p, q < 361 ∧
    (b.vertices q).color = (b.vertices p).color ∧
    (b.vertices q).head_point = (b.vertices p).head_point) ∧
  (b.vertices ((chainList b p).getLast (chainList_ne_nil b p))).next_point
    = p ∧
  (b.vertices p).head_point ∈ chainList b p

instance (b : BoardFast) (p : Nat) : Decidable (ChainOk b p) := by
  unfold ChainOk; infer_instance

theorem ChainOk.length_le {b : BoardFast} {p : Nat} (h : ChainOk b p) :
    (chainList b p).length ≤ 361 :=
  length_le_of_nodup_sub_range _ 361 h.1 fun q hq => (h.2.1 q hq).1

/-- A well-formed chain's traversal is a closed `next_point` path. -/
theorem ChainOk.cycle {b : BoardFast} {p : Nat} (h : ChainOk b p) :
    NextPath b p (chainList b p) p := by
  have hlen : (chainAux b p ((b.vertices p).next_point) numPoints).length
      < numPoints := by
    have h1 := h.length_le
    unfold chainList at h1
    simp only [List.length_cons] at h1
    have hnp : numPoints = 361 := rfl
    omega
  have hpath := chainAux_path b p numPoints _ hlen
  exact NextPath.cons _ _ _ hpath

theorem NextPath.getLast_next {b : BoardFast} {u v : Nat} {l : List Nat}
    (h : NextPath b u l v) (hne : l ≠ []) :
    (b.vertices (l.getLast hne)).next_point = v := by
  induction h with
  | nil u => exact absurd rfl hne
  | cons u' l' v' h ih =>
      cases l' with
      | nil =>
          have := h.nil_eq
          simp [List.getLast, this]
      | cons a l'' =>
          rw [List.getLast_cons (List.cons_ne_nil a l'')]
          exact ih (List.cons_ne_nil a l'')

/-- Reconstruct the code's traversal from an explicit closed path. -/
theorem chainList_eq_of_cycle (b : BoardFast) (p : Nat) (l : List Nat)
    (hpath : NextPath b p (p :: l) p) (hnodup : (p :: l).Nodup)
    (hlen : (p :: l).length ≤ 361) : chainList b p = p :: l := by
  unfold chainList
  obtain ⟨hp, htail⟩ := hpath.cons_eq
  congr 1
  refine chainAux_eq_of_path b p l _ numPoints htail ?_ ?_
  · exact (List.nodup_cons.mp hnodup).1
  · simp only [List.length_cons] at hlen
    have hnp : numPoints = 361 := rfl
    omega

/-- Rotating a well-formed chain: every member's traversal is the same
cycle started there. -/
theorem ChainOk.rotate {b : BoardFast} {p : Nat} (h : ChainOk b p)
    (q : Nat) (hq : q ∈ chainList b p) :
    ChainOk b q ∧ (∀ r, r ∈ chainList b q ↔ r ∈ chainList b p) := by
  obtain ⟨l₁, l₂, hsplit⟩ := List.append_of_mem hq
  have hcycle := h.cycle
  rw [hsplit] at hcycle
  obtain ⟨m, hm1, hm2⟩ := hcycle.split
  have hmq : m = q := (hm2.cons_eq).1.symm
  rw [hmq] at hm1 hm2
  have hrot : NextPath b q ((q :: l₂) ++ l₁) q := hm2.append hm1
  have hperm : (chainList b p).Perm (q :: (l₂ ++ l₁)) := by
    rw [hsplit]
    calc (l₁ ++ q :: l₂).Perm (q :: l₂ ++ l₁) := List.perm_append_comm
      _ = (q :: (l₂ ++ l₁)) := by simp
  have hnodup : (q :: (l₂ ++ l₁)).Nodup := hperm.nodup h.1
  have hlen : (q :: (l₂ ++ l₁)).length ≤ 361 := by
    rw [← hperm.length_eq]
    exact h.length_le
  have hchain : chainList b q = q :: (l₂ ++ l₁) := by
    exact chainList_eq_of_cycle b q (l₂ ++ l₁) hrot hnodup hlen
  have hmem : ∀ r, r ∈ chainList b q ↔ r ∈ chainList b p := by
    intro r
    rw [hchain]
    exact ⟨fun hr => (hperm.mem_iff).mpr hr, fun hr => (hperm.mem_iff).mp hr⟩
  refine ⟨⟨hchain ▸ hnodup, ?_, ?_, ?_⟩, hmem⟩
  · intro r hr
    have hrp := (hmem r).mp hr
    obtain ⟨hr1, hr2, hr3⟩ := h.2.1 r hrp
    obtain ⟨hq1, hq2, hq3⟩ := h.2.1 q hq
    exact ⟨hr1, by rw [hr2, hq2], by rw [hr3, hq3]⟩
  · have hne : (q :: (l₂ ++ l₁)) ≠ [] := List.cons_ne_nil _ _
    have hlast := hrot.getLast_next hne
    simp only [hchain]
    exact hlast
  · obtain ⟨hq1, hq2, hq3⟩ := h.2.1 q hq
    rw [hq3]
    exact (hmem _).mpr h.2.2.2

/-! Field bookkeeping: which vertex fields each primitive write touches. -/

theorem set_color_next (b : BoardFast) (p : Nat) (c : Option Color) (q : Nat) :
    ((b.set_color p c).vertices q).next_point = (b.vertices q).next_point := by
  unfold BoardFast.set_color BoardFast.modifyVertex
  dsimp only
  split <;> rfl

theorem set_color_head (b : BoardFast) (p : Nat) (c : Option Color) (q : Nat) :
    ((b.set_color p c).vertices q).head_point = (b.vertices q).head_point := by
  unfold BoardFast.set_color BoardFast.modifyVertex
  dsimp only
  split <;> rfl

theorem set_color_libs (b : BoardFast) (p : Nat) (c : Option Color) (q : Nat) :
    ((b.set_color p c).vertices q).num_liberties =
      (b.vertices q).num_liberties := by
  unfold BoardFast.set_color BoardFast.modifyVertex
  dsimp only
  split <;> rfl

theorem set_color_valid (b : BoardFast) (p : Nat) (c : Option Color) (q : Nat) :
    ((b.set_color p c).vertices q).valid = (b.vertices q).valid := by
  unfold BoardFast.set_color BoardFast.modifyVertex
  dsimp only
  split <;> rfl

theorem set_color_visited (b : BoardFast) (p : Nat) (c : Option Color)
    (q : Nat) :
    ((b.set_color p c).vertices q).visited = (b.vertices q).visited := by
  unfold BoardFast.set_color BoardFast.modifyVertex
  dsimp only
  split <;> rfl

theorem set_color_color (b : BoardFast) (p : Nat) (c : Option Color) (q : Nat) :
    ((b.set_color p c).vertices q).color =
      if q = p then c else (b.vertices q).color := by
  unfold BoardFast.set_color BoardFast.modifyVertex
  dsimp only
  split <;> rfl

theorem set_next_point_next (b : BoardFast) (p n q : Nat) :
    ((b.set_next_point p n).vertices q).next_point =
      if q = p then n else (b.vertices q).next_point := by
  unfold BoardFast.set_next_point BoardFast.modifyVertex
  dsimp only
  split <;> rfl

theorem set_next_point_others (b : BoardFast) (p n q : Nat) :
    ((b.set_next_point p n).vertices q).color = (b.vertices q).color ∧
    ((b.set_next_point p n).vertices q).head_point =
      (b.vertices q).head_point ∧
    ((b.set_next_point p n).vertices q).num_liberties =
      (b.vertices q).num_liberties ∧
    ((b.set_next_point p n).vertices q).valid = (b.vertices q).valid ∧
    ((b.set_next_point p n).vertices q).visited = (b.vertices q).visited := by
  unfold BoardFast.set_next_point BoardFast.modifyVertex
  dsimp only
  split <;> exact ⟨rfl, rfl, rfl, rfl, rfl⟩

theorem set_head_point_head (b : BoardFast) (p h q : Nat) :
    ((b.set_head_point p h).vertices q).head_point =
      if q = p then h else (b.vertices q).head_point := by
  unfold BoardFast.set_head_point BoardFast.modifyVertex
  dsimp only
  split <;> rfl

theorem set_head_point_others (b : BoardFast) (p h q : Nat) :
    ((b.set_head_point p h).vertices q).color = (b.vertices q).color ∧
    ((b.set_head_point p h).vertices q).next_point =
      (b.vertices q).next_point ∧
    ((b.set_head_point p h).vertices q).num_liberties =
      (b.vertices q).num_liberties ∧
    ((b.set_head_point p h).vertices q).valid = (b.vertices q).valid ∧
    ((b.set_head_point p h).vertices q).visited = (b.vertices q).visited := by
  unfold BoardFast.set_head_point BoardFast.modifyVertex
  dsimp only
  split <;> exact ⟨rfl, rfl, rfl, rfl, rfl⟩

theorem set_liberties_libs (b : BoardFast) (p n q : Nat) :
    ((b.set_liberties p n).vertices q).num_liberties =
      if q = p then n else (b.vertices q).num_liberties := by
  unfold BoardFast.set_liberties BoardFast.modifyVertex
  dsimp only
  split <;> rfl

theorem set_liberties_others (b : BoardFast) (p n q : Nat) :
    ((b.set_liberties p n).vertices q).color = (b.vertices q).color ∧
    ((b.set_liberties p n).vertices q).next_point =
      (b.vertices q).next_point ∧
    ((b.set_liberties p n).vertices q).head_point =
      (b.vertices q).head_point ∧
    ((b.set_liberties p n).vertices q).valid = (b.vertices q).valid ∧
    ((b.set_liberties p n).vertices q).visited = (b.vertices q).visited := by
  unfold BoardFast.set_liberties BoardFast.modifyVertex
  dsimp only
  split <;> exact ⟨rfl, rfl, rfl, rfl, rfl⟩

theorem add_liberties_libs (b : BoardFast) (p k q : Nat) :
    ((b.add_liberties p k).vertices q).num_liberties =
      if q = p then (b.vertices q).num_liberties + k
      else (b.vertices q).num_liberties := by
  unfold BoardFast.add_liberties BoardFast.modifyVertex
  dsimp only
  split <;> rfl

theorem add_liberties_others (b : BoardFast) (p k q : Nat) :
    ((b.add_liberties p k).vertices q).color = (b.vertices q).color ∧
    ((b.add_liberties p k).vertices q).next_point =
      (b.vertices q).next_point ∧
    ((b.add_liberties p k).vertices q).head_point =
      (b.vertices q).head_point ∧
    ((b.add_liberties p k).vertices q).valid = (b.vertices q).valid ∧
    ((b.add_liberties p k).vertices q).visited = (b.vertices q).visited := by
  unfold BoardFast.add_liberties BoardFast.modifyVertex
  dsimp only
  split <;> exact ⟨rfl, rfl, rfl, rfl, rfl⟩

theorem sub_liberties_libs (b : BoardFast) (p k q : Nat) :
    ((b.sub_liberties p k).vertices q).num_liberties =
      if q = p then (b.vertices q).num_liberties - k
      else (b.vertices q).num_liberties := by
  unfold BoardFast.sub_liberties BoardFast.modifyVertex
  dsimp only
  split <;> rfl

theorem sub_liberties_others (b : BoardFast) (p k q : Nat) :
    ((b.sub_liberties p k).vertices q).color = (b.vertices q).color ∧
    ((b.sub_liberties p k).vertices q).next_point =
      (b.vertices q).next_point ∧
    ((b.sub_liberties p k).vertices q).head_point =
      (b.vertices q).head_point ∧
    ((b.sub_liberties p k).vertices q).valid = (b.vertices q).valid ∧
    ((b.sub_liberties p k).vertices q).visited = (b.vertices q).visited := by
  unfold BoardFast.sub_liberties BoardFast.modifyVertex
  dsimp only
  split <;> exact ⟨rfl, rfl, rfl, rfl, rfl⟩

theorem set_visited_others (b : BoardFast) (p : Nat) (x : Bool) (q : Nat) :
    ((b.set_visited p x).vertices q).color = (b.vertices q).color ∧
    ((b.set_visited p x).vertices q).next_point =
      (b.vertices q).next_point ∧
    ((b.set_visited p x).vertices q).head_point =
      (b.vertices q).head_point ∧
    ((b.set_visited p x).vertices q).num_liberties =
      (b.vertices q).num_liberties ∧
    ((b.set_visited p x).vertices q).valid = (b.vertices q).valid := by
  unfold BoardFast.set_visited BoardFast.modifyVertex
  dsimp only
  split <;> exact ⟨rfl, rfl, rfl, rfl, rfl⟩

/-- `b'` differs from `b` at most in colors, liberty counts and visited
flags: the link structure (next, head) and validity are untouched. -/
def SameLinks (b b' : BoardFast) : Prop :=
  ∀ q, (b'.vertices q).next_point = (b.vertices q).next_point ∧
    (b'.vertices q).head_point = (b.vertices q).head_point ∧
    (b'.vertices q).valid = (b.vertices q).valid

theorem SameLinks.refl (b : BoardFast) : SameLinks b b :=
  fun _ => ⟨rfl, rfl, rfl⟩

theorem SameLinks.trans {a b c : BoardFast} (h1 : SameLinks a b)
    (h2 : SameLinks b c) : SameLinks a c := by
  intro q
  obtain ⟨x1, x2, x3⟩ := h1 q
  obtain ⟨y1, y2, y3⟩ := h2 q
  exact ⟨y1.trans x1, y2.trans x2, y3.trans x3⟩

theorem sameLinks_add_liberties (b : BoardFast) (p k : Nat) :
    SameLinks b (b.add_liberties p k) := by
  intro q
  obtain ⟨_, h2, h3, h4, _⟩ := add_liberties_others b p k q
  exact ⟨h2, h3, h4⟩

theorem sameLinks_sub_liberties (b : BoardFast) (p k : Nat) :
    SameLinks b (b.sub_liberties p k) := by
  intro q
  obtain ⟨_, h2, h3, h4, _⟩ := sub_liberties_others b p k q
  exact ⟨h2, h3, h4⟩

theorem sameLinks_set_color (b : BoardFast) (p : Nat) (c : Option Color) :
    SameLinks b (b.set_color p c) := fun q =>
  ⟨set_color_next b p c q, set_color_head b p c q, set_color_valid b p c q⟩

theorem sameLinks_incr (b : BoardFast) (sp : Nat) :
    SameLinks b (b.incr_adjacent_liberties sp) := by
  unfold BoardFast.incr_adjacent_liberties
  have key : ∀ (l : List (Nat × Nat)) (st : BoardFast × List Nat),
      SameLinks b st.1 →
      SameLinks b (l.foldl (incrStep ((b.vertices sp).head_point)) st).1 := by
    intro l
    induction l with
    | nil => intro st h; exact h
    | cons a l ih =>
        intro st h
        refine ih _ ?_
        unfold incrStep
        dsimp only
        split
        · split
          · exact h.trans (sameLinks_add_liberties _ _ _)
          · exact h
        · exact h
  exact key _ _ (SameLinks.refl b)

theorem incr_color (b : BoardFast) (sp q : Nat) :
    ((b.incr_adjacent_liberties sp).vertices q).color =
      (b.vertices q).color := by
  unfold BoardFast.incr_adjacent_liberties
  have key : ∀ (l : List (Nat × Nat)) (st : BoardFast × List Nat),
      (st.1.vertices q).color = (b.vertices q).color →
      (((l.foldl (incrStep ((b.vertices sp).head_point)) st).1).vertices
        q).color = (b.vertices q).color := by
    intro l
    induction l with
    | nil => intro st h; exact h
    | cons a l ih =>
        intro st h
        refine ih _ ?_
        unfold incrStep
        dsimp only
        split
        · split
          · rw [(add_liberties_others _ _ _ _).1]; exact h
          · exact h
        · exact h
  exact key _ _ rfl

theorem capture_hash (b : BoardFast) (c : Color) (p : Nat) :
    (b.capture c p).2 = b.capture_if c p := by
  unfold BoardFast.capture BoardFast.capture_if
  have key : ∀ (l : List Nat) (st : BoardFast × Nat),
      (l.foldl (captureStep c) st).2 =
        l.foldl (fun adjust cur => adjust ^^^ TABLE c cur) st.2 := by
    intro l
    induction l with
    | nil => intro st; rfl
    | cons a l ih => intro st; exact ih _
  exact key _ _

theorem capture_color (b : BoardFast) (c : Color) (p q : Nat) :
    (((b.capture c p).1).vertices q).color =
      if q ∈ chainList b p then none else (b.vertices q).color := by
  unfold BoardFast.capture
  have key : ∀ (l : List Nat) (st : BoardFast × Nat),
      (((l.foldl (captureStep c) st).1).vertices q).color =
        if q ∈ l then none else (st.1.vertices q).color := by
    intro l
    induction l with
    | nil => intro st; simp
    | cons a l ih =>
        intro st
        rw [List.foldl_cons, ih]
        by_cases hql : q ∈ l
        · rw [if_pos hql, if_pos (List.mem_cons_of_mem _ hql)]
        · rw [if_neg hql]
          unfold captureStep
          dsimp only
          rw [incr_color, set_color_color]
          by_cases hqa : q = a
          · rw [if_pos hqa, if_pos (by rw [hqa]; exact List.mem_cons_self a l)]
          · rw [if_neg hqa, if_neg (by
              intro hmem
              rcases List.mem_cons.mp hmem with h | h
              · exact hqa h
              · exact hql h)]
  exact key _ _

/-! From-scratch Zobrist hashing. -/

/-- The Zobrist contribution of one vertex state. -/
def zEntry (oc : Option Color) (p : Nat) : Nat :=
  match oc with
  | some c => TABLE c p
  | none => 0

/-- The from-scratch Zobrist hash of a board: the XOR of the table entries
of every stone on it. -/
def scratchHash (b : BoardFast) : Nat :=
  pointAll.foldl (fun h p => h ^^^ zEntry ((b.vertices p).color) p) 0

theorem foldl_xor_init (f : Nat → Nat) (l : List Nat) (a : Nat) :
    l.foldl (fun h p => h ^^^ f p) a =
      a ^^^ l.foldl (fun h p => h ^^^ f p) 0 := by
  induction l generalizing a with
  | nil => simp
  | cons q l ih =>
      rw [List.foldl_cons, List.foldl_cons, ih, ih (0 ^^^ f q)]
      simp [Nat.xor_assoc]

theorem foldl_xor_congr (f g : Nat → Nat) (l : List Nat)
    (h : ∀ p ∈ l, f p = g p) :
    l.foldl (fun h p => h ^^^ f p) 0 = l.foldl (fun h p => h ^^^ g p) 0 := by
  induction l with
  | nil => rfl
  | cons q l ih =>
      rw [List.foldl_cons, List.foldl_cons,
        h q (List.mem_cons_self q l),
        foldl_xor_init f, foldl_xor_init g,
        ih fun p hp => h p (List.mem_cons_of_mem _ hp)]

theorem foldl_xor_update (f g : Nat → Nat) (l : List Nat) (q : Nat)
    (hnd : l.Nodup) (hq : q ∈ l)
    (hagree : ∀ p ∈ l, p ≠ q → f p = g p) :
    l.foldl (fun h p => h ^^^ f p) 0 ^^^ f q =
      l.foldl (fun h p => h ^^^ g p) 0 ^^^ g q := by
  obtain ⟨l₁, l₂, hsplit⟩ := List.append_of_mem hq
  subst hsplit
  have hnd' := List.nodup_append.mp hnd
  have hq1 : q ∉ l₁ := fun hmem =>
    hnd'.2.2 hmem (List.mem_cons_self q l₂)
  have hq2 : q ∉ l₂ := (List.nodup_cons.mp hnd'.2.1).1
  have hagree1 : ∀ p ∈ l₁, f p = g p := fun p hp =>
    hagree p (List.mem_append_left _ hp) (fun hh => hq1 (hh ▸ hp))
  have hagree2 : ∀ p ∈ l₂, f p = g p := fun p hp =>
    hagree p (List.mem_append_right _ (List.mem_cons_of_mem _ hp))
      (fun hh => hq2 (hh ▸ hp))
  rw [List.foldl_append, List.foldl_append, List.foldl_cons,
    List.foldl_cons]
  rw [foldl_xor_init f (l₁), foldl_xor_init g (l₁)]
  rw [foldl_xor_init f l₂, foldl_xor_init g l₂]
  rw [foldl_xor_congr f g l₁ hagree1, foldl_xor_congr f g l₂ hagree2]
  generalize l₁.foldl (fun h p => h ^^^ g p) 0 = A
  generalize l₂.foldl (fun h p => h ^^^ g p) 0 = B
  -- (0 xor A xor f q xor B) xor f q = (0 xor A xor g q xor B) xor g q
  have hx : ∀ x y z : Nat, ((x ^^^ y) ^^^ z) ^^^ y = x ^^^ z := by
    intro x y z
    rw [Nat.xor_assoc x y z, Nat.xor_comm y z, ← Nat.xor_assoc x z y,
      Nat.xor_assoc (x ^^^ z) y y, Nat.xor_self, Nat.xor_zero]
  calc ((0 ^^^ A ^^^ f q) ^^^ B) ^^^ f q
      = (((0 ^^^ A) ^^^ f q) ^^^ B) ^^^ f q := by rw [Nat.xor_assoc (0 ^^^ A)]
    _ = ((0 ^^^ A) ^^^ B ^^^ f q) ^^^ f q := by
        rw [Nat.xor_assoc ((0 ^^^ A)) (f q) B, Nat.xor_comm (f q) B,
          ← Nat.xor_assoc]
    _ = (0 ^^^ A) ^^^ B := by
        rw [Nat.xor_assoc ((0 ^^^ A) ^^^ B) (f q) (f q), Nat.xor_self,
          Nat.xor_zero, Nat.xor_assoc]
    _ = (((0 ^^^ A) ^^^ g q) ^^^ B) ^^^ g q := by
        rw [Nat.xor_assoc ((0 ^^^ A)) (g q) B, Nat.xor_comm (g q) B,
          ← Nat.xor_assoc, Nat.xor_assoc ((0 ^^^ A) ^^^ B) (g q) (g q),
          Nat.xor_self, Nat.xor_zero, Nat.xor_assoc]
    _ = ((0 ^^^ A ^^^ g q) ^^^ B) ^^^ g q := by
        rw [Nat.xor_assoc (0 ^^^ A)]

theorem scratchHash_congr (b b' : BoardFast)
    (h : ∀ p ∈ pointAll, (b'.vertices p).color = (b.vertices p).color) :
    scratchHash b' = scratchHash b := by
  unfold scratchHash
  exact foldl_xor_congr _ _ pointAll fun p hp => by rw [h p hp]

theorem scratchHash_set_color (b : BoardFast) (q : Nat) (hq : q < 361)
    (c' : Option Color) :
    scratchHash (b.set_color q c') =
      scratchHash b ^^^ zEntry ((b.vertices q).color) q ^^^ zEntry c' q := by
  have hmem : q ∈ pointAll := by
    rw [pointAll, numPoints]; exact List.mem_range.mpr hq
  have hupd := foldl_xor_update
    (fun p => zEntry (((b.set_color q c').vertices p).color) p)
    (fun p => zEntry ((b.vertices p).color) p)
    pointAll q (List.nodup_range numPoints) hmem
    (fun p _ hpq => by
      show zEntry (((b.set_color q c').vertices p).color) p =
        zEntry ((b.vertices p).color) p
      rw [set_color_color, if_neg hpq])
  unfold scratchHash
  dsimp only at hupd
  have hsc : ((b.set_color q c').vertices q).color = c' := by
    rw [set_color_color, if_pos rfl]
  rw [hsc] at hupd
  -- hupd : new-fold ^^^ zEntry c' q = old-fold ^^^ zEntry (old color) q
  have := congrArg (fun x => x ^^^ zEntry c' q) hupd
  dsimp only at this
  rw [Nat.xor_assoc _ (zEntry c' q) (zEntry c' q), Nat.xor_self,
    Nat.xor_zero] at this
  rw [this, Nat.xor_assoc]

theorem capture_scratch (b : BoardFast) (c : Color) (p : Nat)
    (hnd : (chainList b p).Nodup)
    (hmem : ∀ v ∈ chainList b p,
      (b.vertices v).color = some c ∧ v < 361) :
    scratchHash (b.capture c p).1 = scratchHash b ^^^ b.capture_if c p := by
  unfold BoardFast.capture BoardFast.capture_if
  have key : ∀ (l : List Nat) (st : BoardFast × Nat), l.Nodup →
      (∀ v ∈ l, (st.1.vertices v).color = some c ∧ v < 361) →
      scratchHash (l.foldl (captureStep c) st).1 =
        scratchHash st.1 ^^^
          l.foldl (fun adjust cur => adjust ^^^ TABLE c cur) 0 := by
    intro l
    induction l with
    | nil => intro st _ _; simp [scratchHash]
    | cons a l ih =>
        intro st hnd hcol
        rw [List.foldl_cons, List.foldl_cons]
        have hnda := List.nodup_cons.mp hnd
        have hca := hcol a (List.mem_cons_self a l)
        have hstep : scratchHash (captureStep c st a).1 =
            scratchHash st.1 ^^^ TABLE c a := by
          unfold captureStep
          dsimp only
          have h1 : scratchHash
              ((st.1.set_color a none).incr_adjacent_liberties a) =
                scratchHash (st.1.set_color a none) :=
            scratchHash_congr _ _ fun q _ => incr_color _ _ _
          rw [h1, scratchHash_set_color st.1 a hca.2 none, hca.1]
          show scratchHash st.1 ^^^ TABLE c a ^^^ 0 = _
          rw [Nat.xor_zero]
        have hcol' : ∀ v ∈ l,
            ((captureStep c st a).1.vertices v).color = some c ∧ v < 361 := by
          intro v hv
          have hva : v ≠ a := fun hh => hnda.1 (hh ▸ hv)
          have := hcol v (List.mem_cons_of_mem _ hv)
          refine ⟨?_, this.2⟩
          unfold captureStep
          dsimp only
          rw [incr_color, set_color_color, if_neg hva]
          exact this.1
        rw [ih _ hnda.2 hcol', hstep,
          foldl_xor_init (TABLE c) l (0 ^^^ TABLE c a), Nat.zero_xor,
          Nat.xor_assoc]
  exact key _ _ hnd hmem

theorem sameLinks_capture (b : BoardFast) (c : Color) (p : Nat) :
    SameLinks b (b.capture c p).1 := by
  unfold BoardFast.capture
  have key : ∀ (l : List Nat) (st : BoardFast × Nat),
      SameLinks b st.1 →
      SameLinks b (l.foldl (captureStep c) st).1 := by
    intro l
    induction l with
    | nil => intro st h; exact h
    | cons a l ih =>
        intro st h
        refine ih _ ?_
        unfold captureStep
        dsimp only
        exact (h.trans (sameLinks_set_color _ _ _)).trans (sameLinks_incr _ _)
  exact key _ _ (SameLinks.refl b)

/-! The head-rewriting pass of `join_blocks`. -/

theorem fold_set_head_head (h2 : Nat) :
    ∀ (l : List Nat) (acc : BoardFast) (q : Nat),
      (((l.foldl (fun bb point => bb.set_head_point point h2) acc)).vertices
        q).head_point =
      if q ∈ l then h2 else (acc.vertices q).head_point := by
  intro l
  induction l with
  | nil => intro acc q; simp
  | cons a l ih =>
      intro acc q
      rw [List.foldl_cons, ih]
      by_cases hql : q ∈ l
      · rw [if_pos hql, if_pos (List.mem_cons_of_mem _ hql)]
      · rw [if_neg hql, set_head_point_head]
        by_cases hqa : q = a
        · rw [if_pos hqa, if_pos (by rw [hqa]; exact List.mem_cons_self a l)]
        · rw [if_neg hqa, if_neg (by
            intro hmem
            rcases List.mem_cons.mp hmem with h | h
            · exact hqa h
            · exact hql h)]

theorem fold_set_head_others (h2 : Nat) :
    ∀ (l : List Nat) (acc : BoardFast) (q : Nat),
      (((l.foldl (fun bb point => bb.set_head_point point h2) acc)).vertices
          q).color = (acc.vertices q).color ∧
      (((l.foldl (fun bb point => bb.set_head_point point h2) acc)).vertices
          q).next_point = (acc.vertices q).next_point ∧
      (((l.foldl (fun bb point => bb.set_head_point point h2) acc)).vertices
          q).num_liberties = (acc.vertices q).num_liberties ∧
      (((l.foldl (fun bb point => bb.set_head_point point h2) acc)).vertices
          q).valid = (acc.vertices q).valid ∧
      (((l.foldl (fun bb point => bb.set_head_point point h2) acc)).vertices
          q).visited = (acc.vertices q).visited := by
  intro l
  induction l with
  | nil => intro acc q; exact ⟨rfl, rfl, rfl, rfl, rfl⟩
  | cons a l ih =>
      intro acc q
      rw [List.foldl_cons]
      obtain ⟨i1, i2, i3, i4, i5⟩ := ih (acc.set_head_point a h2) q
      obtain ⟨s1, s2, s3, s4, s5⟩ := set_head_point_others acc a h2 q
      exact ⟨i1.trans s1, i2.trans s2, i3.trans s3, i4.trans s4, i5.trans s5⟩

theorem join_blocks_eq (b : BoardFast) (one two : Nat)
    (hne : (b.vertices one).head_point ≠ (b.vertices two).head_point) :
    b.join_blocks one two =
      joinStructure (b.sub_liberties ((b.vertices two).head_point) 1) one
        two ((b.vertices two).head_point) := by
  unfold BoardFast.join_blocks
  rw [if_neg hne]

theorem joinStructure_color (b1 : BoardFast) (one two h2v q : Nat) :
    ((joinStructure b1 one two h2v).vertices q).color =
      (b1.vertices q).color := by
  unfold joinStructure
  dsimp only
  rw [(set_next_point_others _ _ _ _).1, (set_next_point_others _ _ _ _).1,
    (add_liberties_others _ _ _ _).1, (fold_set_head_others h2v _ _ _).1]

theorem joinStructure_valid (b1 : BoardFast) (one two h2v q : Nat) :
    ((joinStructure b1 one two h2v).vertices q).valid =
      (b1.vertices q).valid := by
  unfold joinStructure
  dsimp only
  rw [(set_next_point_others _ _ _ _).2.2.2.1,
    (set_next_point_others _ _ _ _).2.2.2.1,
    (add_liberties_others _ _ _ _).2.2.2.1,
    (fold_set_head_others h2v _ _ _).2.2.2.1]

theorem joinStructure_visited (b1 : BoardFast) (one two h2v q : Nat) :
    ((joinStructure b1 one two h2v).vertices q).visited =
      (b1.vertices q).visited := by
  unfold joinStructure
  dsimp only
  rw [(set_next_point_others _ _ _ _).2.2.2.2,
    (set_next_point_others _ _ _ _).2.2.2.2,
    (add_liberties_others _ _ _ _).2.2.2.2,
    (fold_set_head_others h2v _ _ _).2.2.2.2]

theorem joinStructure_head (b1 : BoardFast) (one two h2v q : Nat) :
    ((joinStructure b1 one two h2v).vertices q).head_point =
      if q ∈ chainList b1 one then h2v else (b1.vertices q).head_point := by
  unfold joinStructure
  dsimp only
  rw [(set_next_point_others _ _ _ _).2.1, (set_next_point_others _ _ _ _).2.1,
    (add_liberties_others _ _ _ _).2.2.1, fold_set_head_head h2v]

theorem joinStructure_libs (b1 : BoardFast) (one two h2v q : Nat)
    (hq : q ≠ h2v) :
    ((joinStructure b1 one two h2v).vertices q).num_liberties =
      (b1.vertices q).num_liberties := by
  unfold joinStructure
  dsimp only
  rw [(set_next_point_others _ _ _ _).2.2.1,
    (set_next_point_others _ _ _ _).2.2.1,
    add_liberties_libs, if_neg hq, (fold_set_head_others h2v _ _ _).2.2.1]

theorem joinStructure_next (b1 : BoardFast) (one two h2v q : Nat)
    (_hot : one ≠ two) :
    ((joinStructure b1 one two h2v).vertices q).next_point =
      if q = one then (b1.vertices two).next_point
      else if q = two then (b1.vertices one).next_point
      else (b1.vertices q).next_point := by
  unfold joinStructure
  dsimp only
  rw [set_next_point_next]
  by_cases hq1 : q = one
  · rw [if_pos hq1, if_pos hq1, (add_liberties_others _ _ _ _).2.1,
      (fold_set_head_others h2v _ _ _).2.1]
  · rw [if_neg hq1, if_neg hq1, set_next_point_next]
    by_cases hq2 : q = two
    · rw [if_pos hq2, if_pos hq2, (add_liberties_others _ _ _ _).2.1,
        (fold_set_head_others h2v _ _ _).2.1]
    · rw [if_neg hq2, if_neg hq2, (add_liberties_others _ _ _ _).2.1,
        (fold_set_head_others h2v _ _ _).2.1]

/-- Structural characterization of `join_blocks` on two distinct chains
(colors, validity, visited unchanged; heads of the first chain rewritten;
`next` links of `one` and `two` swapped; liberty counts elsewhere
untouched). -/
theorem join_blocks_fields (b : BoardFast) (one two : Nat)
    (hne : (b.vertices one).head_point ≠ (b.vertices two).head_point) :
    (∀ q, ((b.join_blocks one two).vertices q).color =
      (b.vertices q).color) ∧
    (∀ q, ((b.join_blocks one two).vertices q).valid =
      (b.vertices q).valid) ∧
    (∀ q, ((b.join_blocks one two).vertices q).visited =
      (b.vertices q).visited) ∧
    (∀ q, ((b.join_blocks one two).vertices q).head_point =
      if q ∈ chainList b one then (b.vertices two).head_point
      else (b.vertices q).head_point) ∧
    (∀ q, ((b.join_blocks one two).vertices q).next_point =
      if q = one then (b.vertices two).next_point
      else if q = two then (b.vertices one).next_point
      else (b.vertices q).next_point) ∧
    (∀ q, q ≠ (b.vertices two).head_point →
      ((b.join_blocks one two).vertices q).num_liberties =
        (b.vertices q).num_liberties) := by
  have hot : one ≠ two := fun hh => hne (by rw [hh])
  have hchain1 :
      chainList (b.sub_liberties ((b.vertices two).head_point) 1) one =
        chainList b one :=
    chainList_congr b _ one fun q _ => (sub_liberties_others _ _ _ _).2.1
  rw [join_blocks_eq b one two hne]
  refine ⟨?_, ?_, ?_, ?_, ?_, ?_⟩
  · intro q
    rw [joinStructure_color, (sub_liberties_others _ _ _ _).1]
  · intro q
    rw [joinStructure_valid, (sub_liberties_others _ _ _ _).2.2.2.1]
  · intro q
    rw [joinStructure_visited, (sub_liberties_others _ _ _ _).2.2.2.2]
  · intro q
    rw [joinStructure_head, hchain1, (sub_liberties_others _ _ _ _).2.2.1]
  · intro q
    rw [joinStructure_next _ _ _ _ _ hot, (sub_liberties_others _ _ _ _).2.1,
      (sub_liberties_others _ _ _ _).2.1, (sub_liberties_others _ _ _ _).2.1]
  · intro q hq
    rw [joinStructure_libs _ _ _ _ _ hq, sub_liberties_libs, if_neg hq]

/-- After `join_blocks` on two distinct well-formed chains, the traversal
from `one` is a duplicate-free cycle through exactly the members of both
chains. -/
theorem join_blocks_chain (b : BoardFast) (one two : Nat)
    (hne : (b.vertices one).head_point ≠ (b.vertices two).head_point)
    (h1 : ChainOk b one) (h2 : ChainOk b two) :
    (chainList (b.join_blocks one two) one).Nodup ∧
    (∀ q, q ∈ chainList (b.join_blocks one two) one ↔
      (q ∈ chainList b one ∨ q ∈ chainList b two)) ∧
    NextPath (b.join_blocks one two) one
      (chainList (b.join_blocks one two) one) one := by
  obtain ⟨_, _, _, _, hnext, _⟩ := join_blocks_fields b one two hne
  have hot : one ≠ two := fun hh => hne (by rw [hh])
  have hdisj : ∀ q ∈ chainList b one, q ∉ chainList b two := by
    intro q hq hq2
    exact hne (((h1.2.1 q hq).2.2).symm.trans ((h2.2.1 q hq2).2.2))
  have hT1 : chainList b one =
      one :: chainAux b one ((b.vertices one).next_point) numPoints := rfl
  have hT2 : chainList b two =
      two :: chainAux b two ((b.vertices two).next_point) numPoints := rfl
  set T1 := chainAux b one ((b.vertices one).next_point) numPoints with hT1d
  set T2 := chainAux b two ((b.vertices two).next_point) numPoints with hT2d
  have hone_mem : one ∈ chainList b one := self_mem_chainList b one
  have htwo_mem : two ∈ chainList b two := self_mem_chainList b two
  have hone_not2 : one ∉ chainList b two := hdisj one hone_mem
  have htwo_not1 : two ∉ chainList b one := fun hh => hdisj two hh htwo_mem
  have hnd1 : (one :: T1).Nodup := hT1 ▸ h1.1
  have hnd2 : (two :: T2).Nodup := hT2 ▸ h2.1
  have hone_notT1 : one ∉ T1 := (List.nodup_cons.mp hnd1).1
  have htwo_notT2 : two ∉ T2 := (List.nodup_cons.mp hnd2).1
  have hT1sub : ∀ q ∈ T1, q ∈ chainList b one := by
    intro q hq; rw [hT1]; exact List.mem_cons_of_mem _ hq
  have hT2sub : ∀ q ∈ T2, q ∈ chainList b two := by
    intro q hq; rw [hT2]; exact List.mem_cons_of_mem _ hq
  -- the two closed paths in `b`, transferred to the merged board
  have hp1 := h1.cycle
  have hp2 := h2.cycle
  rw [hT1] at hp1
  rw [hT2] at hp2
  have hp1' : NextPath b ((b.vertices one).next_point) T1 one :=
    hp1.cons_eq.2
  have hp2' : NextPath b ((b.vertices two).next_point) T2 two :=
    hp2.cons_eq.2
  have hagree1 : ∀ q ∈ T1,
      (((b.join_blocks one two)).vertices q).next_point =
        (b.vertices q).next_point := by
    intro q hq
    have hq1 : q ≠ one := fun hh => hone_notT1 (hh ▸ hq)
    have hq2 : q ≠ two := fun hh => htwo_not1 (hh ▸ hT1sub q hq)
    rw [hnext q, if_neg hq1, if_neg hq2]
  have hagree2 : ∀ q ∈ T2,
      (((b.join_blocks one two)).vertices q).next_point =
        (b.vertices q).next_point := by
    intro q hq
    have hq1 : q ≠ one := fun hh => hone_not2 (hh ▸ hT2sub q hq)
    have hq2 : q ≠ two := fun hh => htwo_notT2 (hh ▸ hq)
    rw [hnext q, if_neg hq1, if_neg hq2]
  have hq1' : NextPath (b.join_blocks one two)
      ((b.vertices one).next_point) T1 one := hp1'.congr hagree1
  have hq2' : NextPath (b.join_blocks one two)
      ((b.vertices two).next_point) T2 two := hp2'.congr hagree2
  have hnext_one : ((b.join_blocks one two).vertices one).next_point =
      (b.vertices two).next_point := by
    rw [hnext one, if_pos rfl]
  have hnext_two : ((b.join_blocks one two).vertices two).next_point =
      (b.vertices one).next_point := by
    rw [hnext two, if_neg hot.symm, if_pos rfl]
  have hpath : NextPath (b.join_blocks one two) one
      (one :: (T2 ++ two :: T1)) one := by
    refine NextPath.cons one _ one ?_
    rw [hnext_one]
    refine hq2'.append ?_
    refine NextPath.cons two _ one ?_
    rw [hnext_two]
    exact hq1'
  have hmem_all : ∀ q, q ∈ one :: (T2 ++ two :: T1) ↔
      (q ∈ chainList b one ∨ q ∈ chainList b two) := by
    intro q
    rw [hT1, hT2]
    simp only [List.mem_cons, List.mem_append]
    tauto
  have hnodup : (one :: (T2 ++ two :: T1)).Nodup := by
    rw [List.nodup_cons]
    constructor
    · intro hmem
      rcases List.mem_append.mp hmem with h | h
      · exact hone_not2 (hT2sub one h)
      · rcases List.mem_cons.mp h with h | h
        · exact hot h
        · exact hone_notT1 h
    · rw [List.nodup_append]
      refine ⟨(List.nodup_cons.mp hnd2).2, ?_, ?_⟩
      · rw [List.nodup_cons]
        exact ⟨fun hh => htwo_not1 (hT1sub two hh),
          (List.nodup_cons.mp hnd1).2⟩
      · intro q hq hq'
        rcases List.mem_cons.mp hq' with h | h
        · exact htwo_notT2 (h ▸ hq)
        · exact hdisj q (hT1sub q h) (hT2sub q hq)
  have hlen : (one :: (T2 ++ two :: T1)).length ≤ 361 := by
    refine length_le_of_nodup_sub_range _ 361 hnodup ?_
    intro q hq
    rcases (hmem_all q).mp hq with h | h
    · exact (h1.2.1 q h).1
    · exact (h2.2.1 q h).1
  have hchain : chainList (b.join_blocks one two) one =
      one :: (T2 ++ two :: T1) :=
    chainList_eq_of_cycle _ one _ hpath hnodup hlen
  refine ⟨hchain ▸ hnodup, ?_, hchain ▸ hpath⟩
  intro q
  rw [hchain]
  exact hmem_all q

/-- C7: `join_blocks(one, two)` is a no-op when the two vertices already
share a chain; otherwise the surviving head is the head of `two`'s chain,
every vertex of `one`'s chain gets that head, the `next` links of `one`
and `two` are exchanged, and the traversal from `one` is afterwards a
single duplicate-free cycle through exactly the members of both chains. -/
theorem join_blocks_contract (b : BoardFast) (one two : Nat)
    (h1 : ChainOk b one) (h2 : ChainOk b two) :
    ((b.vertices one).head_point = (b.vertices two).head_point →
      b.join_blocks one two = b) ∧
    ((b.vertices one).head_point ≠ (b.vertices two).head_point →
      (∀ q ∈ chainList b one,
        ((b.join_blocks one two).vertices q).head_point =
          (b.vertices two).head_point) ∧
      (∀ q ∈ chainList b two,
        ((b.join_blocks one two).vertices q).head_point =
          (b.vertices two).head_point) ∧
      ((b.join_blocks one two).vertices two).next_point =
        (b.vertices one).next_point ∧
      ((b.join_blocks one two).vertices one).next_point =
        (b.vertices two).next_point ∧
      NextPath (b.join_blocks one two) one
        (chainList (b.join_blocks one two) one) one ∧
      (chainList (b.join_blocks one two) one).Nodup ∧
      (∀ q, q ∈ chainList (b.join_blocks one two) one ↔
        (q ∈ chainList b one ∨ q ∈ chainList b two))) := by
  constructor
  · intro heq
    unfold BoardFast.join_blocks
    rw [if_pos heq]
  · intro hne
    obtain ⟨_, _, _, hhead, hnext, _⟩ := join_blocks_fields b one two hne
    obtain ⟨hnodup, hmem, hpath⟩ := join_blocks_chain b one two hne h1 h2
    have hot : one ≠ two := fun hh => hne (by rw [hh])
    have hdisj : ∀ q ∈ chainList b one, q ∉ chainList b two := by
      intro q hq hq2
      exact hne (((h1.2.1 q hq).2.2).symm.trans ((h2.2.1 q hq2).2.2))
    refine ⟨?_, ?_, ?_, ?_, hpath, hnodup, hmem⟩
    · intro q hq
      rw [hhead q, if_pos hq]
    · intro q hq
      rw [hhead q, if_neg (fun hh => hdisj q hh hq)]
      exact (h2.2.1 q hq).2.2
    · rw [hnext two, if_neg hot.symm, if_pos rfl]
    · rw [hnext one, if_pos rfl]

/-- A two-singleton-chain board used to witness `join_blocks_contract`:
black stones at vertices 0 and 1, each its own chain. -/
def jbWitnessBoard : BoardFast :=
  (((((BoardFast.new.set_color 0 (some Color.black)).set_color 1
    (some Color.black)).set_next_point 1 1).set_head_point 1
      1).set_next_point 0 0).set_head_point 0 0

/-- Witness for `join_blocks_contract`: two singleton black chains at
vertices 0 and 1. -/
theorem join_blocks_contract_witness :
    (ChainOk jbWitnessBoard 0 ∧ ChainOk jbWitnessBoard 1) ∧
    (((jbWitnessBoard.vertices 0).head_point =
        (jbWitnessBoard.vertices 1).head_point →
      jbWitnessBoard.join_blocks 0 1 = jbWitnessBoard) ∧
    ((jbWitnessBoard.vertices 0).head_point ≠
        (jbWitnessBoard.vertices 1).head_point →
      (∀ q ∈ chainList jbWitnessBoard 0,
        ((jbWitnessBoard.join_blocks 0 1).vertices q).head_point =
          (jbWitnessBoard.vertices 1).head_point) ∧
      (∀ q ∈ chainList jbWitnessBoard 1,
        ((jbWitnessBoard.join_blocks 0 1).vertices q).head_point =
          (jbWitnessBoard.vertices 1).head_point) ∧
      ((jbWitnessBoard.join_blocks 0 1).vertices 1).next_point =
        (jbWitnessBoard.vertices 0).next_point ∧
      ((jbWitnessBoard.join_blocks 0 1).vertices 0).next_point =
        (jbWitnessBoard.vertices 1).next_point ∧
      NextPath (jbWitnessBoard.join_blocks 0 1) 0
        (chainList (jbWitnessBoard.join_blocks 0 1) 0) 0 ∧
      (chainList (jbWitnessBoard.join_blocks 0 1) 0).Nodup ∧
      (∀ q, q ∈ chainList (jbWitnessBoard.join_blocks 0 1) 0 ↔
        (q ∈ chainList jbWitnessBoard 0 ∨
          q ∈ chainList jbWitnessBoard 1)))) :=
  ⟨⟨by decide, by decide⟩,
    join_blocks_contract jbWitnessBoard 0 1 (by decide) (by decide)⟩

/-! ### Well-formed boards -/

theorem mem_pointAll {p : Nat} : p ∈ pointAll ↔ p < 361 := by
  rw [pointAll, numPoints]
  exact List.mem_range

/-- A well-formed board: every stone sits on a well-formed chain, blocks
are maximal (adjacent same-colored stones share a head), the padding slot
is intact, and every playable slot is valid. -/
def WFBoard (b : BoardFast) : Prop :=
  (∀ p ∈ pointAll, (b.vertices p).color ≠ none → ChainOk b p) ∧
  (∀ p ∈ pointAll, (b.vertices p).color ≠ none →
    ∀ q ∈ b.adjacent_to p, (b.vertices q).color = (b.vertices p).color →
      (b.vertices q).head_point = (b.vertices p).head_point) ∧
  (b.vertices paddingPoint).valid = false ∧
  (b.vertices paddingPoint).color = none ∧
  (∀ p ∈ pointAll, (b.vertices p).valid = true)

instance (b : BoardFast) : Decidable (WFBoard b) := by
  unfold WFBoard; infer_instance

theorem mem_of_mem_enumFrom {α : Type} {x : Nat × α} :
    ∀ {l : List α} {i : Nat}, x ∈ l.enumFrom i → x.2 ∈ l := by
  intro l
  induction l with
  | nil => intro i h; cases h
  | cons a l ih =>
      intro i h
      rcases List.mem_cons.mp h with h | h
      · rw [h]; exact List.mem_cons_self _ _
      · exact List.mem_cons_of_mem _ (ih h)

theorem fst_of_mem_enumFrom {α : Type} {x : Nat × α} :
    ∀ {l : List α} {i : Nat}, x ∈ l.enumFrom i →
      i ≤ x.1 ∧ x.1 < i + l.length := by
  intro l
  induction l with
  | nil => intro i h; cases h
  | cons a l ih =>
      intro i h
      rcases List.mem_cons.mp h with h | h
      · rw [h]; simp
      · have := ih h
        simp only [List.length_cons]
        omega

/-- The raw neighbour list of a playable point holds playable points and
the padding slot only. -/
theorem adjacentRaw_mem_cases (b : BoardFast) (hWF : WFBoard b) (u : Nat)
    (hu : u < 361) :
    ∀ w ∈ adjacentRaw u,
      (w < 361 ∧ (b.vertices w).valid = true) ∨ w = paddingPoint := by
  intro w hw
  rcases adjacentRaw_cases u hu w hw with h | h
  · exact Or.inr h
  · exact Or.inl ⟨h, hWF.2.2.2.2 w (mem_pointAll.mpr h)⟩

theorem padding_color_none (b : BoardFast) (hWF : WFBoard b) :
    (b.vertices paddingPoint).color = none := hWF.2.2.2.1

/-- A playable raw neighbour belongs to the filtered neighbour list. -/
theorem mem_adjacent_to_of_valid (b : BoardFast) (u w : Nat)
    (hw : w ∈ adjacentRaw u) (hv : (b.vertices w).valid = true) :
    w ∈ b.adjacent_to u := by
  unfold BoardFast.adjacent_to
  exact List.mem_filter.mpr ⟨hw, by simpa [BoardFast.is_part_of] using hv⟩

/-- `incr_adjacent_liberties` leaves the liberty count of `h2` alone when
no neighbour's block resolves to `h2`. -/
theorem incr_libs_ne (mid : BoardFast) (sp h2 : Nat)
    (hne : ∀ w ∈ adjacentRaw sp, (mid.vertices w).color ≠ none →
      (mid.vertices w).head_point ≠ (mid.vertices sp).head_point →
      (mid.vertices w).head_point ≠ h2) :
    ((mid.incr_adjacent_liberties sp).vertices h2).num_liberties =
      (mid.vertices h2).num_liberties := by
  unfold BoardFast.incr_adjacent_liberties
  have key : ∀ (l : List (Nat × Nat)) (st : BoardFast × List Nat),
      (∀ x ∈ l, x.2 ∈ adjacentRaw sp) →
      (∀ q, (st.1.vertices q).color = (mid.vertices q).color) →
      (∀ q, (st.1.vertices q).head_point = (mid.vertices q).head_point) →
      (st.1.vertices h2).num_liberties = (mid.vertices h2).num_liberties →
      (((l.foldl (incrStep ((mid.vertices sp).head_point)) st).1).vertices
        h2).num_liberties = (mid.vertices h2).num_liberties := by
    intro l
    induction l with
    | nil => intro st _ _ _ h; exact h
    | cons a l ih =>
        intro st hl hcol hhead hlib
        rw [List.foldl_cons]
        have ha := hl a (List.mem_cons_self a l)
        refine ih _ (fun x hx => hl x (List.mem_cons_of_mem _ hx)) ?_ ?_ ?_
        · intro q
          unfold incrStep
          dsimp only
          split
          · split
            · rw [(add_liberties_others _ _ _ _).1]; exact hcol q
            · exact hcol q
          · exact hcol q
        · intro q
          unfold incrStep
          dsimp only
          split
          · split
            · rw [(add_liberties_others _ _ _ _).2.2.1]; exact hhead q
            · exact hhead q
          · exact hhead q
        · unfold incrStep
          dsimp only
          split
          · next hc =>
              split
              · next hcond =>
                  rw [add_liberties_libs]
                  rw [if_neg, hlib]
                  intro hh
                  rw [hcol a.2] at hc
                  rw [hhead a.2] at hcond hh
                  exact hne a.2 ha hc hcond.1 hh.symm
              · exact hlib
          · exact hlib
  exact key _ _ (fun x hx => mem_of_mem_enumFrom hx)
    (fun _ => rfl) (fun _ => rfl) rfl

set_option maxRecDepth 20000 in
/-- Witness for `get_territory_distance_correct`: a lone black stone at
vertex 0 and the neighbouring vertex 1 on an otherwise empty board. -/
theorem get_territory_distance_correct_witness :
    (((BoardFast.new.set_color 0 (some Color.black)).vertices
        paddingPoint).valid = false ∧ (1 : Nat) < 361) ∧
    ((get_territory_distance (BoardFast.new.set_color 0 (some Color.black))
          Color.black 1 = 0 ↔
        ((BoardFast.new.set_color 0 (some Color.black)).vertices 1).color =
          some Color.black) ∧
      (((BoardFast.new.set_color 0 (some Color.black)).vertices 1).color =
          some Color.black.opposite →
        get_territory_distance (BoardFast.new.set_color 0 (some Color.black))
          Color.black 1 = 255) ∧
      (((BoardFast.new.set_color 0 (some Color.black)).vertices 1).color =
          none →
        (∀ j, ¬ ReachesIn (BoardFast.new.set_color 0 (some Color.black))
          Color.black j 1) →
        get_territory_distance (BoardFast.new.set_color 0 (some Color.black))
          Color.black 1 = 255) ∧
      (∀ d, ((BoardFast.new.set_color 0 (some Color.black)).vertices 1).color =
          none →
        ReachesIn (BoardFast.new.set_color 0 (some Color.black))
          Color.black d 1 →
        (∀ j, ReachesIn (BoardFast.new.set_color 0 (some Color.black))
          Color.black j 1 → d ≤ j) →
        d ≤ 255 →
        1 ≤ d ∧
          get_territory_distance (BoardFast.new.set_color 0 (some Color.black))
            Color.black 1 = d)) :=
  ⟨⟨by decide, by decide⟩,
    get_territory_distance_correct (BoardFast.new.set_color 0
      (some Color.black)) Color.black (by decide) 1 (by decide)⟩

/-! ### Helpers for the `place` / `place_if` simulation -/

theorem xor_mix (a b c d : Nat) :
    (a ^^^ b) ^^^ (c ^^^ d) = (a ^^^ c) ^^^ (b ^^^ d) := by
  rw [Nat.xor_assoc, ← Nat.xor_assoc b c d, Nat.xor_comm b c,
    Nat.xor_assoc c b d, ← Nat.xor_assoc]

theorem xor_cancel_left (a b : Nat) : a ^^^ (a ^^^ b) = b := by
  rw [← Nat.xor_assoc, Nat.xor_self, Nat.zero_xor]

theorem foldl_xor_merge (f g : Nat → Nat) (l : List Nat) :
    l.foldl (fun h p => h ^^^ f p) 0 ^^^ l.foldl (fun h p => h ^^^ g p) 0 =
      l.foldl (fun h p => h ^^^ (f p ^^^ g p)) 0 := by
  induction l with
  | nil => simp
  | cons a l ih =>
      rw [List.foldl_cons, List.foldl_cons, List.foldl_cons,
        foldl_xor_init f, foldl_xor_init g,
        foldl_xor_init (fun p => f p ^^^ g p), xor_mix, ih,
        Nat.zero_xor, Nat.zero_xor, Nat.zero_xor]

theorem foldl_xor_filter (h : Nat → Nat) (p : Nat → Bool) (l : List Nat) :
    l.foldl (fun acc v => acc ^^^ (if p v then h v else 0)) 0 =
      (l.filter p).foldl (fun acc v => acc ^^^ h v) 0 := by
  induction l with
  | nil => rfl
  | cons a l ih =>
      rw [List.foldl_cons, List.filter_cons]
      by_cases hp : p a
      · rw [if_pos hp, if_pos hp, List.foldl_cons,
          foldl_xor_init _ l, foldl_xor_init _ (l.filter p), ih]
      · rw [if_neg hp, if_neg hp, Nat.xor_zero]
        exact ih

theorem get?_replicate {α : Type} (a : α) (n k : Nat) (h : k < n) :
    (List.replicate n a).get? k = some a := by
  simp [List.get?_eq_getElem?, List.getElem?_replicate, h]

/-- Writing a fresh head into the next free slot of the 4-slot scratch
array extends its content by exactly that head. -/
theorem seen_set_facts (S sp : List Nat) (i h : Nat) (hi : i < 4)
    (hlen : sp.length = 4)
    (hsub : ∀ x ∈ S, x ∈ sp)
    (hsup : ∀ x ∈ sp, x ∈ S ∨ x = pointDefault)
    (htail : ∀ k, i ≤ k → k < 4 → sp.get? k = some pointDefault)
    (hS361 : ∀ x ∈ S, x < 361) :
    (∀ x ∈ S ++ [h], x ∈ sp.set i h) ∧
    (∀ x ∈ sp.set i h, x ∈ S ++ [h] ∨ x = pointDefault) ∧
    (sp.set i h).length = 4 ∧
    (∀ k, i + 1 ≤ k → k < 4 → (sp.set i h).get? k = some pointDefault) := by
  have hilen : i < sp.length := by omega
  refine ⟨?_, ?_, ?_, ?_⟩
  · intro x hx
    rcases List.mem_append.mp hx with hx | hx
    · -- an old element sits at an index below i, untouched by the write
      obtain ⟨k, hk⟩ := List.mem_iff_get?.mp (hsub x hx)
      have hki : k < i := by
        by_contra hge
        have hk4 : k < 4 := by
          obtain ⟨hlt, _⟩ := List.get?_eq_some.mp hk
          omega
        have hd := htail k (by omega) hk4
        rw [hk] at hd
        have hx361 := hS361 x hx
        have hxd : x = pointDefault := by injection hd
        rw [pointDefault] at hxd
        omega
      refine List.mem_iff_get?.mpr ⟨k, ?_⟩
      rw [List.get?_set_ne h sp (by omega)]
      exact hk
    · refine List.mem_iff_get?.mpr ⟨i, ?_⟩
      rw [List.mem_singleton.mp hx]
      exact List.get?_set_eq_of_lt h hilen
  · intro x hx
    rcases List.mem_or_eq_of_mem_set hx with hx | hx
    · rcases hsup x hx with hx | hx
      · exact Or.inl (List.mem_append_left _ hx)
      · exact Or.inr hx
    · exact Or.inl (List.mem_append_right _ (List.mem_singleton.mpr hx))
  · rw [List.length_set]
    exact hlen
  · intro k hk1 hk4
    rw [List.get?_set_ne h sp (by omega)]
    exact htail k (by omega) hk4

/-- A seen-array element below the board size is a recorded head. -/
theorem seen_mem_of_contains (S sp : List Nat) (h : Nat)
    (hsup : ∀ x ∈ sp, x ∈ S ∨ x = pointDefault)
    (hh : h < 361) (hmem : h ∈ sp) : h ∈ S := by
  rcases hsup h hmem with hx | hx
  · exact hx
  · rw [pointDefault] at hx
    omega

/-- A well-formed chain survives on a board agreeing with `b` on the
links and colors of its members. -/
theorem ChainOk.congr_board {b : BoardFast} {p : Nat} (h : ChainOk b p)
    (bb : BoardFast)
    (hnext : ∀ q ∈ chainList b p,
      (bb.vertices q).next_point = (b.vertices q).next_point)
    (hhead : ∀ q ∈ chainList b p,
      (bb.vertices q).head_point = (b.vertices q).head_point)
    (hcolor : ∀ q ∈ chainList b p,
      (bb.vertices q).color = (b.vertices q).color) :
    ChainOk bb p ∧ chainList bb p = chainList b p := by
  have hlist : chainList bb p = chainList b p := chainList_congr b bb p hnext
  have hself := self_mem_chainList b p
  refine ⟨⟨hlist ▸ h.1, ?_, ?_, ?_⟩, hlist⟩
  · intro q hq
    rw [hlist] at hq
    obtain ⟨h1, h2, h3⟩ := h.2.1 q hq
    exact ⟨h1, by rw [hcolor q hq, hcolor p hself, h2],
      by rw [hhead q hq, hhead p hself, h3]⟩
  · simp only [hlist]
    have hmem : (chainList b p).getLast (chainList_ne_nil b p) ∈
        chainList b p := List.getLast_mem _
    rw [hnext _ hmem]
    exact h.2.2.1
  · rw [hhead p hself, hlist]
    exact h.2.2.2

/-- `capture` leaves the liberty count of `h2` alone when no vertex next
to the removed chain resolves to the block headed by `h2`. -/
theorem capture_libs_pres (bb : BoardFast) (c : Color) (p h2 : Nat)
    (hsame : ∀ v ∈ chainList bb p,
      (bb.vertices v).head_point = (bb.vertices p).head_point)
    (hprot : ∀ v ∈ chainList bb p, ∀ w ∈ adjacentRaw v,
      (bb.vertices w).color ≠ none →
      (bb.vertices w).head_point ≠ (bb.vertices p).head_point →
      (bb.vertices w).head_point ≠ h2) :
    (((bb.capture c p).1).vertices h2).num_liberties =
      (bb.vertices h2).num_liberties := by
  unfold BoardFast.capture
  have key : ∀ (l : List Nat) (st : BoardFast × Nat),
      (∀ v ∈ l, v ∈ chainList bb p) →
      SameLinks bb st.1 →
      (∀ q, (st.1.vertices q).color = none ∨
        (st.1.vertices q).color = (bb.vertices q).color) →
      (st.1.vertices h2).num_liberties = (bb.vertices h2).num_liberties →
      (((l.foldl (captureStep c) st).1).vertices h2).num_liberties =
        (bb.vertices h2).num_liberties := by
    intro l
    induction l with
    | nil => intro st _ _ _ hlib; exact hlib
    | cons a l ih =>
        intro st hl hsl hcol hlib
        rw [List.foldl_cons]
        have ha := hl a (List.mem_cons_self a l)
        refine ih _ (fun v hv => hl v (List.mem_cons_of_mem _ hv)) ?_ ?_ ?_
        · show SameLinks bb
            ((st.1.set_color a none).incr_adjacent_liberties a)
          exact (hsl.trans (sameLinks_set_color _ _ _)).trans
            (sameLinks_incr _ _)
        · intro q
          show ((((st.1.set_color a none).incr_adjacent_liberties
              a)).vertices q).color = none ∨
            ((((st.1.set_color a none).incr_adjacent_liberties
              a)).vertices q).color = (bb.vertices q).color
          rw [incr_color, set_color_color]
          by_cases hqa : q = a
          · rw [if_pos hqa]
            exact Or.inl rfl
          · rw [if_neg hqa]
            exact hcol q
        · show ((((st.1.set_color a none).incr_adjacent_liberties
            a)).vertices h2).num_liberties = _
          have hm : SameLinks bb (st.1.set_color a none) :=
            hsl.trans (sameLinks_set_color _ _ _)
          rw [incr_libs_ne _ _ _ ?hne, set_color_libs]
          · exact hlib
          case hne =>
            intro w hw hwc hwh
            rw [(hm w).2.1] at hwh ⊢
            rw [(hm a).2.1] at hwh
            have hbbc : (bb.vertices w).color ≠ none := by
              intro hnone
              rw [set_color_color] at hwc
              by_cases hwa : w = a
              · rw [if_pos hwa] at hwc
                exact hwc rfl
              · rw [if_neg hwa] at hwc
                rcases hcol w with hx | hx
                · exact hwc hx
                · rw [hx, hnone] at hwc
                  exact hwc rfl
            rw [hsame a ha] at hwh
            exact hprot a ha w hw hbbc hwh
  exact key _ _ (fun v hv => hv) (SameLinks.refl bb) (fun q => Or.inr rfl) rfl

/-- A chain traversal stops immediately when the walk starts at the stop
vertex. -/
theorem chainAux_stop (b : BoardFast) (stop fuel : Nat) :
    chainAux b stop stop (fuel + 1) = [] := by
  unfold chainAux
  rw [if_pos rfl]

/-- A vertex whose `next` link points back at itself forms a singleton
chain. -/
theorem chainList_singleton (b : BoardFast) (p : Nat)
    (h : (b.vertices p).next_point = p) : chainList b p = [p] := by
  unfold chainList
  rw [h]
  have hnp : numPoints = 360 + 1 := rfl
  rw [hnp, chainAux_stop]

/-- `place` written through its prefix and neighbour fold. -/
theorem place_eq (b : BoardFast) (color : Color) (at_point : Nat) :
    b.place color at_point =
      (((adjacentRaw at_point).enum.foldl (placeStep color at_point)
        (placeInit b color at_point, TABLE color at_point,
          List.replicate 4 pointDefault)).1,
       ((adjacentRaw at_point).enum.foldl (placeStep color at_point)
        (placeInit b color at_point, TABLE color at_point,
          List.replicate 4 pointDefault)).2.1) := rfl

theorem placeInit_ne (b : BoardFast) (color : Color) (at_point q : Nat)
    (hq : q ≠ at_point) :
    (placeInit b color at_point).vertices q = b.vertices q := by
  unfold placeInit BoardFast.set_visited BoardFast.set_liberties
    BoardFast.set_head_point BoardFast.set_next_point BoardFast.set_color
  dsimp only
  rw [modifyVertex_vertices_ne _ _ _ _ hq, modifyVertex_vertices_ne _ _ _ _ hq,
    modifyVertex_vertices_ne _ _ _ _ hq, modifyVertex_vertices_ne _ _ _ _ hq,
    modifyVertex_vertices_ne _ _ _ _ hq]

theorem placeInit_self (b : BoardFast) (color : Color) (at_point : Nat) :
    ((placeInit b color at_point).vertices at_point).color = some color ∧
    ((placeInit b color at_point).vertices at_point).next_point = at_point ∧
    ((placeInit b color at_point).vertices at_point).head_point = at_point ∧
    ((placeInit b color at_point).vertices at_point).valid =
      (b.vertices at_point).valid := by
  unfold placeInit BoardFast.set_visited BoardFast.set_liberties
    BoardFast.set_head_point BoardFast.set_next_point BoardFast.set_color
  dsimp only
  rw [modifyVertex_vertices_self, modifyVertex_vertices_self,
    modifyVertex_vertices_self, modifyVertex_vertices_self,
    modifyVertex_vertices_self]
  exact ⟨rfl, rfl, rfl, rfl⟩

theorem scratch_placeInit (b : BoardFast) (color : Color) (at_point : Nat)
    (hat : at_point < 361) (hempty : (b.vertices at_point).color = none) :
    scratchHash (placeInit b color at_point) =
      scratchHash b ^^^ TABLE color at_point := by
  have h1 : ∀ p ∈ pointAll,
      ((placeInit b color at_point).vertices p).color =
        ((b.set_color at_point (some color)).vertices p).color := by
    intro p _
    by_cases hp : p = at_point
    · rw [hp, (placeInit_self b color at_point).1, set_color_color_self]
    · rw [placeInit_ne b color at_point p hp,
        set_color_vertices_ne _ _ _ _ hp]
  rw [scratchHash_congr _ _ h1,
    scratchHash_set_color b at_point hat (some color), hempty]
  show scratchHash b ^^^ 0 ^^^ TABLE color at_point = _
  rw [Nat.xor_zero]

/-- The joint invariant carried through the neighbour loop of `place`:
`bb`, `hash`, `sp` are the loop state, `S` the opposing heads already
seen, `C` those among them that were captured.  It records how the loop
state relates at every moment to the starting board `b`. -/
structure PlaceInv (b : BoardFast) (color : Color) (at_point : Nat)
    (C S : List Nat) (bb : BoardFast) (hash : Nat) (sp : List Nat) :
    Prop where
  color_char : ∀ q, (bb.vertices q).color =
    if ∃ h ∈ C, q ∈ chainList b h then none
    else if q = at_point then some color
    else (b.vertices q).color
  next_opp : ∀ q, (b.vertices q).color = some color.opposite →
    (bb.vertices q).next_point = (b.vertices q).next_point
  head_opp : ∀ q, (b.vertices q).color = some color.opposite →
    (bb.vertices q).head_point = (b.vertices q).head_point
  libs_unseen : ∀ h, (b.vertices h).color = some color.opposite → h ∉ S →
    (bb.vertices h).num_liberties = (b.vertices h).num_liberties
  hash_eq : hash = scratchHash b ^^^ scratchHash bb
  sp_sub : ∀ x ∈ S, x ∈ sp
  sp_sup : ∀ x ∈ sp, x ∈ S ∨ x = pointDefault
  sp_len : sp.length = 4
  S_opp : ∀ h ∈ S, (b.vertices h).color = some color.opposite ∧
    (b.vertices h).head_point = h ∧ h < 361
  C_sub : ∀ h ∈ C, h ∈ S
  C_iff : ∀ h ∈ S, (h ∈ C ↔ (b.vertices h).num_liberties ≤ 1)
  at_ok : ChainOk bb at_point
  at_colors : ∀ q ∈ chainList bb at_point, (bb.vertices q).color = some color
  at_members : ∀ q ∈ chainList bb at_point,
    q = at_point ∨ (b.vertices q).color = some color
  friendly_untouched : ∀ q, (b.vertices q).color = some color →
    q ∉ chainList bb at_point →
    (bb.vertices q).next_point = (b.vertices q).next_point ∧
    (bb.vertices q).head_point = (b.vertices q).head_point
  friendly_closed : ∀ q, (b.vertices q).color = some color →
    q ∈ chainList bb at_point → ∀ r ∈ chainList b q, r ∈ chainList bb at_point
  valid_pres : ∀ q, (bb.vertices q).valid = (b.vertices q).valid

/-- The invariant holds as the neighbour loop of `place` starts. -/
theorem placeInv_init (b : BoardFast) (color : Color) (at_point : Nat)
    (hat : at_point < 361)
    (hempty : (b.vertices at_point).color = none) :
    PlaceInv b color at_point [] [] (placeInit b color at_point)
      (TABLE color at_point) (List.replicate 4 pointDefault) := by
  have hne := placeInit_ne b color at_point
  have hself := placeInit_self b color at_point
  have hchain : chainList (placeInit b color at_point) at_point =
      [at_point] := chainList_singleton _ _ hself.2.1
  have hnocap : ∀ q, ¬∃ h ∈ ([] : List Nat), q ∈ chainList b h := by
    intro q hh
    obtain ⟨h, hmem, _⟩ := hh
    cases hmem
  refine ⟨?_, ?_, ?_, ?_, ?_, ?_, ?_, ?_, ?_, ?_, ?_, ?_, ?_, ?_, ?_, ?_, ?_⟩
  · intro q
    rw [if_neg (hnocap q)]
    by_cases hq : q = at_point
    · rw [if_pos hq, hq, hself.1]
    · rw [if_neg hq, hne q hq]
  · intro q hq
    have hqa : q ≠ at_point := fun hh => by
      rw [hh, hempty] at hq; cases hq
    rw [hne q hqa]
  · intro q hq
    have hqa : q ≠ at_point := fun hh => by
      rw [hh, hempty] at hq; cases hq
    rw [hne q hqa]
  · intro h hh _
    have hqa : h ≠ at_point := fun hx => by
      rw [hx, hempty] at hh; cases hh
    rw [hne h hqa]
  · rw [scratch_placeInit b color at_point hat hempty,
      xor_cancel_left]
  · intro x hx; cases hx
  · intro x hx
    exact Or.inr (List.eq_of_mem_replicate hx)
  · exact List.length_replicate 4 pointDefault
  · intro h hh; cases hh
  · intro h hh; cases hh
  · intro h hh; cases hh
  · refine ⟨?_, ?_, ?_, ?_⟩
    · rw [hchain]; exact List.nodup_singleton at_point
    · intro q hq
      rw [hchain] at hq
      have hq' := List.mem_singleton.mp hq
      rw [hq']
      exact ⟨hat, rfl, rfl⟩
    · simp only [hchain]
      show ((placeInit b color at_point).vertices at_point).next_point =
        at_point
      exact hself.2.1
    · rw [hchain, hself.2.2.1]
      exact List.mem_singleton.mpr rfl
  · intro q hq
    rw [hchain] at hq
    rw [List.mem_singleton.mp hq, hself.1]
  · intro q hq
    rw [hchain] at hq
    exact Or.inl (List.mem_singleton.mp hq)
  · intro q hq _
    have hqa : q ≠ at_point := fun hh => by
      rw [hh, hempty] at hq; cases hq
    rw [hne q hqa]
    exact ⟨rfl, rfl⟩
  · intro q hq hmem
    rw [hchain] at hmem
    rw [List.mem_singleton.mp hmem, hempty] at hq
    cases hq
  · intro q
    by_cases hq : q = at_point
    · rw [hq, hself.2.2.2]
    · rw [hne q hq]

theorem color_clash (c : Color) : (some c : Option Color) ≠ some c.opposite :=
  fun h => opposite_ne c (Option.some.inj h).symm

theorem placeInv_capchain {b : BoardFast} {color : Color} {at_point : Nat}
    {C S : List Nat} {bb : BoardFast} {hash : Nat} {sp : List Nat}
    (hWF : WFBoard b)
    (hinv : PlaceInv b color at_point C S bb hash sp)
    (h' : Nat) (hh : h' ∈ C) :
    ChainOk b h' ∧ ∀ q ∈ chainList b h',
      (b.vertices q).color = some color.opposite ∧
      (b.vertices q).head_point = h' := by
  obtain ⟨hcol, hhead, h361⟩ := hinv.S_opp h' (hinv.C_sub h' hh)
  have hok : ChainOk b h' := hWF.1 h' (mem_pointAll.mpr h361)
    (by rw [hcol]; exact Option.noConfusion)
  refine ⟨hok, fun q hq => ?_⟩
  obtain ⟨_, hc, hhd⟩ := hok.2.1 q hq
  exact ⟨by rw [hc, hcol], by rw [hhd, hhead]⟩

theorem placeInv_notcap {b : BoardFast} {color : Color} {at_point : Nat}
    {C S : List Nat} {bb : BoardFast} {hash : Nat} {sp : List Nat}
    (hWF : WFBoard b)
    (hinv : PlaceInv b color at_point C S bb hash sp)
    (q : Nat) (hq : (b.vertices q).color ≠ some color.opposite) :
    ¬∃ h ∈ C, q ∈ chainList b h := by
  intro hex
  obtain ⟨h', hh, hmem⟩ := hex
  exact hq ((placeInv_capchain hWF hinv h' hh).2 q hmem).1

/-- From the loop invariant: an occupied friendly vertex of the loop
board other than the played point was friendly on the original board. -/
theorem placeInv_bcolor_friendly {b : BoardFast} {color : Color}
    {at_point : Nat} {C S : List Nat} {bb : BoardFast} {hash : Nat}
    {sp : List Nat}
    (hinv : PlaceInv b color at_point C S bb hash sp)
    (w : Nat) (hwat : w ≠ at_point)
    (hwcol : (bb.vertices w).color = some color) :
    (b.vertices w).color = some color := by
  have hc := hinv.color_char w
  rw [hwcol] at hc
  by_cases hcap : ∃ h ∈ C, w ∈ chainList b h
  · rw [if_pos hcap] at hc
    cases hc
  · rw [if_neg hcap, if_neg hwat] at hc
    exact hc.symm

/-- From the loop invariant: an opposing vertex of the loop board was
opposing on the original board. -/
theorem placeInv_bcolor_opp {b : BoardFast} {color : Color}
    {at_point : Nat} {C S : List Nat} {bb : BoardFast} {hash : Nat}
    {sp : List Nat}
    (hinv : PlaceInv b color at_point C S bb hash sp)
    (w : Nat) (hwcol : (bb.vertices w).color = some color.opposite) :
    (b.vertices w).color = some color.opposite := by
  have hc := hinv.color_char w
  rw [hwcol] at hc
  by_cases hcap : ∃ h ∈ C, w ∈ chainList b h
  · rw [if_pos hcap] at hc
    cases hc
  · rw [if_neg hcap] at hc
    by_cases hwat : w = at_point
    · rw [if_pos hwat] at hc
      exact absurd hc.symm (color_clash color)
    · rw [if_neg hwat] at hc
      exact hc.symm

/-- No member of the growing chain of the played point is an opposing
vertex of the original board. -/
theorem placeInv_atchain_not_opp {b : BoardFast} {color : Color}
    {at_point : Nat} {C S : List Nat} {bb : BoardFast} {hash : Nat}
    {sp : List Nat}
    (hempty : (b.vertices at_point).color = none)
    (hinv : PlaceInv b color at_point C S bb hash sp)
    (q : Nat) (hq : (b.vertices q).color = some color.opposite) :
    q ∉ chainList bb at_point := by
  intro hmem
  rcases hinv.at_members q hmem with hx | hx
  · rw [hx, hempty] at hq
    cases hq
  · rw [hx] at hq
    exact color_clash color hq

/-- A friendly chain of the original board not merged into the played
point's chain is intact on the loop board. -/
theorem placeInv_friendly_chain {b : BoardFast} {color : Color}
    {at_point : Nat} {C S : List Nat} {bb : BoardFast} {hash : Nat}
    {sp : List Nat}
    (hWF : WFBoard b)
    (hempty : (b.vertices at_point).color = none)
    (hinv : PlaceInv b color at_point C S bb hash sp)
    (w : Nat) (hw361 : w < 361)
    (hbf : (b.vertices w).color = some color)
    (hnot : w ∉ chainList bb at_point) :
    ChainOk bb w ∧ chainList bb w = chainList b w := by
  have hok : ChainOk b w := hWF.1 w (mem_pointAll.mpr hw361)
    (by rw [hbf]; exact Option.noConfusion)
  have hmemcol : ∀ r ∈ chainList b w, (b.vertices r).color = some color := by
    intro r hr
    rw [(hok.2.1 r hr).2.1, hbf]
  have hmemnot : ∀ r ∈ chainList b w, r ∉ chainList bb at_point := by
    intro r hr hrin
    have hwr : w ∈ chainList b r := by
      rw [((hok.rotate r hr).2 w)]
      exact self_mem_chainList b w
    exact hnot (hinv.friendly_closed r (hmemcol r hr) hrin w hwr)
  have huntouched := fun r hr =>
    hinv.friendly_untouched r (hmemcol r hr) (hmemnot r hr)
  have hcolbb : ∀ r ∈ chainList b w,
      (bb.vertices r).color = (b.vertices r).color := by
    intro r hr
    have hrat : r ≠ at_point := fun hh => by
      have hx := hmemcol r hr
      rw [hh, hempty] at hx
      cases hx
    rw [hinv.color_char r,
      if_neg (placeInv_notcap hWF hinv r
        (by rw [hmemcol r hr]; exact color_clash color)), if_neg hrat]
  exact hok.congr_board bb (fun r hr => (huntouched r hr).1)
    (fun r hr => (huntouched r hr).2) hcolbb

/-- The neighbour loop of `place`, friendly-neighbour case: merging the
played point's chain with the neighbour's chain keeps the invariant. -/
theorem placeInv_join (b : BoardFast) (color : Color) (at_point : Nat)
    (hWF : WFBoard b) (hempty : (b.vertices at_point).color = none)
    (C S : List Nat) (bb : BoardFast) (hash : Nat) (sp : List Nat)
    (hinv : PlaceInv b color at_point C S bb hash sp)
    (w : Nat) (hw361 : w < 361) (hwat : w ≠ at_point)
    (hwcol : (bb.vertices w).color = some color) :
    PlaceInv b color at_point C S (bb.join_blocks at_point w) hash sp := by
  have hbf : (b.vertices w).color = some color :=
    placeInv_bcolor_friendly hinv w hwat hwcol
  by_cases hmem : w ∈ chainList bb at_point
  · have hnoop : bb.join_blocks at_point w = bb := by
      unfold BoardFast.join_blocks
      rw [if_pos ((hinv.at_ok.2.1 w hmem).2.2).symm]
    rw [hnoop]
    exact hinv
  · have huw := hinv.friendly_untouched w hbf hmem
    have hokbw : ChainOk b w := hWF.1 w (mem_pointAll.mpr hw361)
      (by rw [hbf]; exact Option.noConfusion)
    obtain ⟨hokbbw, hlistw⟩ :=
      placeInv_friendly_chain hWF hempty hinv w hw361 hbf hmem
    have hne : (bb.vertices at_point).head_point ≠
        (bb.vertices w).head_point := by
      intro heq
      have hH := hinv.at_ok.2.2.2
      rw [heq, huw.2] at hH
      have hhw_mem : (b.vertices w).head_point ∈ chainList b w :=
        hokbw.2.2.2
      have hhw_col :
          (b.vertices ((b.vertices w).head_point)).color = some color := by
        rw [(hokbw.2.1 _ hhw_mem).2.1, hbf]
      have hwin : w ∈ chainList b ((b.vertices w).head_point) := by
        rw [(hokbw.rotate _ hhw_mem).2 w]
        exact self_mem_chainList b w
      exact hmem (hinv.friendly_closed _ hhw_col hH w hwin)
    obtain ⟨hcolJ, hvalJ, hvisJ, hheadJ, hnextJ, hlibsJ⟩ :=
      join_blocks_fields bb at_point w hne
    obtain ⟨hndJ, hmemJ, hpathJ⟩ :=
      join_blocks_chain bb at_point w hne hinv.at_ok hokbbw
    have hscr : scratchHash (bb.join_blocks at_point w) = scratchHash bb :=
      scratchHash_congr _ _ (fun p _ => hcolJ p)
    have hwchain_col : ∀ q ∈ chainList bb w,
        (bb.vertices q).color = some color := by
      intro q hq
      rw [(hokbbw.2.1 q hq).2.1, hwcol]
    have hwchain_bcol : ∀ q ∈ chainList bb w,
        (b.vertices q).color = some color := by
      intro q hq
      rw [hlistw] at hq
      rw [(hokbw.2.1 q hq).2.1, hbf]
    have hwchain_head : ∀ q ∈ chainList bb w,
        (bb.vertices q).head_point = (bb.vertices w).head_point :=
      fun q hq => (hokbbw.2.1 q hq).2.2
    have hheadw_ne_opp : ∀ h, (b.vertices h).color = some color.opposite →
        h ≠ (bb.vertices w).head_point := by
      intro h hh heq
      have h2 : (b.vertices ((b.vertices w).head_point)).color =
          some color := by
        rw [(hokbw.2.1 _ hokbw.2.2.2).2.1, hbf]
      rw [heq, huw.2] at hh
      rw [h2] at hh
      exact color_clash color hh
    refine ⟨?_, ?_, ?_, ?_, ?_, ?_, ?_, ?_, ?_, ?_, ?_, ?_, ?_, ?_, ?_, ?_,
      ?_⟩
    · intro q
      rw [hcolJ q]
      exact hinv.color_char q
    · intro q hq
      have hq_at : q ≠ at_point := fun hh => by
        rw [hh, hempty] at hq; cases hq
      have hq_w : q ≠ w := fun hh => by
        rw [hh, hbf] at hq; exact color_clash color hq
      rw [hnextJ q, if_neg hq_at, if_neg hq_w]
      exact hinv.next_opp q hq
    · intro q hq
      rw [hheadJ q, if_neg (placeInv_atchain_not_opp hempty hinv q hq)]
      exact hinv.head_opp q hq
    · intro h hh hS
      rw [hlibsJ h (hheadw_ne_opp h hh)]
      exact hinv.libs_unseen h hh hS
    · rw [hscr]
      exact hinv.hash_eq
    · exact hinv.sp_sub
    · exact hinv.sp_sup
    · exact hinv.sp_len
    · exact hinv.S_opp
    · exact hinv.C_sub
    · exact hinv.C_iff
    · refine ⟨hndJ, ?_, ?_, ?_⟩
      · intro q hq
        rcases (hmemJ q).mp hq with hold | hw'
        · refine ⟨(hinv.at_ok.2.1 q hold).1, ?_, ?_⟩
          · rw [hcolJ q, hcolJ at_point, hinv.at_colors q hold,
              hinv.at_colors at_point (self_mem_chainList bb at_point)]
          · rw [hheadJ q, if_pos hold, hheadJ at_point,
              if_pos (self_mem_chainList bb at_point)]
        · refine ⟨(hokbbw.2.1 q hw').1, ?_, ?_⟩
          · rw [hcolJ q, hcolJ at_point, hwchain_col q hw',
              hinv.at_colors at_point (self_mem_chainList bb at_point)]
          · rw [hheadJ at_point,
              if_pos (self_mem_chainList bb at_point), hheadJ q]
            by_cases hqo : q ∈ chainList bb at_point
            · rw [if_pos hqo]
            · rw [if_neg hqo]
              exact hwchain_head q hw'
      · exact hpathJ.getLast_next (chainList_ne_nil _ _)
      · rw [hheadJ at_point, if_pos (self_mem_chainList bb at_point)]
        exact (hmemJ _).mpr (Or.inr hokbbw.2.2.2)
    · intro q hq
      rcases (hmemJ q).mp hq with hold | hw'
      · rw [hcolJ q]
        exact hinv.at_colors q hold
      · rw [hcolJ q]
        exact hwchain_col q hw'
    · intro q hq
      rcases (hmemJ q).mp hq with hold | hw'
      · exact hinv.at_members q hold
      · exact Or.inr (hwchain_bcol q hw')
    · intro q hq hqnot
      have hnot1 : q ∉ chainList bb at_point := fun hh =>
        hqnot ((hmemJ q).mpr (Or.inl hh))
      have hnot2 : q ∉ chainList bb w := fun hh =>
        hqnot ((hmemJ q).mpr (Or.inr hh))
      have hq_at : q ≠ at_point := fun hh => by
        rw [hh, hempty] at hq; cases hq
      have hq_w : q ≠ w := fun hh =>
        hnot2 (hh ▸ self_mem_chainList bb w)
      constructor
      · rw [hnextJ q, if_neg hq_at, if_neg hq_w]
        exact (hinv.friendly_untouched q hq hnot1).1
      · rw [hheadJ q, if_neg hnot1]
        exact (hinv.friendly_untouched q hq hnot1).2
    · intro q hq hqmem r hr
      rcases (hmemJ q).mp hqmem with hold | hw'
      · exact (hmemJ r).mpr (Or.inl (hinv.friendly_closed q hq hold r hr))
      · refine (hmemJ r).mpr (Or.inr ?_)
        rw [hlistw] at hw' ⊢
        exact ((hokbw.rotate q hw').2 r).mp hr
    · intro q
      rw [hvalJ q]
      exact hinv.valid_pres q

/-- The neighbour loop of `place`, new opposing block with liberties to
spare: deducting the filled liberty and recording the head keeps the
invariant. -/
theorem placeInv_sub (b : BoardFast) (color : Color) (at_point : Nat)
    (C S : List Nat) (bb : BoardFast) (hash : Nat) (sp : List Nat)
    (hinv : PlaceInv b color at_point C S bb hash sp)
    (i : Nat) (hi : i < 4)
    (htail : ∀ k, i ≤ k → k < 4 → sp.get? k = some pointDefault)
    (h : Nat) (hh361 : h < 361)
    (hhcol : (b.vertices h).color = some color.opposite)
    (hhhead : (b.vertices h).head_point = h)
    (hnew : h ∉ S)
    (hlib2 : 2 ≤ (b.vertices h).num_liberties) :
    PlaceInv b color at_point C (S ++ [h]) (bb.sub_liberties h 1) hash
      (sp.set i h) ∧
    (∀ k, i + 1 ≤ k → k < 4 →
      (sp.set i h).get? k = some pointDefault) := by
  have hS361 : ∀ x ∈ S, x < 361 := fun x hx => (hinv.S_opp x hx).2.2
  obtain ⟨hset1, hset2, hset3, hset4⟩ := seen_set_facts S sp i h hi
    hinv.sp_len hinv.sp_sub hinv.sp_sup htail hS361
  have hcols : ∀ q, ((bb.sub_liberties h 1).vertices q).color =
      (bb.vertices q).color := fun q => (sub_liberties_others bb h 1 q).1
  obtain ⟨hok, hlist⟩ := hinv.at_ok.congr_board (bb.sub_liberties h 1)
    (fun q _ => (sub_liberties_others bb h 1 q).2.1)
    (fun q _ => (sub_liberties_others bb h 1 q).2.2.1)
    (fun q _ => hcols q)
  refine ⟨⟨?_, ?_, ?_, ?_, ?_, hset1, hset2, hset3, ?_, ?_, ?_, hok, ?_, ?_,
    ?_, ?_, ?_⟩, hset4⟩
  · intro q
    rw [hcols q]
    exact hinv.color_char q
  · intro q hq
    rw [(sub_liberties_others bb h 1 q).2.1]
    exact hinv.next_opp q hq
  · intro q hq
    rw [(sub_liberties_others bb h 1 q).2.2.1]
    exact hinv.head_opp q hq
  · intro h2 hcol2 hmem2
    have h2S : h2 ∉ S := fun hx =>
      hmem2 (List.mem_append_left _ hx)
    have h2h : h2 ≠ h := fun hx =>
      hmem2 (List.mem_append_right _ (List.mem_singleton.mpr hx))
    rw [sub_liberties_libs, if_neg h2h]
    exact hinv.libs_unseen h2 hcol2 h2S
  · rw [scratchHash_congr bb (bb.sub_liberties h 1) (fun p _ => hcols p)]
    exact hinv.hash_eq
  · intro x hx
    rcases List.mem_append.mp hx with hx | hx
    · exact hinv.S_opp x hx
    · rw [List.mem_singleton.mp hx]
      exact ⟨hhcol, hhhead, hh361⟩
  · intro x hx
    exact List.mem_append_left _ (hinv.C_sub x hx)
  · intro x hx
    rcases List.mem_append.mp hx with hx | hx
    · exact hinv.C_iff x hx
    · rw [List.mem_singleton.mp hx]
      constructor
      · intro hxc
        exact absurd (hinv.C_sub h hxc) hnew
      · intro hle
        omega
  · intro q hq
    rw [hlist] at hq
    rw [hcols q]
    exact hinv.at_colors q hq
  · intro q hq
    rw [hlist] at hq
    exact hinv.at_members q hq
  · intro q hq hqnot
    rw [hlist] at hqnot
    rw [(sub_liberties_others bb h 1 q).2.1,
      (sub_liberties_others bb h 1 q).2.2.1]
    exact hinv.friendly_untouched q hq hqnot
  · intro q hq hqmem r hr
    rw [hlist] at hqmem ⊢
    exact hinv.friendly_closed q hq hqmem r hr
  · intro q
    rw [(sub_liberties_others bb h 1 q).2.2.2.1]
    exact hinv.valid_pres q

/-- The padding slot stays empty throughout the neighbour loop. -/
theorem placeInv_pad_none {b : BoardFast} {color : Color} {at_point : Nat}
    {C S : List Nat} {bb : BoardFast} {hash : Nat} {sp : List Nat}
    (hWF : WFBoard b) (hat : at_point < 361)
    (hinv : PlaceInv b color at_point C S bb hash sp) :
    (bb.vertices paddingPoint).color = none := by
  rw [hinv.color_char paddingPoint, if_neg, if_neg]
  · exact padding_color_none b hWF
  · intro hpp
    rw [paddingPoint] at hpp
    omega
  · intro hex
    obtain ⟨h'', hc'', hm''⟩ := hex
    have := ((placeInv_capchain hWF hinv h'' hc'').1).2.1 paddingPoint hm''
    rw [paddingPoint] at this
    omega

/-- The neighbour loop of `place`, new opposing block left with no
liberty: deducting the filled liberty and capturing the block keeps the
invariant, and the hash adjustment of the capture is its static preview
on the original board. -/
theorem placeInv_capture (b : BoardFast) (color : Color) (at_point : Nat)
    (hWF : WFBoard b) (hat : at_point < 361)
    (hempty : (b.vertices at_point).color = none)
    (C S : List Nat) (bb : BoardFast) (hash : Nat) (sp : List Nat)
    (hinv : PlaceInv b color at_point C S bb hash sp)
    (i : Nat) (hi : i < 4)
    (htail : ∀ k, i ≤ k → k < 4 → sp.get? k = some pointDefault)
    (h : Nat) (hh361 : h < 361)
    (hhcol : (b.vertices h).color = some color.opposite)
    (hhhead : (b.vertices h).head_point = h)
    (hnew : h ∉ S)
    (hlib1 : (b.vertices h).num_liberties ≤ 1) :
    PlaceInv b color at_point (C ++ [h]) (S ++ [h])
      ((bb.sub_liberties h 1).capture color.opposite h).1
      (hash ^^^ ((bb.sub_liberties h 1).capture color.opposite h).2)
      (sp.set i h) ∧
    ((bb.sub_liberties h 1).capture color.opposite h).2 =
      b.capture_if color.opposite h ∧
    (∀ k, i + 1 ≤ k → k < 4 →
      (sp.set i h).get? k = some pointDefault) := by
  have hS361 : ∀ x ∈ S, x < 361 := fun x hx => (hinv.S_opp x hx).2.2
  obtain ⟨hset1, hset2, hset3, hset4⟩ := seen_set_facts S sp i h hi
    hinv.sp_len hinv.sp_sub hinv.sp_sup htail hS361
  have hok_bh : ChainOk b h := hWF.1 h (mem_pointAll.mpr hh361)
    (by rw [hhcol]; exact Option.noConfusion)
  have hmem_col : ∀ q ∈ chainList b h,
      (b.vertices q).color = some color.opposite ∧
      (b.vertices q).head_point = h := by
    intro q hq
    obtain ⟨_, hc, hhd⟩ := hok_bh.2.1 q hq
    exact ⟨by rw [hc, hhcol], by rw [hhd, hhhead]⟩
  have hq_ne_at : ∀ q ∈ chainList b h, q ≠ at_point := by
    intro q hq hx
    have := (hmem_col q hq).1
    rw [hx, hempty] at this
    cases this
  have hnotcap_mem : ∀ q ∈ chainList b h, ¬∃ h'' ∈ C, q ∈ chainList b h'' := by
    intro q hq hex
    obtain ⟨h'', hc'', hm''⟩ := hex
    have h1 := ((placeInv_capchain hWF hinv h'' hc'').2 q hm'').2
    have h2 := (hmem_col q hq).2
    rw [h1] at h2
    exact hnew (h2 ▸ hinv.C_sub h'' hc'')
  have hcolbbmem : ∀ q ∈ chainList b h,
      (bb.vertices q).color = some color.opposite := by
    intro q hq
    rw [hinv.color_char q, if_neg (hnotcap_mem q hq), if_neg (hq_ne_at q hq)]
    exact (hmem_col q hq).1
  have hchbb : chainList bb h = chainList b h :=
    chainList_congr b bb h (fun q hq => hinv.next_opp q (hmem_col q hq).1)
  have hch1 : chainList (bb.sub_liberties h 1) h = chainList bb h :=
    chainList_congr bb _ h (fun q _ => (sub_liberties_others bb h 1 q).2.1)
  have hch : chainList (bb.sub_liberties h 1) h = chainList b h :=
    hch1.trans hchbb
  have hcolbb1mem : ∀ q ∈ chainList b h,
      ((bb.sub_liberties h 1).vertices q).color = some color.opposite := by
    intro q hq
    rw [(sub_liberties_others bb h 1 q).1]
    exact hcolbbmem q hq
  have hr2 : ((bb.sub_liberties h 1).capture color.opposite h).2 =
      b.capture_if color.opposite h := by
    rw [capture_hash]
    unfold BoardFast.capture_if
    rw [hch]
  have hscrsub : scratchHash (bb.sub_liberties h 1) = scratchHash bb :=
    scratchHash_congr bb _ (fun p _ => (sub_liberties_others bb h 1 p).1)
  have hscr : scratchHash ((bb.sub_liberties h 1).capture color.opposite h).1
      = scratchHash bb ^^^ b.capture_if color.opposite h := by
    have hcs := capture_scratch (bb.sub_liberties h 1) color.opposite h
      (by rw [hch]; exact hok_bh.1)
      (by
        intro v hv
        rw [hch] at hv
        exact ⟨hcolbb1mem v hv, (hok_bh.2.1 v hv).1⟩)
    rw [hcs, hscrsub]
    have hcif : (bb.sub_liberties h 1).capture_if color.opposite h =
        b.capture_if color.opposite h := by
      unfold BoardFast.capture_if
      rw [hch]
    rw [hcif]
  have hsl : SameLinks bb
      ((bb.sub_liberties h 1).capture color.opposite h).1 :=
    (sameLinks_sub_liberties bb h 1).trans
      (sameLinks_capture (bb.sub_liberties h 1) color.opposite h)
  have hcolr : ∀ q,
      (((bb.sub_liberties h 1).capture color.opposite h).1.vertices q).color =
        if q ∈ chainList b h then none else (bb.vertices q).color := by
    intro q
    rw [capture_color (bb.sub_liberties h 1) color.opposite h q, hch,
      (sub_liberties_others bb h 1 q).1]
  have hhead_bb1_h :
      ((bb.sub_liberties h 1).vertices h).head_point = h := by
    rw [(sub_liberties_others bb h 1 h).2.2.1, hinv.head_opp h hhcol, hhhead]
  have hnotat_chain : ∀ q ∈ chainList bb at_point, q ∉ chainList b h := by
    intro q hq hqh
    rcases hinv.at_members q hq with hx | hx
    · exact hq_ne_at q hqh hx
    · exact color_clash color (hx.symm.trans (hmem_col q hqh).1)
  obtain ⟨hok, hlist⟩ := hinv.at_ok.congr_board
    ((bb.sub_liberties h 1).capture color.opposite h).1
    (fun q _ => (hsl q).1)
    (fun q _ => (hsl q).2.1)
    (fun q hq => by rw [hcolr q, if_neg (hnotat_chain q hq)])
  refine ⟨⟨?_, ?_, ?_, ?_, ?_, hset1, hset2, hset3, ?_, ?_, ?_, hok, ?_, ?_,
    ?_, ?_, ?_⟩, hr2, hset4⟩
  · intro q
    rw [hcolr q]
    by_cases hqm : q ∈ chainList b h
    · rw [if_pos hqm, if_pos ⟨h,
        List.mem_append_right _ (List.mem_singleton.mpr rfl), hqm⟩]
    · rw [if_neg hqm]
      by_cases hqc : ∃ h'' ∈ C, q ∈ chainList b h''
      · obtain ⟨h'', hc'', hm''⟩ := hqc
        rw [hinv.color_char q, if_pos ⟨h'', hc'', hm''⟩,
          if_pos ⟨h'', List.mem_append_left _ hc'', hm''⟩]
      · have hneg2 : ¬∃ h'' ∈ C ++ [h], q ∈ chainList b h'' := by
          intro hex
          obtain ⟨hh2, hc2, hm2⟩ := hex
          rcases List.mem_append.mp hc2 with hx | hx
          · exact hqc ⟨hh2, hx, hm2⟩
          · rw [List.mem_singleton.mp hx] at hm2
            exact hqm hm2
        rw [hinv.color_char q, if_neg hqc, if_neg hneg2]
  · intro q hq
    rw [(hsl q).1]
    exact hinv.next_opp q hq
  · intro q hq
    rw [(hsl q).2.1]
    exact hinv.head_opp q hq
  · intro h2 hcol2 hmem2
    have h2S : h2 ∉ S := fun hx => hmem2 (List.mem_append_left _ hx)
    have h2h : h2 ≠ h := fun hx =>
      hmem2 (List.mem_append_right _ (List.mem_singleton.mpr hx))
    have hatHead : (bb.vertices at_point).head_point ≠ h2 := by
      intro heq
      have hmemH := hinv.at_ok.2.2.2
      rw [heq] at hmemH
      rcases hinv.at_members h2 hmemH with hx | hx
      · rw [hx, hempty] at hcol2
        cases hcol2
      · exact opposite_ne color (Option.some.inj (hcol2.symm.trans hx))
    have hpres := capture_libs_pres (bb.sub_liberties h 1) color.opposite h
      h2 ?hsame ?hprot
    case hsame =>
      intro v hv
      rw [hch] at hv
      rw [hhead_bb1_h, (sub_liberties_others bb h 1 v).2.2.1,
        hinv.head_opp v (hmem_col v hv).1, (hmem_col v hv).2]
    case hprot =>
      intro v hv w' hw' hwc hwh
      rw [hch] at hv
      have hv361 := (hok_bh.2.1 v hv).1
      have hvcol := (hmem_col v hv).1
      rw [hhead_bb1_h] at hwh
      rw [(sub_liberties_others bb h 1 w').2.2.1] at hwh ⊢
      rw [(sub_liberties_others bb h 1 w').1] at hwc
      have hw'pad : w' ≠ paddingPoint := by
        intro hpp
        rw [hpp, placeInv_pad_none hWF hat hinv] at hwc
        exact hwc rfl
      have hw'fact : w' < 361 ∧ (b.vertices w').valid = true := by
        rcases adjacentRaw_mem_cases b hWF v hv361 w' hw' with hx | hx
        · exact hx
        · exact absurd hx hw'pad
      have hchar := hinv.color_char w'
      by_cases hcap' : ∃ h'' ∈ C, w' ∈ chainList b h''
      · rw [if_pos hcap'] at hchar
        exact absurd hchar hwc
      · rw [if_neg hcap'] at hchar
        by_cases hat' : w' = at_point
        · rw [if_pos hat'] at hchar
          rw [hat']
          -- the merged chain's head is the played point or friendly
          intro heq
          exact hatHead heq
        · rw [if_neg hat'] at hchar
          rw [hchar] at hwc
          cases hbw : (b.vertices w').color with
          | none => exact absurd hbw hwc
          | some c =>
            by_cases hcc : c = color
            · rw [hcc] at hbw
              by_cases hwin : w' ∈ chainList bb at_point
              · rw [(hinv.at_ok.2.1 w' hwin).2.2]
                exact hatHead
              · rw [(hinv.friendly_untouched w' hbw hwin).2]
                intro heq
                have hok_w' : ChainOk b w' := hWF.1 w'
                  (mem_pointAll.mpr hw'fact.1)
                  (by rw [hbw]; exact Option.noConfusion)
                have hfh : (b.vertices ((b.vertices w').head_point)).color =
                    some color := by
                  rw [(hok_w'.2.1 _ hok_w'.2.2.2).2.1, hbw]
                rw [heq] at hfh
                exact opposite_ne color (Option.some.inj (hcol2.symm.trans hfh))
            · have hco : c = color.opposite := color_cases color c hcc
              rw [hco] at hbw
              have hwadj : w' ∈ b.adjacent_to v :=
                mem_adjacent_to_of_valid b v w' hw' hw'fact.2
              have hW2 := hWF.2.1 v (mem_pointAll.mpr hv361)
                (by rw [hvcol]; exact Option.noConfusion) w' hwadj
                (by rw [hbw, hvcol])
              have : (bb.vertices w').head_point = h := by
                rw [hinv.head_opp w' hbw, hW2, (hmem_col v hv).2]
              exact absurd this hwh
    rw [hpres, sub_liberties_libs, if_neg h2h]
    exact hinv.libs_unseen h2 hcol2 h2S
  · rw [hscr, hinv.hash_eq, hr2, Nat.xor_assoc]
  · intro x hx
    rcases List.mem_append.mp hx with hx | hx
    · exact hinv.S_opp x hx
    · rw [List.mem_singleton.mp hx]
      exact ⟨hhcol, hhhead, hh361⟩
  · intro x hx
    rcases List.mem_append.mp hx with hx | hx
    · exact List.mem_append_left _ (hinv.C_sub x hx)
    · exact List.mem_append_right _ hx
  · intro x hx
    rcases List.mem_append.mp hx with hx | hx
    · have hxh : x ≠ h := fun hh' => hnew (hh' ▸ hx)
      constructor
      · intro hxc
        rcases List.mem_append.mp hxc with hy | hy
        · exact (hinv.C_iff x hx).mp hy
        · exact absurd (List.mem_singleton.mp hy) hxh
      · intro hle
        exact List.mem_append_left _ ((hinv.C_iff x hx).mpr hle)
    · rw [List.mem_singleton.mp hx]
      constructor
      · intro _
        exact hlib1
      · intro _
        exact List.mem_append_right _ (List.mem_singleton.mpr rfl)
  · intro q hq
    rw [hlist] at hq
    rw [hcolr q, if_neg (hnotat_chain q hq)]
    exact hinv.at_colors q hq
  · intro q hq
    rw [hlist] at hq
    exact hinv.at_members q hq
  · intro q hq hqnot
    rw [hlist] at hqnot
    rw [(hsl q).1, (hsl q).2.1]
    exact hinv.friendly_untouched q hq hqnot
  · intro q hq hqmem r hr
    rw [hlist] at hqmem ⊢
    exact hinv.friendly_closed q hq hqmem r hr
  · intro q
    rw [(hsl q).2.2]
    exact hinv.valid_pres q

/-! Dispatch: evaluating one step of each loop under settled conditions. -/

theorem placeStep_none (color : Color) (at_point : Nat) (bb : BoardFast)
    (hash : Nat) (sp : List Nat) (i w : Nat)
    (h : (bb.vertices w).color = none) :
    placeStep color at_point (bb, hash, sp) (i, w) = (bb, hash, sp) := by
  simp only [placeStep]
  rw [h, if_neg (fun hh => Option.noConfusion hh),
    if_neg (fun hh => Option.noConfusion hh)]

theorem placeStep_friendly (color : Color) (at_point : Nat) (bb : BoardFast)
    (hash : Nat) (sp : List Nat) (i w : Nat)
    (h : (bb.vertices w).color = some color) :
    placeStep color at_point (bb, hash, sp) (i, w) =
      (bb.join_blocks at_point w, hash, sp) := by
  simp only [placeStep]
  rw [h, if_pos rfl]

theorem placeStep_opp_seen (color : Color) (at_point : Nat) (bb : BoardFast)
    (hash : Nat) (sp : List Nat) (i w : Nat)
    (h : (bb.vertices w).color = some color.opposite)
    (hcont : sp.contains ((bb.vertices w).head_point) = true) :
    placeStep color at_point (bb, hash, sp) (i, w) = (bb, hash, sp) := by
  simp only [placeStep]
  rw [h, if_neg (fun hh => color_clash color (hh.symm)), if_pos rfl,
    if_neg (not_not_intro hcont)]

theorem placeStep_opp_capture (color : Color) (at_point : Nat)
    (bb : BoardFast) (hash : Nat) (sp : List Nat) (i w : Nat)
    (h : (bb.vertices w).color = some color.opposite)
    (hcont : sp.contains ((bb.vertices w).head_point) = false)
    (hlib : ¬ (bb.sub_liberties ((bb.vertices w).head_point)
      1).has_n_liberty ((bb.vertices w).head_point) 1) :
    placeStep color at_point (bb, hash, sp) (i, w) =
      (((bb.sub_liberties ((bb.vertices w).head_point) 1).capture
          color.opposite ((bb.vertices w).head_point)).1,
        hash ^^^ ((bb.sub_liberties ((bb.vertices w).head_point) 1).capture
          color.opposite ((bb.vertices w).head_point)).2,
        sp.set i ((bb.vertices w).head_point)) := by
  simp only [placeStep]
  rw [h, if_neg (fun hh => color_clash color (hh.symm)), if_pos rfl,
    if_pos (by rw [hcont]; exact Bool.false_ne_true), if_pos hlib]

theorem placeStep_opp_sub (color : Color) (at_point : Nat)
    (bb : BoardFast) (hash : Nat) (sp : List Nat) (i w : Nat)
    (h : (bb.vertices w).color = some color.opposite)
    (hcont : sp.contains ((bb.vertices w).head_point) = false)
    (hlib : (bb.sub_liberties ((bb.vertices w).head_point)
      1).has_n_liberty ((bb.vertices w).head_point) 1) :
    placeStep color at_point (bb, hash, sp) (i, w) =
      (bb.sub_liberties ((bb.vertices w).head_point) 1, hash,
        sp.set i ((bb.vertices w).head_point)) := by
  simp only [placeStep]
  rw [h, if_neg (fun hh => color_clash color (hh.symm)), if_pos rfl,
    if_pos (by rw [hcont]; exact Bool.false_ne_true),
    if_neg (not_not_intro hlib)]

theorem placeIfStep_skip (b : BoardFast) (opponent : Color)
    (hif : Nat) (sif : List Nat) (j w : Nat)
    (hcond : ¬((b.vertices ((b.vertices w).head_point)).color =
        some opponent ∧
      ¬ b.has_n_liberty ((b.vertices w).head_point) 2)) :
    placeIfStep b opponent (hif, sif) (j, w) = (hif, sif) := by
  simp only [placeIfStep]
  rw [if_neg hcond]

theorem placeIfStep_seen (b : BoardFast) (opponent : Color)
    (hif : Nat) (sif : List Nat) (j w : Nat)
    (hcond : (b.vertices ((b.vertices w).head_point)).color =
        some opponent ∧
      ¬ b.has_n_liberty ((b.vertices w).head_point) 2)
    (hcont : sif.contains ((b.vertices w).head_point) = true) :
    placeIfStep b opponent (hif, sif) (j, w) = (hif, sif) := by
  simp only [placeIfStep]
  rw [if_pos hcond, if_neg (not_not_intro hcont)]

theorem placeIfStep_fire (b : BoardFast) (opponent : Color)
    (hif : Nat) (sif : List Nat) (j w : Nat)
    (hcond : (b.vertices ((b.vertices w).head_point)).color =
        some opponent ∧
      ¬ b.has_n_liberty ((b.vertices w).head_point) 2)
    (hcont : sif.contains ((b.vertices w).head_point) = false) :
    placeIfStep b opponent (hif, sif) (j, w) =
      (hif ^^^ b.capture_if opponent ((b.vertices w).head_point),
        sif.set j ((b.vertices w).head_point)) := by
  simp only [placeIfStep]
  rw [if_pos hcond, if_pos (by rw [hcont]; exact Bool.false_ne_true)]

theorem contains_eq_false_of_not_mem {l : List Nat} {a : Nat}
    (h : a ∉ l) : l.contains a = false := by
  cases hc : l.contains a
  · rfl
  · exact absurd (List.elem_iff.mp hc) h

/-- The joint simulation of the neighbour loops of `place` and
`place_if`: from any aligned pair of loop states the two loops stay
aligned, and under a board with no stale head fields next to the move the
preview hash ends equal to the mutating hash. -/
theorem place_fold_sim (b : BoardFast) (color : Color) (at_point : Nat)
    (hWF : WFBoard b) (hat : at_point < 361)
    (hempty : (b.vertices at_point).color = none) :
    ∀ (L : List Nat) (i j : Nat) (C S : List Nat) (bb : BoardFast)
      (hash : Nat) (sp : List Nat) (hif : Nat) (sif : List Nat),
      (∀ w ∈ L, w ∈ adjacentRaw at_point) →
      i + L.length ≤ 4 →
      j + (L.filter (fun q => decide (b.is_part_of q))).length ≤ 4 →
      PlaceInv b color at_point C S bb hash sp →
      (∀ k, i ≤ k → k < 4 → sp.get? k = some pointDefault) →
      ∃ C2 S2,
        PlaceInv b color at_point C2 S2
          ((L.enumFrom i).foldl (placeStep color at_point) (bb, hash, sp)).1
          ((L.enumFrom i).foldl (placeStep color at_point)
            (bb, hash, sp)).2.1
          ((L.enumFrom i).foldl (placeStep color at_point)
            (bb, hash, sp)).2.2 ∧
        ((∀ w ∈ b.adjacent_to at_point, (b.vertices w).color = none →
            ¬((b.vertices ((b.vertices w).head_point)).color =
                some color.opposite ∧
              ¬ b.has_n_liberty ((b.vertices w).head_point) 2)) →
          hif = hash →
          (∀ x ∈ C, x ∈ sif) →
          (∀ x ∈ sif, x ∈ C ∨ x = pointDefault) →
          sif.length = 4 →
          (∀ k, j ≤ k → k < 4 → sif.get? k = some pointDefault) →
          (((L.filter (fun q => decide (b.is_part_of q))).enumFrom j).foldl
            (placeIfStep b color.opposite) (hif, sif)).1 =
            ((L.enumFrom i).foldl (placeStep color at_point)
              (bb, hash, sp)).2.1) := by
  intro L
  induction L with
  | nil =>
      intro i j C S bb hash sp hif sif _ _ _ hinv _
      refine ⟨C, S, hinv, ?_⟩
      intro _ hifeq _ _ _ _
      exact hifeq
  | cons w L' ih =>
      intro i j C S bb hash sp hif sif hL hi hj hinv htail
      have hw : w ∈ adjacentRaw at_point := hL w (List.mem_cons_self w L')
      have hL' : ∀ x ∈ L', x ∈ adjacentRaw at_point := fun x hx =>
        hL x (List.mem_cons_of_mem _ hx)
      have hwat : w ≠ at_point := fun hh =>
        self_not_mem_adjacentRaw at_point hat (hh ▸ hw)
      have hi' : i < 4 := by
        simp only [List.length_cons] at hi
        omega
      have hilen : i + 1 + L'.length ≤ 4 := by
        simp only [List.length_cons] at hi
        omega
      have htail' : ∀ k, i + 1 ≤ k → k < 4 →
          sp.get? k = some pointDefault :=
        fun k hk1 hk2 => htail k (by omega) hk2
      rw [show (w :: L').enumFrom i = (i, w) :: L'.enumFrom (i + 1) from rfl,
        List.foldl_cons]
      cases hval : (bb.vertices w).color with
      | none =>
          rw [placeStep_none color at_point bb hash sp i w hval]
          by_cases hvalid : (b.vertices w).valid = true
          · -- skipped by place, skipped by place_if through its guard
            have hfil : (w :: L').filter (fun q => decide (b.is_part_of q)) =
                w :: L'.filter (fun q => decide (b.is_part_of q)) := by
              rw [List.filter_cons, if_pos]
              simp [BoardFast.is_part_of, hvalid]
            rw [hfil] at hj
            simp only [List.length_cons] at hj
            have hjlen : j + 1 +
                (L'.filter (fun q => decide (b.is_part_of q))).length ≤ 4 :=
              by omega
            obtain ⟨C2, S2, hinv2, himp⟩ := ih (i + 1) (j + 1) C S bb hash
              sp hif sif hL' hilen hjlen hinv htail'
            refine ⟨C2, S2, hinv2, ?_⟩
            intro hclean hifeq hsif1 hsif2 hsif3 hsif4
            rw [hfil,
              show (w :: L'.filter (fun q => decide (b.is_part_of
                q))).enumFrom j = (j, w) :: (L'.filter (fun q =>
                decide (b.is_part_of q))).enumFrom (j + 1) from rfl,
              List.foldl_cons]
            have hstep : placeIfStep b color.opposite (hif, sif) (j, w) =
                (hif, sif) := by
              cases hbw : (b.vertices w).color with
              | none =>
                  exact placeIfStep_skip _ _ _ _ _ _ (hclean w
                    (mem_adjacent_to_of_valid b at_point w hw hvalid) hbw)
              | some c =>
                  by_cases hcc : c = color
                  · exfalso
                    rw [hcc] at hbw
                    have hchar := hinv.color_char w
                    rw [hval, if_neg (placeInv_notcap hWF hinv w
                        (by rw [hbw]; exact color_clash color)),
                      if_neg hwat, hbw] at hchar
                    cases hchar
                  · have hco : c = color.opposite := color_cases color c hcc
                    rw [hco] at hbw
                    have hchar := hinv.color_char w
                    rw [hval] at hchar
                    by_cases hcap : ∃ h2 ∈ C, w ∈ chainList b h2
                    · obtain ⟨h2, hc2, hm2⟩ := hcap
                      have hfacts := placeInv_capchain hWF hinv h2 hc2
                      have hhead : (b.vertices w).head_point = h2 :=
                        (hfacts.2 w hm2).2
                      have hSopp := hinv.S_opp h2 (hinv.C_sub h2 hc2)
                      have hlib : (b.vertices h2).num_liberties ≤ 1 :=
                        (hinv.C_iff h2 (hinv.C_sub h2 hc2)).mp hc2
                      refine placeIfStep_seen _ _ _ _ _ _ ?_ ?_
                      · rw [hhead]
                        refine ⟨hSopp.1, ?_⟩
                        unfold BoardFast.has_n_liberty
                          BoardFast.get_n_liberty
                        rw [hSopp.2.1]
                        omega
                      · rw [hhead]
                        exact List.elem_iff.mpr (hsif1 h2 hc2)
                    · rw [if_neg hcap, if_neg hwat, hbw] at hchar
                      cases hchar
            rw [hstep]
            exact himp hclean hifeq hsif1 hsif2 hsif3
              (fun k hk1 hk2 => hsif4 k (by omega) hk2)
          · -- w is not even part of the board: both loops ignore it
            have hfil : (w :: L').filter (fun q => decide (b.is_part_of q)) =
                L'.filter (fun q => decide (b.is_part_of q)) := by
              rw [List.filter_cons, if_neg]
              simp [BoardFast.is_part_of, hvalid]
            rw [hfil] at hj
            obtain ⟨C2, S2, hinv2, himp⟩ := ih (i + 1) j C S bb hash sp
              hif sif hL' hilen hj hinv htail'
            refine ⟨C2, S2, hinv2, ?_⟩
            intro hclean hifeq hsif1 hsif2 hsif3 hsif4
            rw [hfil]
            exact himp hclean hifeq hsif1 hsif2 hsif3 hsif4
      | some c =>
          by_cases hcc : c = color
          · -- friendly neighbour: place merges, place_if skips
            rw [hcc] at hval
            have hw361 : w < 361 := by
              rcases adjacentRaw_cases at_point hat w hw with hx | hx
              · exfalso
                rw [hx, placeInv_pad_none hWF hat hinv] at hval
                cases hval
              · exact hx
            have hvalid : (b.vertices w).valid = true :=
              hWF.2.2.2.2 w (mem_pointAll.mpr hw361)
            rw [placeStep_friendly color at_point bb hash sp i w hval]
            have hinv2 := placeInv_join b color at_point hWF hempty C S bb
              hash sp hinv w hw361 hwat hval
            have hfil : (w :: L').filter (fun q => decide (b.is_part_of q)) =
                w :: L'.filter (fun q => decide (b.is_part_of q)) := by
              rw [List.filter_cons, if_pos]
              simp [BoardFast.is_part_of, hvalid]
            rw [hfil] at hj
            simp only [List.length_cons] at hj
            have hjlen : j + 1 +
                (L'.filter (fun q => decide (b.is_part_of q))).length ≤ 4 :=
              by omega
            obtain ⟨C2, S2, hinv3, himp⟩ := ih (i + 1) (j + 1) C S
              (bb.join_blocks at_point w) hash sp hif sif hL' hilen hjlen
              hinv2 htail'
            refine ⟨C2, S2, hinv3, ?_⟩
            intro hclean hifeq hsif1 hsif2 hsif3 hsif4
            rw [hfil,
              show (w :: L'.filter (fun q => decide (b.is_part_of
                q))).enumFrom j = (j, w) :: (L'.filter (fun q =>
                decide (b.is_part_of q))).enumFrom (j + 1) from rfl,
              List.foldl_cons]
            have hbf : (b.vertices w).color = some color :=
              placeInv_bcolor_friendly hinv w hwat hval
            have hok_bw : ChainOk b w := hWF.1 w (mem_pointAll.mpr hw361)
              (by rw [hbf]; exact Option.noConfusion)
            have hheadcol :
                (b.vertices ((b.vertices w).head_point)).color =
                  some color := by
              rw [(hok_bw.2.1 _ hok_bw.2.2.2).2.1, hbf]
            have hstep : placeIfStep b color.opposite (hif, sif) (j, w) =
                (hif, sif) :=
              placeIfStep_skip _ _ _ _ _ _ (fun hcond =>
                color_clash color (hheadcol.symm.trans hcond.1))
            rw [hstep]
            exact himp hclean hifeq hsif1 hsif2 hsif3
              (fun k hk1 hk2 => hsif4 k (by omega) hk2)
          · -- opposing neighbour
            have hco : c = color.opposite := color_cases color c hcc
            rw [hco] at hval
            have hbo : (b.vertices w).color = some color.opposite :=
              placeInv_bcolor_opp hinv w hval
            have hw361 : w < 361 := by
              rcases adjacentRaw_cases at_point hat w hw with hx | hx
              · exfalso
                rw [hx, placeInv_pad_none hWF hat hinv] at hval
                cases hval
              · exact hx
            have hvalid : (b.vertices w).valid = true :=
              hWF.2.2.2.2 w (mem_pointAll.mpr hw361)
            have hok_bw : ChainOk b w := hWF.1 w (mem_pointAll.mpr hw361)
              (by rw [hbo]; exact Option.noConfusion)
            have hmemh : (b.vertices w).head_point ∈ chainList b w :=
              hok_bw.2.2.2
            have hh361 : (b.vertices w).head_point < 361 :=
              (hok_bw.2.1 _ hmemh).1
            have hhcol :
                (b.vertices ((b.vertices w).head_point)).color =
                  some color.opposite := by
              rw [(hok_bw.2.1 _ hmemh).2.1, hbo]
            have hhhead :
                (b.vertices ((b.vertices w).head_point)).head_point =
                  (b.vertices w).head_point :=
              (hok_bw.2.1 _ hmemh).2.2
            have hheadw : (bb.vertices w).head_point =
                (b.vertices w).head_point := hinv.head_opp w hbo
            have hfil : (w :: L').filter (fun q => decide (b.is_part_of q)) =
                w :: L'.filter (fun q => decide (b.is_part_of q)) := by
              rw [List.filter_cons, if_pos]
              simp [BoardFast.is_part_of, hvalid]
            rw [hfil] at hj
            simp only [List.length_cons] at hj
            have hjlen : j + 1 +
                (L'.filter (fun q => decide (b.is_part_of q))).length ≤ 4 :=
              by omega
            have hj' : j < 4 := by omega
            by_cases hseen : (b.vertices w).head_point ∈ S
            · -- a head already seen: place skips, place_if skips or has
              -- the head in its seen array
              have hcont : sp.contains ((bb.vertices w).head_point) =
                  true := by
                rw [hheadw]
                exact List.elem_iff.mpr (hinv.sp_sub _ hseen)
              rw [placeStep_opp_seen color at_point bb hash sp i w hval
                hcont]
              obtain ⟨C2, S2, hinv2, himp⟩ := ih (i + 1) (j + 1) C S bb
                hash sp hif sif hL' hilen hjlen hinv htail'
              refine ⟨C2, S2, hinv2, ?_⟩
              intro hclean hifeq hsif1 hsif2 hsif3 hsif4
              rw [hfil,
                show (w :: L'.filter (fun q => decide (b.is_part_of
                  q))).enumFrom j = (j, w) :: (L'.filter (fun q =>
                  decide (b.is_part_of q))).enumFrom (j + 1) from rfl,
                List.foldl_cons]
              have hstep : placeIfStep b color.opposite (hif, sif) (j, w) =
                  (hif, sif) := by
                by_cases hlib : 2 ≤
                    (b.vertices ((b.vertices w).head_point)).num_liberties
                · refine placeIfStep_skip _ _ _ _ _ _ (fun hcond =>
                    hcond.2 ?_)
                  unfold BoardFast.has_n_liberty BoardFast.get_n_liberty
                  rw [hhhead]
                  exact hlib
                · have hinC : (b.vertices w).head_point ∈ C :=
                    (hinv.C_iff _ hseen).mpr (by omega)
                  refine placeIfStep_seen _ _ _ _ _ _ ⟨hhcol, ?_⟩
                    (List.elem_iff.mpr (hsif1 _ hinC))
                  unfold BoardFast.has_n_liberty BoardFast.get_n_liberty
                  rw [hhhead]
                  omega
              rw [hstep]
              exact himp hclean hifeq hsif1 hsif2 hsif3
                (fun k hk1 hk2 => hsif4 k (by omega) hk2)
            · -- a fresh opposing head
              have hcont : sp.contains ((bb.vertices w).head_point) =
                  false := by
                rw [hheadw]
                exact contains_eq_false_of_not_mem (fun hm =>
                  hseen (seen_mem_of_contains S sp _ hinv.sp_sup hh361 hm))
              have hheadsub : ((bb.sub_liberties
                  ((bb.vertices w).head_point) 1).vertices
                    ((bb.vertices w).head_point)).head_point =
                  (b.vertices w).head_point := by
                rw [(sub_liberties_others bb _ 1 _).2.2.1, hheadw,
                  hinv.head_opp _ hhcol, hhhead]
              have hlibs_bb : ((bb.sub_liberties
                  ((bb.vertices w).head_point) 1).vertices
                    ((bb.vertices w).head_point)).num_liberties =
                  (b.vertices ((b.vertices w).head_point)).num_liberties
                    - 1 := by
                rw [sub_liberties_libs, if_pos rfl, hheadw,
                  hinv.libs_unseen _ hhcol hseen]
              by_cases hlib :
                  (b.vertices ((b.vertices w).head_point)).num_liberties ≤ 1
              · -- the filled liberty was the last one: capture
                have hnot1 : ¬ (bb.sub_liberties
                    ((bb.vertices w).head_point) 1).has_n_liberty
                      ((bb.vertices w).head_point) 1 := by
                  unfold BoardFast.has_n_liberty BoardFast.get_n_liberty
                  rw [hheadsub]
                  rw [← hheadw, hheadw] at hlibs_bb
                  rw [hheadw, hlibs_bb]
                  omega
                rw [placeStep_opp_capture color at_point bb hash sp i w
                  hval hcont hnot1, hheadw]
                obtain ⟨hinv2, hr2, htail2⟩ := placeInv_capture b color
                  at_point hWF hat hempty C S bb hash sp hinv i hi' htail
                  ((b.vertices w).head_point) hh361 hhcol hhhead hseen hlib
                obtain ⟨C2, S2, hinv3, himp⟩ := ih (i + 1) (j + 1)
                  (C ++ [(b.vertices w).head_point])
                  (S ++ [(b.vertices w).head_point])
                  ((bb.sub_liberties ((b.vertices w).head_point) 1).capture
                    color.opposite ((b.vertices w).head_point)).1
                  (hash ^^^ ((bb.sub_liberties ((b.vertices w).head_point)
                    1).capture color.opposite
                      ((b.vertices w).head_point)).2)
                  (sp.set i ((b.vertices w).head_point))
                  (hif ^^^ b.capture_if color.opposite
                    ((b.vertices w).head_point))
                  (sif.set j ((b.vertices w).head_point))
                  hL' hilen hjlen hinv2 htail2
                refine ⟨C2, S2, hinv3, ?_⟩
                intro hclean hifeq hsif1 hsif2 hsif3 hsif4
                rw [hfil,
                  show (w :: L'.filter (fun q => decide (b.is_part_of
                    q))).enumFrom j = (j, w) :: (L'.filter (fun q =>
                    decide (b.is_part_of q))).enumFrom (j + 1) from rfl,
                  List.foldl_cons]
                have hnotC : (b.vertices w).head_point ∉ C := fun hx =>
                  hseen (hinv.C_sub _ hx)
                have hcontif : sif.contains ((b.vertices w).head_point) =
                    false :=
                  contains_eq_false_of_not_mem (fun hm =>
                    hnotC (seen_mem_of_contains C sif _ hsif2 hh361 hm))
                have hfire := placeIfStep_fire b color.opposite hif sif j w
                  ⟨hhcol, by
                    unfold BoardFast.has_n_liberty BoardFast.get_n_liberty
                    rw [hhhead]
                    omega⟩ hcontif
                rw [hfire]
                have hC361 : ∀ x ∈ C, x < 361 := fun x hx =>
                  (hinv.S_opp x (hinv.C_sub x hx)).2.2
                obtain ⟨hset1, hset2, hset3, hset4⟩ := seen_set_facts C sif
                  j ((b.vertices w).head_point) hj' hsif3 hsif1 hsif2 hsif4
                  hC361
                refine himp hclean ?_ hset1 hset2 hset3 hset4
                rw [hifeq, hr2]
              · -- liberties remain: deduct one and move on
                have hhas1 : (bb.sub_liberties
                    ((bb.vertices w).head_point) 1).has_n_liberty
                      ((bb.vertices w).head_point) 1 := by
                  unfold BoardFast.has_n_liberty BoardFast.get_n_liberty
                  rw [hheadsub]
                  rw [← hheadw, hheadw] at hlibs_bb
                  rw [hheadw, hlibs_bb]
                  omega
                rw [placeStep_opp_sub color at_point bb hash sp i w hval
                  hcont hhas1, hheadw]
                obtain ⟨hinv2, htail2⟩ := placeInv_sub b color at_point C S
                  bb hash sp hinv i hi' htail ((b.vertices w).head_point)
                  hh361 hhcol hhhead hseen (by omega)
                obtain ⟨C2, S2, hinv3, himp⟩ := ih (i + 1) (j + 1) C
                  (S ++ [(b.vertices w).head_point])
                  (bb.sub_liberties ((b.vertices w).head_point) 1) hash
                  (sp.set i ((b.vertices w).head_point)) hif sif hL' hilen
                  hjlen hinv2 htail2
                refine ⟨C2, S2, hinv3, ?_⟩
                intro hclean hifeq hsif1 hsif2 hsif3 hsif4
                rw [hfil,
                  show (w :: L'.filter (fun q => decide (b.is_part_of
                    q))).enumFrom j = (j, w) :: (L'.filter (fun q =>
                    decide (b.is_part_of q))).enumFrom (j + 1) from rfl,
                  List.foldl_cons]
                have hstep : placeIfStep b color.opposite (hif, sif)
                    (j, w) = (hif, sif) := by
                  refine placeIfStep_skip _ _ _ _ _ _ (fun hcond =>
                    hcond.2 ?_)
                  unfold BoardFast.has_n_liberty BoardFast.get_n_liberty
                  rw [hhhead]
                  omega
                rw [hstep]
                exact himp hclean hifeq hsif1 hsif2 hsif3
                  (fun k hk1 hk2 => hsif4 k (by omega) hk2)

theorem zEntry_none (p : Nat) : zEntry none p = 0 := rfl

theorem zEntry_some (c : Color) (p : Nat) : zEntry (some c) p = TABLE c p :=
  rfl

theorem is_valid_empty (b : BoardFast) (c : Color) (p : Nat)
    (h : b.is_valid c p = true) : (b.vertices p).color = none := by
  unfold BoardFast.is_valid at h
  have := (Bool.and_eq_true _ _).mp h
  exact of_decide_eq_true this.1

/-- The neighbour loops of `place` and `place_if` applied from their
starting states: the loop invariant holds of the final state of `place`,
and on a board with no stale head field next to the move the preview
equals the returned delta. -/
theorem place_main (b : BoardFast) (color : Color) (at_point : Nat)
    (hWF : WFBoard b) (hat : at_point < 361)
    (hempty : (b.vertices at_point).color = none) :
    (∃ C2 S2, PlaceInv b color at_point C2 S2 (b.place color at_point).1
      (b.place color at_point).2
      ((adjacentRaw at_point).enum.foldl (placeStep color at_point)
        (placeInit b color at_point, TABLE color at_point,
          List.replicate 4 pointDefault)).2.2) ∧
    ((∀ w ∈ b.adjacent_to at_point, (b.vertices w).color = none →
        ¬((b.vertices ((b.vertices w).head_point)).color =
            some color.opposite ∧
          ¬ b.has_n_liberty ((b.vertices w).head_point) 2)) →
      b.place_if color at_point = (b.place color at_point).2) := by
  have hlen4 : (adjacentRaw at_point).length = 4 := rfl
  obtain ⟨C2, S2, hinv, himp⟩ := place_fold_sim b color at_point hWF hat
    hempty (adjacentRaw at_point) 0 0 [] []
    (placeInit b color at_point) (TABLE color at_point)
    (List.replicate 4 pointDefault) (TABLE color at_point)
    (List.replicate 4 pointDefault)
    (fun w hw => hw)
    (by omega)
    (by
      have h1 := List.length_filter_le
        (fun q => decide (b.is_part_of q)) (adjacentRaw at_point)
      omega)
    (placeInv_init b color at_point hat hempty)
    (fun k _ hk2 => get?_replicate _ 4 k hk2)
  constructor
  · exact ⟨C2, S2, hinv⟩
  · intro hclean
    exact himp hclean rfl
      (fun x hx => absurd hx (List.not_mem_nil x))
      (fun x hx => Or.inr (List.eq_of_mem_replicate hx))
      (List.length_replicate 4 pointDefault)
      (fun k _ hk2 => get?_replicate _ 4 k hk2)

/-- C2: on a well-formed board, `place` returns the Zobrist entry of the
played stone XOR-ed with the entries of exactly the opposing stones the
move removed, and that value is the XOR difference between the
from-scratch hashes of the boards before and after the call. -/
theorem place_zobrist_delta (b : BoardFast) (color : Color)
    (at_point : Nat) (hWF : WFBoard b) (hat : at_point < 361)
    (hvalid : b.is_valid color at_point = true) :
    (b.place color at_point).2 =
      TABLE color at_point ^^^
        (pointAll.filter (fun v =>
          decide ((b.vertices v).color = some color.opposite) &&
          decide (((b.place color at_point).1.vertices v).color =
            none))).foldl (fun a v => a ^^^ TABLE color.opposite v) 0 ∧
    (b.place color at_point).2 =
      scratchHash b ^^^ scratchHash (b.place color at_point).1 := by
  have hempty : (b.vertices at_point).color = none :=
    is_valid_empty b color at_point hvalid
  obtain ⟨⟨C2, S2, hinv⟩, _⟩ := place_main b color at_point hWF hat hempty
  have hhash := hinv.hash_eq
  refine ⟨?_, hhash⟩
  have hmerge : scratchHash b ^^^ scratchHash (b.place color at_point).1 =
      pointAll.foldl (fun h p => h ^^^
        (zEntry ((b.vertices p).color) p ^^^
          zEntry (((b.place color at_point).1.vertices p).color) p)) 0 := by
    unfold scratchHash
    exact foldl_xor_merge _ _ pointAll
  have hsplit : ∀ v ∈ pointAll, v ≠ at_point →
      (zEntry ((b.vertices v).color) v ^^^
        zEntry (((b.place color at_point).1.vertices v).color) v) =
      (if (decide ((b.vertices v).color = some color.opposite) &&
          decide (((b.place color at_point).1.vertices v).color = none))
        then TABLE color.opposite v else 0) := by
    intro v hv hvat
    by_cases hcap : ∃ h' ∈ C2, v ∈ chainList b h'
    · obtain ⟨h', hh', hm'⟩ := hcap
      have hbcol : (b.vertices v).color = some color.opposite :=
        ((placeInv_capchain hWF hinv h' hh').2 v hm').1
      have hA : ((b.place color at_point).1.vertices v).color = none := by
        rw [hinv.color_char v, if_pos ⟨h', hh', hm'⟩]
      rw [hbcol, hA, zEntry_some, zEntry_none,
        show (decide ((some color.opposite : Option Color) =
            some color.opposite) &&
          decide ((none : Option Color) = none)) = true from by simp,
        if_pos rfl, Nat.xor_zero]
    · have hA : ((b.place color at_point).1.vertices v).color =
          (b.vertices v).color := by
        rw [hinv.color_char v, if_neg hcap, if_neg hvat]
      rw [hA, Nat.xor_self]
      have hcond : (decide ((b.vertices v).color = some color.opposite) &&
          decide ((b.vertices v).color = none)) = false := by
        cases hb : (b.vertices v).color with
        | none => simp
        | some cc => simp
      rw [hcond, if_neg Bool.false_ne_true]
  have hAat : ((b.place color at_point).1.vertices at_point).color =
      some color := by
    rw [hinv.color_char at_point,
      if_neg (placeInv_notcap hWF hinv at_point
        (by rw [hempty]; exact fun hx => Option.noConfusion hx)),
      if_pos rfl]
  have hnodup : pointAll.Nodup := List.nodup_range numPoints
  have hatmem : at_point ∈ pointAll := mem_pointAll.mpr hat
  have hupd := foldl_xor_update
    (fun p => zEntry ((b.vertices p).color) p ^^^
      zEntry (((b.place color at_point).1.vertices p).color) p)
    (fun p => if (decide ((b.vertices p).color = some color.opposite) &&
        decide (((b.place color at_point).1.vertices p).color = none))
      then TABLE color.opposite p else 0)
    pointAll at_point hnodup hatmem hsplit
  dsimp only at hupd
  rw [hempty, hAat, zEntry_none, zEntry_some, Nat.zero_xor] at hupd
  rw [show (decide ((none : Option Color) = some color.opposite) &&
      decide ((some color : Option Color) = none)) = false from by simp,
    if_neg Bool.false_ne_true, Nat.xor_zero] at hupd
  have hfg : pointAll.foldl (fun h p => h ^^^
      (zEntry ((b.vertices p).color) p ^^^
        zEntry (((b.place color at_point).1.vertices p).color) p)) 0 =
      (pointAll.foldl (fun h p => h ^^^
        (if (decide ((b.vertices p).color = some color.opposite) &&
            decide (((b.place color at_point).1.vertices p).color = none))
          then TABLE color.opposite p else 0)) 0) ^^^
        TABLE color at_point := by
    rw [← hupd, Nat.xor_assoc, Nat.xor_self, Nat.xor_zero]
  calc (b.place color at_point).2
      = scratchHash b ^^^ scratchHash (b.place color at_point).1 := hhash
    _ = _ := hmerge
    _ = _ ^^^ TABLE color at_point := hfg
    _ = TABLE color at_point ^^^ _ := Nat.xor_comm _ _
    _ = TABLE color at_point ^^^
        (pointAll.filter (fun v =>
          decide ((b.vertices v).color = some color.opposite) &&
          decide (((b.place color at_point).1.vertices v).color =
            none))).foldl (fun a v => a ^^^ TABLE color.opposite v) 0 := by
        rw [foldl_xor_filter (TABLE color.opposite)
          (fun v => decide ((b.vertices v).color = some color.opposite) &&
            decide (((b.place color at_point).1.vertices v).color = none))
          pointAll]

set_option maxRecDepth 40000 in
/-- Witness for `place_zobrist_delta`: the first stone of a game. -/
theorem place_zobrist_delta_witness :
    (WFBoard BoardFast.new ∧ (0 : Nat) < 361 ∧
      BoardFast.new.is_valid Color.black 0 = true) ∧
    ((BoardFast.new.place Color.black 0).2 =
      TABLE Color.black 0 ^^^
        (pointAll.filter (fun v =>
          decide ((BoardFast.new.vertices v).color =
            some Color.black.opposite) &&
          decide (((BoardFast.new.place Color.black 0).1.vertices v).color =
            none))).foldl
          (fun a v => a ^^^ TABLE Color.black.opposite v) 0 ∧
    (BoardFast.new.place Color.black 0).2 =
      scratchHash BoardFast.new ^^^
        scratchHash (BoardFast.new.place Color.black 0).1) :=
  ⟨⟨by decide, by decide, by decide⟩,
    place_zobrist_delta BoardFast.new Color.black 0 (by decide) (by decide)
      (by decide)⟩

/-- C6 (amended): `capture_if` always equals the delta `capture` returns,
and on a well-formed board `place_if` equals the delta `place` returns for
a valid move provided no empty valid neighbour of the move carries a stale
head field that passes the opposing-block-in-atari test; neither preview
mutates the board, both being plain functions of it. -/
theorem preview_matches_delta (b : BoardFast) (color : Color)
    (at_point : Nat) (hWF : WFBoard b) (hat : at_point < 361)
    (hvalid : b.is_valid color at_point = true)
    (hclean : ∀ w ∈ b.adjacent_to at_point,
      (b.vertices w).color = none →
      ¬((b.vertices ((b.vertices w).head_point)).color =
          some color.opposite ∧
        ¬ b.has_n_liberty ((b.vertices w).head_point) 2)) :
    (∀ (c : Color) (p : Nat), (b.capture c p).2 = b.capture_if c p) ∧
    b.place_if color at_point = (b.place color at_point).2 := by
  refine ⟨fun c p => capture_hash b c p, ?_⟩
  exact (place_main b color at_point hWF hat
    (is_valid_empty b color at_point hvalid)).2 hclean

/-- A board reached by nine placements (white 1, 2, 3; black 0, 20, 21,
22; black 4 capturing the white row; white replayed at 1): vertex 2 is
empty again but still carries `head_point = 1`, and vertex 1 now holds a
white stone in atari. -/
def c6Board : BoardFast :=
  ([(Color.white, 1), (Color.white, 2), (Color.white, 3),
    (Color.black, 0), (Color.black, 20), (Color.black, 21),
    (Color.black, 22), (Color.black, 4), (Color.white, 1)] :
      List (Color × Nat)).foldl
    (fun bd cp => (bd.place cp.1 cp.2).1) BoardFast.new

set_option maxRecDepth 100000 in
/-- Counterexample to C6 as stated: on `c6Board` the move black 3 is
valid, yet `place_if` disagrees with the delta `place` returns — the
stale head field of the empty vertex 2 makes the preview predict a
capture of the white stone at 1 that `place` does not perform. -/
theorem place_if_preview_diverges :
    c6Board.is_valid Color.black 3 = true ∧
    c6Board.place_if Color.black 3 ≠ (c6Board.place Color.black 3).2 := by
  constructor
  · decide
  · decide

set_option maxRecDepth 40000 in
/-- Witness for `preview_matches_delta`: the first stone of a game. -/
theorem preview_matches_delta_witness :
    (WFBoard BoardFast.new ∧ (0 : Nat) < 361 ∧
      BoardFast.new.is_valid Color.black 0 = true ∧
      (∀ w ∈ BoardFast.new.adjacent_to 0,
        (BoardFast.new.vertices w).color = none →
        ¬((BoardFast.new.vertices
            ((BoardFast.new.vertices w).head_point)).color =
            some Color.black.opposite ∧
          ¬ BoardFast.new.has_n_liberty
            ((BoardFast.new.vertices w).head_point) 2))) ∧
    ((∀ (c : Color) (p : Nat),
        (BoardFast.new.capture c p).2 = BoardFast.new.capture_if c p) ∧
      BoardFast.new.place_if Color.black 0 =
        (BoardFast.new.place Color.black 0).2) :=
  ⟨⟨by decide, by decide, by decide, by decide⟩,
    preview_matches_delta BoardFast.new Color.black 0 (by decide)
      (by decide) (by decide) (by decide)⟩

/-! ### Counting liberties: foundations for the liberty invariant -/

theorem length_eq_of_nodup_ext (l1 l2 : List Nat) (h1 : l1.Nodup)
    (h2 : l2.Nodup) (h : ∀ x, x ∈ l1 ↔ x ∈ l2) : l1.length = l2.length :=
  ((List.perm_ext_iff_of_nodup h1 h2).mpr h).length_eq

theorem pointAll_nodup : pointAll.Nodup := List.nodup_range numPoints

/-- Marking one fresh playable point in a point-indexed flag array grows
the count of set flags by one. -/
theorem filter_mark_length (s : Nat → Bool) (v : Nat) (hv : v < 361)
    (hsv : s v = false) :
    (pointAll.filter (fun q => if q = v then true else s q)).length =
      (pointAll.filter s).length + 1 := by
  have hn1 : (pointAll.filter (fun q => if q = v then true else s q)).Nodup :=
    List.Nodup.filter _ pointAll_nodup
  have hn2 : (v :: pointAll.filter s).Nodup := by
    rw [List.nodup_cons]
    refine ⟨?_, List.Nodup.filter _ pointAll_nodup⟩
    intro hmem
    rw [(List.mem_filter.mp hmem).2] at hsv
    cases hsv
  have hext : ∀ x, x ∈ pointAll.filter (fun q => if q = v then true else
      s q) ↔ x ∈ v :: pointAll.filter s := by
    intro x
    rw [List.mem_filter, List.mem_cons, List.mem_filter]
    constructor
    · intro ⟨hx1, hx2⟩
      by_cases hxv : x = v
      · exact Or.inl hxv
      · rw [if_neg hxv] at hx2
        exact Or.inr ⟨hx1, hx2⟩
    · intro hx
      rcases hx with hx | ⟨hx1, hx2⟩
      · rw [hx]
        exact ⟨mem_pointAll.mpr hv, by rw [if_pos rfl]⟩
      · refine ⟨hx1, ?_⟩
        by_cases hxv : x = v
        · rw [if_pos hxv]
        · rw [if_neg hxv]
          exact hx2
  rw [length_eq_of_nodup_ext _ _ hn1 hn2 hext, List.length_cons]

/-- On-board adjacency is symmetric. -/
theorem adjacentRaw_symm (u v : Nat) (hu : u < 361) (hv : v < 361)
    (h : v ∈ adjacentRaw u) : u ∈ adjacentRaw v := by
  have hdu := Nat.div_add_mod u 19
  have hdv := Nat.div_add_mod v 19
  have hmu := Nat.mod_lt u (show 0 < 19 by omega)
  have hmv := Nat.mod_lt v (show 0 < 19 by omega)
  unfold adjacentRaw at h ⊢
  simp only [List.mem_cons, List.not_mem_nil, or_false] at h ⊢
  have hpad : paddingPoint = 361 := rfl
  rcases h with h | h | h | h
  · -- v is the north neighbour of u; u is south of v
    by_cases hc : u / 19 = 0
    · rw [if_pos hc, hpad] at h
      omega
    · rw [if_neg hc] at h
      refine Or.inr (Or.inr (Or.inl ?_))
      rw [if_neg (by omega)]
      omega
  · by_cases hc : u % 19 = 18
    · rw [if_pos hc, hpad] at h
      omega
    · rw [if_neg hc] at h
      refine Or.inr (Or.inr (Or.inr ?_))
      rw [if_neg (by omega)]
      omega
  · by_cases hc : u / 19 = 18
    · rw [if_pos hc, hpad] at h
      omega
    · rw [if_neg hc] at h
      refine Or.inl ?_
      rw [if_neg (by omega)]
      omega
  · by_cases hc : u % 19 = 0
    · rw [if_pos hc, hpad] at h
      omega
    · rw [if_neg hc] at h
      refine Or.inr (Or.inl ?_)
      rw [if_neg (by omega)]
      omega

theorem nodup_filter_of_pairwise (l : List Nat) (p : Nat → Bool)
    (h : l.Pairwise (fun a b => p a = true → p b = true → a ≠ b)) :
    (l.filter p).Nodup := by
  induction l with
  | nil => exact List.nodup_nil
  | cons a l ih =>
      rw [List.filter_cons]
      have hh := List.pairwise_cons.mp h
      by_cases hp : p a
      · rw [if_pos hp]
        rw [List.nodup_cons]
        refine ⟨?_, ih hh.2⟩
        intro hmem
        obtain ⟨hx1, hx2⟩ := List.mem_filter.mp hmem
        exact hh.1 a hx1 hp hx2 rfl
      · rw [if_neg hp]
        exact ih hh.2

/-- The valid neighbours of a playable point are pairwise distinct. -/
theorem adjacent_to_nodup (b : BoardFast)
    (hpad : (b.vertices paddingPoint).valid = false) (u : Nat)
    (hu : u < 361) : (b.adjacent_to u).Nodup := by
  unfold BoardFast.adjacent_to
  refine nodup_filter_of_pairwise _ _ ?_
  have hnp : ∀ w, w = paddingPoint →
      decide (b.is_part_of w) = true → False := by
    intro w hw hd
    rw [hw] at hd
    have hx := of_decide_eq_true hd
    unfold BoardFast.is_part_of at hx
    rw [hpad] at hx
    cases hx
  have hdu := Nat.div_add_mod u 19
  have hmu := Nat.mod_lt u (show 0 < 19 by omega)
  have key : ∀ (c1 c2 : Prop) [Decidable c1] [Decidable c2] (v1 v2 : Nat),
      (¬ c1 → ¬ c2 → v1 ≠ v2) →
      decide (b.is_part_of (if c1 then paddingPoint else v1)) = true →
      decide (b.is_part_of (if c2 then paddingPoint else v2)) = true →
      (if c1 then paddingPoint else v1) ≠
        (if c2 then paddingPoint else v2) := by
    intro c1 c2 _ _ v1 v2 hne hp1 hp2 heq
    by_cases hc1 : c1
    · rw [if_pos hc1] at hp1
      exact hnp _ rfl hp1
    · by_cases hc2 : c2
      · rw [if_pos hc2] at hp2
        exact hnp _ rfl hp2
      · rw [if_neg hc1, if_neg hc2] at heq
        exact hne hc1 hc2 heq
  unfold adjacentRaw
  dsimp only
  refine List.Pairwise.cons ?_ (List.Pairwise.cons ?_
    (List.Pairwise.cons ?_ (List.Pairwise.cons ?_ List.Pairwise.nil)))
  · intro a' ha'
    simp only [List.mem_cons, List.not_mem_nil, or_false] at ha'
    rcases ha' with ha' | ha' | ha' <;> subst ha' <;>
      exact key _ _ _ _ (by intro h1 h2; omega)
  · intro a' ha'
    simp only [List.mem_cons, List.not_mem_nil, or_false] at ha'
    rcases ha' with ha' | ha' <;> subst ha' <;>
      exact key _ _ _ _ (by intro h1 h2; omega)
  · intro a' ha'
    simp only [List.mem_cons, List.not_mem_nil, or_false] at ha'
    subst ha'
    exact key _ _ _ _ (by intro h1 h2; omega)
  · intro a' ha'
    cases ha'

/-- The liberty list of the block headed by `h`, through the head-field
test the code itself uses (`is_liberty_of`): the playable empty vertices
with a neighbour stone of `h`'s block. -/
def libsList (b : BoardFast) (h : Nat) : List Nat :=
  pointAll.filter (fun v => decide ((b.vertices v).color = none) &&
    b.is_liberty_of v h)

/-- The liberty list of the chain through `h` by its literal traversal:
the playable empty vertices 4-adjacent to at least one member. -/
def chainLibs (b : BoardFast) (h : Nat) : List Nat :=
  pointAll.filter (fun v => decide ((b.vertices v).color = none) &&
    decide (∃ m ∈ chainList b h, v ∈ adjacentRaw m))

/-- A board state carries correct liberty counts: every head stores the
size of its block's liberty list. -/
def LibsGood (b : BoardFast) : Prop :=
  ∀ h ∈ pointAll, (b.vertices h).color ≠ none →
    (b.vertices h).head_point = h →
    (b.vertices h).num_liberties = (libsList b h).length

/-- No block on the board is left without a liberty. -/
def LibsPos (b : BoardFast) : Prop :=
  ∀ h ∈ pointAll, (b.vertices h).color ≠ none →
    (b.vertices h).head_point = h → 1 ≤ (b.vertices h).num_liberties

instance (b : BoardFast) : Decidable (LibsGood b) := by
  unfold LibsGood; infer_instance

instance (b : BoardFast) : Decidable (LibsPos b) := by
  unfold LibsPos; infer_instance

theorem libsList_nodup (b : BoardFast) (h : Nat) :
    (libsList b h).Nodup := List.Nodup.filter _ pointAll_nodup

theorem is_liberty_of_iff (b : BoardFast) (v h : Nat) :
    b.is_liberty_of v h = true ↔ ∃ w ∈ b.adjacent_to v,
      (b.vertices w).color = (b.vertices h).color ∧
      (b.vertices w).head_point = h := by
  unfold BoardFast.is_liberty_of
  rw [List.any_eq_true]
  constructor
  · intro hx
    obtain ⟨w, hw, hcond⟩ := hx
    rw [Bool.and_eq_true] at hcond
    exact ⟨w, hw, of_decide_eq_true hcond.1, of_decide_eq_true hcond.2⟩
  · intro hx
    obtain ⟨w, hw, h1, h2⟩ := hx
    refine ⟨w, hw, ?_⟩
    rw [Bool.and_eq_true]
    exact ⟨decide_eq_true h1, decide_eq_true h2⟩

theorem mem_libsList (b : BoardFast) (h v : Nat) :
    v ∈ libsList b h ↔ v < 361 ∧ (b.vertices v).color = none ∧
      b.is_liberty_of v h = true := by
  unfold libsList
  rw [List.mem_filter, Bool.and_eq_true, mem_pointAll]
  constructor
  · intro ⟨h1, h2, h3⟩
    exact ⟨h1, of_decide_eq_true h2, h3⟩
  · intro ⟨h1, h2, h3⟩
    exact ⟨h1, decide_eq_true h2, h3⟩

theorem mem_chainLibs (b : BoardFast) (h v : Nat) :
    v ∈ chainLibs b h ↔ v < 361 ∧ (b.vertices v).color = none ∧
      ∃ m ∈ chainList b h, v ∈ adjacentRaw m := by
  unfold chainLibs
  rw [List.mem_filter, Bool.and_eq_true, mem_pointAll]
  constructor
  · intro ⟨h1, h2, h3⟩
    exact ⟨h1, of_decide_eq_true h2, of_decide_eq_true h3⟩
  · intro ⟨h1, h2, h3⟩
    exact ⟨h1, decide_eq_true h2, decide_eq_true h3⟩

theorem any_congr {l : List Nat} {f g : Nat → Bool}
    (h : ∀ x ∈ l, f x = g x) : l.any f = l.any g := by
  induction l with
  | nil => rfl
  | cons a l ih =>
      rw [List.any_cons, List.any_cons, h a (List.mem_cons_self a l),
        ih (fun x hx => h x (List.mem_cons_of_mem _ hx))]

/-- `is_liberty_of` depends only on validity, colors and head fields. -/
theorem is_liberty_of_congr (b b' : BoardFast)
    (hval : ∀ q, (b'.vertices q).valid = (b.vertices q).valid)
    (hcol : ∀ q, (b'.vertices q).color = (b.vertices q).color)
    (hhead : ∀ q, (b'.vertices q).head_point = (b.vertices q).head_point)
    (v h : Nat) : b'.is_liberty_of v h = b.is_liberty_of v h := by
  unfold BoardFast.is_liberty_of BoardFast.adjacent_to
  have hfil : (adjacentRaw v).filter (fun q => decide (b'.is_part_of q)) =
      (adjacentRaw v).filter (fun q => decide (b.is_part_of q)) := by
    refine List.filter_congr' ?_
    intro q _
    unfold BoardFast.is_part_of
    have hx := hval q
    by_cases hb : (b.vertices q).valid = true
    · rw [decide_eq_true (by rw [hx]; exact hb), decide_eq_true hb]
    · rw [decide_eq_false (by rw [hx]; exact hb), decide_eq_false hb]
  rw [hfil]
  refine any_congr ?_
  intro w _
  rw [hcol w, hhead w, hcol h]

/-- The liberty lists depend only on validity, colors and head fields. -/
theorem libsList_congr (b b' : BoardFast)
    (hval : ∀ q, (b'.vertices q).valid = (b.vertices q).valid)
    (hcol : ∀ q, (b'.vertices q).color = (b.vertices q).color)
    (hhead : ∀ q, (b'.vertices q).head_point = (b.vertices q).head_point)
    (h : Nat) : libsList b' h = libsList b h := by
  unfold libsList
  refine List.filter_congr' ?_
  intro v _
  rw [hcol v, is_liberty_of_congr b b' hval hcol hhead v h]

theorem incrStep_none (hv : Nat) (st : BoardFast × List Nat) (i w : Nat)
    (h : (st.1.vertices w).color = none) :
    incrStep hv st (i, w) = st := by
  simp only [incrStep]
  rw [h, if_neg (fun hh => hh rfl)]

theorem incrStep_skip (hv : Nat) (st : BoardFast × List Nat) (i w : Nat)
    (h : (st.1.vertices w).color ≠ none)
    (h2 : ¬((st.1.vertices w).head_point ≠ hv ∧
      ¬ st.2.contains ((st.1.vertices w).head_point))) :
    incrStep hv st (i, w) = st := by
  simp only [incrStep]
  rw [if_pos h, if_neg h2]

theorem incrStep_fire (hv : Nat) (st : BoardFast × List Nat) (i w : Nat)
    (h : (st.1.vertices w).color ≠ none)
    (hne : (st.1.vertices w).head_point ≠ hv)
    (hcont : st.2.contains ((st.1.vertices w).head_point) = false) :
    incrStep hv st (i, w) =
      (st.1.add_liberties ((st.1.vertices w).head_point) 1,
        st.2.set i ((st.1.vertices w).head_point)) := by
  simp only [incrStep]
  rw [if_pos h, if_pos ⟨hne, by rw [hcont]; exact Bool.false_ne_true⟩]


/-- Exact accounting of `incr_adjacent_liberties`: a block other than the
starting point's own gains one liberty exactly when it owns a stone next
to the starting point. -/
theorem incr_libs_credit (m : BoardFast) (sp : Nat) (q : Nat)
    (hq : q ≠ (m.vertices sp).head_point)
    (hheads : ∀ w ∈ adjacentRaw sp, (m.vertices w).color ≠ none →
      (m.vertices w).head_point < 361) :
    ((m.incr_adjacent_liberties sp).vertices q).num_liberties =
      (m.vertices q).num_liberties +
        (if ∃ w ∈ adjacentRaw sp, (m.vertices w).color ≠ none ∧
            (m.vertices w).head_point = q then 1 else 0) := by
  unfold BoardFast.incr_adjacent_liberties
  have key : ∀ (L : List Nat) (i : Nat) (st : BoardFast × List Nat)
      (Scr : List Nat),
      (∀ w ∈ L, w ∈ adjacentRaw sp) →
      i + L.length ≤ 4 →
      (∀ x, (st.1.vertices x).color = (m.vertices x).color) →
      (∀ x, (st.1.vertices x).head_point = (m.vertices x).head_point) →
      (∀ x ∈ Scr, x ∈ st.2) →
      (∀ x ∈ st.2, x ∈ Scr ∨ x = pointDefault) →
      st.2.length = 4 →
      (∀ k, i ≤ k → k < 4 → st.2.get? k = some pointDefault) →
      (∀ x ∈ Scr, x < 361) →
      (st.1.vertices q).num_liberties =
        (m.vertices q).num_liberties + (if q ∈ Scr then 1 else 0) →
      (((L.enumFrom i).foldl (incrStep ((m.vertices sp).head_point))
          st).1.vertices q).num_liberties =
        (m.vertices q).num_liberties +
          (if (q ∈ Scr ∨ ∃ w ∈ L, (m.vertices w).color ≠ none ∧
              (m.vertices w).head_point = q) then 1 else 0) := by
    intro L
    induction L with
    | nil =>
        intro i st Scr _ _ _ _ _ _ _ _ _ hlib
        have hiff : (q ∈ Scr ∨ ∃ w ∈ ([] : List Nat),
            (m.vertices w).color ≠ none ∧ (m.vertices w).head_point = q) ↔
            q ∈ Scr := by
          constructor
          · intro hx
            rcases hx with hx | ⟨w, hw, _⟩
            · exact hx
            · cases hw
          · exact Or.inl
        rw [if_congr hiff rfl rfl]
        exact hlib
    | cons w L' ih =>
        intro i st Scr hL hi hcolst hheadst hsub hsup hlen htail h361 hlib
        have hw : w ∈ adjacentRaw sp := hL w (List.mem_cons_self w L')
        have hL' : ∀ x ∈ L', x ∈ adjacentRaw sp := fun x hx =>
          hL x (List.mem_cons_of_mem _ hx)
        have hi' : i < 4 := by
          simp only [List.length_cons] at hi
          omega
        have hilen : i + 1 + L'.length ≤ 4 := by
          simp only [List.length_cons] at hi
          omega
        have htail' : ∀ k, i + 1 ≤ k → k < 4 →
            st.2.get? k = some pointDefault :=
          fun k hk1 hk2 => htail k (by omega) hk2
        rw [show (w :: L').enumFrom i = (i, w) :: L'.enumFrom (i + 1)
          from rfl, List.foldl_cons]
        by_cases hcw : (m.vertices w).color = none
        · rw [incrStep_none _ _ _ _ (by rw [hcolst w]; exact hcw)]
          rw [ih (i + 1) st Scr hL' hilen hcolst hheadst hsub hsup
            hlen htail' h361 hlib]
          have hiff : (q ∈ Scr ∨ ∃ x ∈ L', (m.vertices x).color ≠ none ∧
              (m.vertices x).head_point = q) ↔
              (q ∈ Scr ∨ ∃ x ∈ w :: L', (m.vertices x).color ≠ none ∧
                (m.vertices x).head_point = q) := by
            constructor
            · intro hx
              rcases hx with hx | ⟨x, hxm, hx2⟩
              · exact Or.inl hx
              · exact Or.inr ⟨x, List.mem_cons_of_mem _ hxm, hx2⟩
            · intro hx
              rcases hx with hx | ⟨x, hxm, hx2⟩
              · exact Or.inl hx
              · rcases List.mem_cons.mp hxm with hxm | hxm
                · exact absurd hcw (hxm ▸ hx2).1
                · exact Or.inr ⟨x, hxm, hx2⟩
          rw [if_congr hiff rfl rfl]
        · by_cases hhv : (m.vertices w).head_point =
              (m.vertices sp).head_point
          · rw [incrStep_skip _ _ _ _ (by rw [hcolst w]; exact hcw)
              (by
                intro hx
                rw [hheadst w] at hx
                exact hx.1 hhv)]
            rw [ih (i + 1) st Scr hL' hilen hcolst hheadst hsub hsup
              hlen htail' h361 hlib]
            have hiff : (q ∈ Scr ∨ ∃ x ∈ L', (m.vertices x).color ≠ none ∧
                (m.vertices x).head_point = q) ↔
                (q ∈ Scr ∨ ∃ x ∈ w :: L', (m.vertices x).color ≠ none ∧
                  (m.vertices x).head_point = q) := by
              constructor
              · intro hx
                rcases hx with hx | ⟨x, hxm, hx2⟩
                · exact Or.inl hx
                · exact Or.inr ⟨x, List.mem_cons_of_mem _ hxm, hx2⟩
              · intro hx
                rcases hx with hx | ⟨x, hxm, hx2⟩
                · exact Or.inl hx
                · rcases List.mem_cons.mp hxm with hxm | hxm
                  · exact absurd ((hxm ▸ hx2).2.symm.trans hhv) hq
                  · exact Or.inr ⟨x, hxm, hx2⟩
            rw [if_congr hiff rfl rfl]
          · by_cases hcont : (m.vertices w).head_point ∈ st.2
            · rw [incrStep_skip _ _ _ _ (by rw [hcolst w]; exact hcw)
                (by
                  intro hx
                  rw [hheadst w] at hx
                  exact hx.2 (List.elem_iff.mpr hcont))]
              have hd361 : (m.vertices w).head_point < 361 :=
                hheads w hw hcw
              have hdScr : (m.vertices w).head_point ∈ Scr :=
                seen_mem_of_contains Scr st.2 _ hsup hd361 hcont
              rw [ih (i + 1) st Scr hL' hilen hcolst hheadst hsub hsup
                hlen htail' h361 hlib]
              have hiff : (q ∈ Scr ∨ ∃ x ∈ L',
                  (m.vertices x).color ≠ none ∧
                  (m.vertices x).head_point = q) ↔
                  (q ∈ Scr ∨ ∃ x ∈ w :: L', (m.vertices x).color ≠ none ∧
                    (m.vertices x).head_point = q) := by
                constructor
                · intro hx
                  rcases hx with hx | ⟨x, hxm, hx2⟩
                  · exact Or.inl hx
                  · exact Or.inr ⟨x, List.mem_cons_of_mem _ hxm, hx2⟩
                · intro hx
                  rcases hx with hx | ⟨x, hxm, hx2⟩
                  · exact Or.inl hx
                  · rcases List.mem_cons.mp hxm with hxm | hxm
                    · exact Or.inl ((hxm ▸ hx2).2 ▸ hdScr)
                    · exact Or.inr ⟨x, hxm, hx2⟩
              rw [if_congr hiff rfl rfl]
            · rw [incrStep_fire _ _ _ _ (by rw [hcolst w]; exact hcw)
                (by rw [hheadst w]; exact hhv)
                (by
                  rw [hheadst w]
                  exact contains_eq_false_of_not_mem hcont)]
              rw [hheadst w]
              have hd361 : (m.vertices w).head_point < 361 :=
                hheads w hw hcw
              have hdScr : (m.vertices w).head_point ∉ Scr := fun hx =>
                hcont (hsub _ hx)
              obtain ⟨hset1, hset2, hset3, hset4⟩ := seen_set_facts Scr
                st.2 i ((m.vertices w).head_point) hi' hlen hsub hsup
                htail h361
              have hScr361 : ∀ x ∈ Scr ++ [(m.vertices w).head_point],
                  x < 361 := by
                intro x hx
                rcases List.mem_append.mp hx with hx | hx
                · exact h361 x hx
                · rw [List.mem_singleton.mp hx]
                  exact hd361
              have hcolst' : ∀ x,
                  ((st.1.add_liberties ((m.vertices w).head_point)
                    1).vertices x).color = (m.vertices x).color := by
                intro x
                rw [(add_liberties_others _ _ _ _).1]
                exact hcolst x
              have hheadst' : ∀ x,
                  ((st.1.add_liberties ((m.vertices w).head_point)
                    1).vertices x).head_point =
                    (m.vertices x).head_point := by
                intro x
                rw [(add_liberties_others _ _ _ _).2.2.1]
                exact hheadst x
              have hlib' : ((st.1.add_liberties
                  ((m.vertices w).head_point) 1).vertices
                    q).num_liberties =
                  (m.vertices q).num_liberties +
                    (if q ∈ Scr ++ [(m.vertices w).head_point] then 1
                      else 0) := by
                rw [add_liberties_libs]
                by_cases hqd : q = (m.vertices w).head_point
                · rw [if_pos hqd, hlib,
                    if_neg (by rw [hqd]; exact hdScr),
                    if_pos (List.mem_append_right _
                      (List.mem_singleton.mpr hqd))]
                · rw [if_neg hqd, hlib]
                  by_cases hqs : q ∈ Scr
                  · rw [if_pos hqs, if_pos (List.mem_append_left _ hqs)]
                  · rw [if_neg hqs, if_neg (by
                      intro hx
                      rcases List.mem_append.mp hx with hx | hx
                      · exact hqs hx
                      · exact hqd (List.mem_singleton.mp hx))]
              rw [ih (i + 1)
                (st.1.add_liberties ((m.vertices w).head_point) 1,
                  st.2.set i ((m.vertices w).head_point))
                (Scr ++ [(m.vertices w).head_point]) hL' hilen hcolst'
                hheadst' hset1 hset2 hset3 hset4 hScr361 hlib']
              have hiff : (q ∈ Scr ++ [(m.vertices w).head_point] ∨
                  ∃ x ∈ L', (m.vertices x).color ≠ none ∧
                  (m.vertices x).head_point = q) ↔
                  (q ∈ Scr ∨ ∃ x ∈ w :: L', (m.vertices x).color ≠ none ∧
                    (m.vertices x).head_point = q) := by
                constructor
                · intro hx
                  rcases hx with hx | ⟨x, hxm, hx2⟩
                  · rcases List.mem_append.mp hx with hx | hx
                    · exact Or.inl hx
                    · exact Or.inr ⟨w, List.mem_cons_self w L',
                        hcw, (List.mem_singleton.mp hx).symm⟩
                  · exact Or.inr ⟨x, List.mem_cons_of_mem _ hxm, hx2⟩
                · intro hx
                  rcases hx with hx | ⟨x, hxm, hx2⟩
                  · exact Or.inl (List.mem_append_left _ hx)
                  · rcases List.mem_cons.mp hxm with hxm | hxm
                    · exact Or.inl (List.mem_append_right _
                        (List.mem_singleton.mpr (hxm ▸ hx2).2.symm))
                    · exact Or.inr ⟨x, hxm, hx2⟩
              rw [if_congr hiff rfl rfl]
  have hkey := key (adjacentRaw sp) 0 (m, List.replicate 4 pointDefault) []
    (fun w hw => hw)
    (by rw [show (adjacentRaw sp).length = 4 from rfl])
    (fun x => rfl) (fun x => rfl)
    (fun x hx => absurd hx (List.not_mem_nil x))
    (fun x hx => Or.inr (List.eq_of_mem_replicate hx))
    (List.length_replicate 4 pointDefault)
    (fun k _ hk2 => get?_replicate _ 4 k hk2)
    (fun x hx => absurd hx (List.not_mem_nil x))
    (by rw [if_neg (List.not_mem_nil q), Nat.add_zero])
  rw [show (adjacentRaw sp).enum = (adjacentRaw sp).enumFrom 0 from rfl,
    hkey]
  have hiff : (q ∈ ([] : List Nat) ∨ ∃ w ∈ adjacentRaw sp,
      (m.vertices w).color ≠ none ∧ (m.vertices w).head_point = q) ↔
      (∃ w ∈ adjacentRaw sp, (m.vertices w).color ≠ none ∧
        (m.vertices w).head_point = q) := by
    constructor
    · intro hx
      rcases hx with hx | hx
      · exact absurd hx (List.not_mem_nil q)
      · exact hx
    · exact Or.inr
  rw [if_congr hiff rfl rfl]

/-- Exact accounting of `capture`: a surviving block gains one liberty
per removed stone it was adjacent to. -/
theorem capture_libs_credit (bb1 : BoardFast) (c : Color) (p q : Nat)
    (hq : q ≠ (bb1.vertices p).head_point)
    (hsame : ∀ v ∈ chainList bb1 p,
      (bb1.vertices v).head_point = (bb1.vertices p).head_point)
    (hheads : ∀ w, (bb1.vertices w).color ≠ none →
      (bb1.vertices w).head_point < 361) :
    (((bb1.capture c p).1).vertices q).num_liberties =
      (bb1.vertices q).num_liberties +
        (chainList bb1 p).countP (fun v => decide (∃ w ∈ adjacentRaw v,
          (bb1.vertices w).color ≠ none ∧ w ∉ chainList bb1 p ∧
          (bb1.vertices w).head_point = q)) := by
  unfold BoardFast.capture
  have key : ∀ (l : List Nat) (st : BoardFast × Nat),
      (∀ v ∈ l, v ∈ chainList bb1 p) →
      SameLinks bb1 st.1 →
      (∀ x, (st.1.vertices x).color = (bb1.vertices x).color ∨
        ((st.1.vertices x).color = none ∧ x ∈ chainList bb1 p)) →
      ((l.foldl (captureStep c) st).1.vertices q).num_liberties =
        (st.1.vertices q).num_liberties +
          l.countP (fun v => decide (∃ w ∈ adjacentRaw v,
            (bb1.vertices w).color ≠ none ∧ w ∉ chainList bb1 p ∧
            (bb1.vertices w).head_point = q)) := by
    intro l
    induction l with
    | nil =>
        intro st _ _ _
        rw [List.countP_nil, Nat.add_zero]
        rfl
    | cons v l ih =>
        intro st hl hsl hrel
        have hv : v ∈ chainList bb1 p := hl v (List.mem_cons_self v l)
        rw [List.foldl_cons, List.countP_cons]
        have hstep : (captureStep c st v).1 =
            (st.1.set_color v none).incr_adjacent_liberties v := rfl
        have hsl' : SameLinks bb1 (captureStep c st v).1 := by
          rw [hstep]
          exact (hsl.trans (sameLinks_set_color _ _ _)).trans
            (sameLinks_incr _ _)
        have hrel' : ∀ x, ((captureStep c st v).1.vertices x).color =
            (bb1.vertices x).color ∨
            (((captureStep c st v).1.vertices x).color = none ∧
              x ∈ chainList bb1 p) := by
          intro x
          rw [hstep, incr_color, set_color_color]
          by_cases hxv : x = v
          · rw [if_pos hxv]
            exact Or.inr ⟨rfl, hxv ▸ hv⟩
          · rw [if_neg hxv]
            exact hrel x
        rw [ih _ (fun x hx => hl x (List.mem_cons_of_mem _ hx)) hsl' hrel']
        -- one step's effect on the tracked block
        have hstcol : ∀ x, x ≠ v →
            ((st.1.set_color v none).vertices x).color =
              (st.1.vertices x).color := by
          intro x hx
          rw [set_color_color, if_neg hx]
        have hincr := incr_libs_credit (st.1.set_color v none) v q
          (by
            rw [set_color_head, (hsl v).2.1, hsame v hv]
            exact hq)
          (by
            intro w hw hcolw
            have hwv : w ≠ v := by
              intro hh
              rw [hh, set_color_color, if_pos rfl] at hcolw
              exact hcolw rfl
            rw [hstcol w hwv] at hcolw
            have hbbw : (bb1.vertices w).color ≠ none := by
              rcases hrel w with hx | hx
              · rw [← hx]
                exact hcolw
              · exact absurd hx.1 hcolw
            rw [set_color_head, (hsl w).2.1]
            exact hheads w hbbw)
        rw [hstep, hincr, set_color_libs]
        have hiff : (∃ w ∈ adjacentRaw v,
            ((st.1.set_color v none).vertices w).color ≠ none ∧
            ((st.1.set_color v none).vertices w).head_point = q) ↔
            (∃ w ∈ adjacentRaw v, (bb1.vertices w).color ≠ none ∧
              w ∉ chainList bb1 p ∧ (bb1.vertices w).head_point = q) := by
          constructor
          · intro ⟨w, hw, hc1, hc2⟩
            have hwv : w ≠ v := by
              intro hh
              rw [hh, set_color_color, if_pos rfl] at hc1
              exact hc1 rfl
            rw [hstcol w hwv] at hc1
            have hbbw : (bb1.vertices w).color ≠ none := by
              rcases hrel w with hx | hx
              · rw [← hx]
                exact hc1
              · exact absurd hx.1 hc1
            rw [set_color_head, (hsl w).2.1] at hc2
            refine ⟨w, hw, hbbw, ?_, hc2⟩
            intro hwchain
            rw [hsame w hwchain] at hc2
            exact hq hc2.symm
          · intro ⟨w, hw, hc1, hc2, hc3⟩
            have hwv : w ≠ v := fun hh => hc2 (hh ▸ hv)
            refine ⟨w, hw, ?_, ?_⟩
            · rw [hstcol w hwv]
              rcases hrel w with hx | hx
              · rw [hx]
                exact hc1
              · exact absurd hx.2 hc2
            · rw [set_color_head, (hsl w).2.1]
              exact hc3
        rw [if_congr hiff rfl rfl]
        have hdec : (if (∃ w ∈ adjacentRaw v,
            (bb1.vertices w).color ≠ none ∧ w ∉ chainList bb1 p ∧
            (bb1.vertices w).head_point = q) then 1 else 0) =
            (if (decide (∃ w ∈ adjacentRaw v,
              (bb1.vertices w).color ≠ none ∧ w ∉ chainList bb1 p ∧
              (bb1.vertices w).head_point = q) : Bool) then 1 else 0) := by
          by_cases hd : ∃ w ∈ adjacentRaw v,
              (bb1.vertices w).color ≠ none ∧ w ∉ chainList bb1 p ∧
              (bb1.vertices w).head_point = q
          · simp [hd]
          · simp [hd]
        rw [hdec]
        omega
  rw [key (chainList bb1 p) (bb1, 0) (fun v hv => hv) (SameLinks.refl bb1)
    (fun x => Or.inl rfl)]

theorem adjacent_to_congr (b b' : BoardFast)
    (hval : ∀ q, (b'.vertices q).valid = (b.vertices q).valid) (u : Nat) :
    b'.adjacent_to u = b.adjacent_to u := by
  unfold BoardFast.adjacent_to
  refine List.filter_congr' ?_
  intro q _
  unfold BoardFast.is_part_of
  have hx := hval q
  by_cases hb : (b.vertices q).valid = true
  · rw [decide_eq_true (by rw [hx]; exact hb), decide_eq_true hb]
  · rw [decide_eq_false (by rw [hx]; exact hb), decide_eq_false hb]

/-- The liberty list of a surviving block after `capture`: the old list
plus one entry per removed stone the block was adjacent to. -/
theorem capture_libsList (bb1 : BoardFast) (c : Color) (p q : Nat)
    (hq : q ≠ (bb1.vertices p).head_point)
    (hqhead : (bb1.vertices q).head_point = q)
    (hqcol : (bb1.vertices q).color ≠ none)
    (hsame : ∀ v ∈ chainList bb1 p,
      (bb1.vertices v).head_point = (bb1.vertices p).head_point)
    (hmem : ∀ v ∈ chainList bb1 p, v < 361 ∧ (bb1.vertices v).color ≠ none)
    (hnd : (chainList bb1 p).Nodup)
    (hcol_of_head : ∀ w, (bb1.vertices w).color ≠ none →
      (bb1.vertices w).head_point = q →
      (bb1.vertices w).color = (bb1.vertices q).color)
    (hval : ∀ w, (bb1.vertices w).color ≠ none →
      (bb1.vertices w).valid = true) :
    (libsList ((bb1.capture c p).1) q).length =
      (libsList bb1 q).length +
        (chainList bb1 p).countP (fun v => decide (∃ w ∈ adjacentRaw v,
          (bb1.vertices w).color ≠ none ∧ w ∉ chainList bb1 p ∧
          (bb1.vertices w).head_point = q)) := by
  have hsl : SameLinks bb1 (bb1.capture c p).1 := sameLinks_capture bb1 c p
  have hqchain : q ∉ chainList bb1 p := by
    intro hx
    exact hq ((hqhead.symm).trans (hsame q hx))
  have hAcolq : ((bb1.capture c p).1.vertices q).color =
      (bb1.vertices q).color := by
    rw [capture_color, if_neg hqchain]
  have hlib_eq : ∀ x, (bb1.capture c p).1.is_liberty_of x q =
      bb1.is_liberty_of x q := by
    intro x
    unfold BoardFast.is_liberty_of
    rw [adjacent_to_congr bb1 _ (fun w => (hsl w).2.2) x]
    refine any_congr ?_
    intro w _
    rw [hAcolq, (hsl w).2.1]
    by_cases hwchain : w ∈ chainList bb1 p
    · -- a removed stone never matches: its head is the captured head
      have hw1 : ((bb1.capture c p).1.vertices w).color = none := by
        rw [capture_color, if_pos hwchain]
      rw [hw1]
      by_cases hwq : (bb1.vertices w).head_point = q
      · exact absurd (hwq.symm.trans (hsame w hwchain)) hq
      · rw [decide_eq_false hwq, Bool.and_false, Bool.and_false]
    · have hw1 : ((bb1.capture c p).1.vertices w).color =
          (bb1.vertices w).color := by
        rw [capture_color, if_neg hwchain]
      rw [hw1]
  have hDnd : ((chainList bb1 p).filter (fun v =>
      decide (∃ w ∈ adjacentRaw v, (bb1.vertices w).color ≠ none ∧
        w ∉ chainList bb1 p ∧ (bb1.vertices w).head_point = q))).Nodup :=
    List.Nodup.filter _ hnd
  have happ : ((chainList bb1 p).filter (fun v =>
      decide (∃ w ∈ adjacentRaw v, (bb1.vertices w).color ≠ none ∧
        w ∉ chainList bb1 p ∧ (bb1.vertices w).head_point = q)) ++
      libsList bb1 q).Nodup := by
    rw [List.nodup_append]
    refine ⟨hDnd, libsList_nodup bb1 q, ?_⟩
    intro x hx hx2
    have hx1 := (List.mem_filter.mp hx).1
    have := (mem_libsList bb1 q x).mp hx2
    exact (hmem x hx1).2 this.2.1
  have hext : ∀ x, x ∈ libsList ((bb1.capture c p).1) q ↔
      x ∈ (chainList bb1 p).filter (fun v =>
        decide (∃ w ∈ adjacentRaw v, (bb1.vertices w).color ≠ none ∧
          w ∉ chainList bb1 p ∧ (bb1.vertices w).head_point = q)) ++
        libsList bb1 q := by
    intro x
    rw [List.mem_append, mem_libsList, mem_libsList, List.mem_filter,
      hlib_eq x]
    constructor
    · intro ⟨h1, h2, h3⟩
      rw [capture_color] at h2
      by_cases hxchain : x ∈ chainList bb1 p
      · refine Or.inl ⟨hxchain, decide_eq_true ?_⟩
        obtain ⟨w, hw, hc1, hc2⟩ := (is_liberty_of_iff bb1 x q).mp h3
        have hwcol : (bb1.vertices w).color ≠ none := by
          rw [hc1]
          exact hqcol
        refine ⟨w, (mem_adjacent_to_raw bb1 x w hw).1, hwcol, ?_, hc2⟩
        intro hwchain
        exact hq ((hc2.symm).trans (hsame w hwchain))
      · rw [if_neg hxchain] at h2
        exact Or.inr ⟨h1, h2, h3⟩
    · intro hx
      rcases hx with hx | ⟨h1, h2, h3⟩
      · obtain ⟨hxchain, hpred⟩ := hx
        obtain ⟨w, hw, hc1, hc2, hc3⟩ := of_decide_eq_true hpred
        refine ⟨(hmem x hxchain).1, ?_, ?_⟩
        · rw [capture_color, if_pos hxchain]
        · rw [is_liberty_of_iff]
          exact ⟨w, mem_adjacent_to_of_valid bb1 x w hw (hval w hc1),
            hcol_of_head w hc1 hc3, hc3⟩
      · refine ⟨h1, ?_, h3⟩
        rw [capture_color, if_neg ?hxc]
        · exact h2
        case hxc =>
          intro hxchain
          exact (hmem x hxchain).2 h2
  rw [length_eq_of_nodup_ext _ _ (libsList_nodup _ q) happ hext,
    List.length_append, List.countP_eq_length_filter, Nat.add_comm]

theorem bool_eq_of_iff {a b : Bool} (h : a = true ↔ b = true) : a = b := by
  cases a <;> cases b <;> simp_all

/-- The liberty-counting loop of `join_blocks` counts exactly the empty
vertices next to the first chain that are not already liberties of the
surviving head, each once. -/
theorem joinCount_spec (b1 : BoardFast) (one h2 : Nat)
    (hpadv : (b1.vertices paddingPoint).valid = false)
    (hmem361 : ∀ m ∈ chainList b1 one, m < 361) :
    joinCount b1 one h2 = (pointAll.filter (fun v =>
      decide ((b1.vertices v).color = none) &&
      !(b1.is_liberty_of v h2) &&
      decide (∃ m ∈ chainList b1 one, v ∈ b1.adjacent_to m))).length := by
  have inner : ∀ (cand : List Nat) (st : (Nat → Bool) × Nat),
      (∀ v ∈ cand, v < 361) →
      st.2 = (pointAll.filter st.1).length →
      ∃ seen2, cand.foldl (countLibStep b1 h2) st =
        (seen2, (pointAll.filter seen2).length) ∧
        (∀ v, seen2 v = true ↔ (st.1 v = true ∨ (v ∈ cand ∧
          (b1.vertices v).color = none ∧
          b1.is_liberty_of v h2 = false))) := by
    intro cand
    induction cand with
    | nil =>
        intro st _ hcount
        refine ⟨st.1, ?_, ?_⟩
        · rw [List.foldl_nil, ← hcount]
        · intro v
          constructor
          · exact Or.inl
          · intro hx
            rcases hx with hx | ⟨hx, _⟩
            · exact hx
            · cases hx
    | cons a cand ih =>
        intro st hc hcount
        have ha := hc a (List.mem_cons_self a cand)
        rw [List.foldl_cons]
        by_cases hgood : (b1.vertices a).color = none ∧ st.1 a = false ∧
            b1.is_liberty_of a h2 = false
        · have hstep : countLibStep b1 h2 st a =
              (fun q => if q = a then true else st.1 q, st.2 + 1) := by
            unfold countLibStep
            rw [if_pos ⟨hgood.1, hgood.2.1, hgood.2.2⟩]
          rw [hstep]
          obtain ⟨seen2, hfold, hchar⟩ := ih
            (fun q => if q = a then true else st.1 q, st.2 + 1)
            (fun v hv => hc v (List.mem_cons_of_mem _ hv))
            (by
              dsimp only
              rw [hcount, filter_mark_length st.1 a ha hgood.2.1])
          refine ⟨seen2, hfold, ?_⟩
          intro v
          rw [hchar v]
          dsimp only
          constructor
          · intro hx
            rcases hx with hx | ⟨hx1, hx2⟩
            · by_cases hva : v = a
              · exact Or.inr ⟨hva ▸ List.mem_cons_self a cand,
                  hva ▸ hgood.1, hva ▸ hgood.2.2⟩
              · rw [if_neg hva] at hx
                exact Or.inl hx
            · exact Or.inr ⟨List.mem_cons_of_mem _ hx1, hx2⟩
          · intro hx
            rcases hx with hx | ⟨hx1, hx2⟩
            · refine Or.inl ?_
              by_cases hva : v = a
              · rw [if_pos hva]
              · rw [if_neg hva]
                exact hx
            · rcases List.mem_cons.mp hx1 with hx1 | hx1
              · refine Or.inl ?_
                rw [if_pos hx1]
              · exact Or.inr ⟨hx1, hx2⟩
        · have hstep : countLibStep b1 h2 st a = st := by
            unfold countLibStep
            rw [if_neg hgood]
          rw [hstep]
          obtain ⟨seen2, hfold, hchar⟩ := ih st
            (fun v hv => hc v (List.mem_cons_of_mem _ hv)) hcount
          refine ⟨seen2, hfold, ?_⟩
          intro v
          rw [hchar v]
          constructor
          · intro hx
            rcases hx with hx | ⟨hx1, hx2⟩
            · exact Or.inl hx
            · exact Or.inr ⟨List.mem_cons_of_mem _ hx1, hx2⟩
          · intro hx
            rcases hx with hx | ⟨hx1, hx2⟩
            · exact Or.inl hx
            · rcases List.mem_cons.mp hx1 with hx1 | hx1
              · subst hx1
                -- the step refused: the only failing clause is `is_new`
                by_cases hseen : st.1 v = true
                · exact Or.inl hseen
                · exact absurd ⟨hx2.1, Bool.eq_false_iff.mpr hseen,
                    hx2.2⟩ hgood
              · exact Or.inr ⟨hx1, hx2⟩
  have outer : ∀ (mem : List Nat) (st : (Nat → Bool) × Nat),
      (∀ m ∈ mem, m ∈ chainList b1 one) →
      st.2 = (pointAll.filter st.1).length →
      ∃ seen2, mem.foldl (fun st2 point =>
          (b1.adjacent_to point).foldl (countLibStep b1 h2) st2) st =
        (seen2, (pointAll.filter seen2).length) ∧
        (∀ v, seen2 v = true ↔ (st.1 v = true ∨ (∃ m ∈ mem,
          v ∈ b1.adjacent_to m ∧ (b1.vertices v).color = none ∧
          b1.is_liberty_of v h2 = false))) := by
    intro mem
    induction mem with
    | nil =>
        intro st _ hcount
        refine ⟨st.1, by rw [List.foldl_nil, ← hcount], ?_⟩
        intro v
        constructor
        · exact Or.inl
        · intro hx
          rcases hx with hx | ⟨m, hm, _⟩
          · exact hx
          · cases hm
    | cons m mem ih =>
        intro st hmm hcount
        rw [List.foldl_cons]
        have hm1 : m ∈ chainList b1 one := hmm m (List.mem_cons_self m mem)
        obtain ⟨seenA, hfoldA, hcharA⟩ := inner (b1.adjacent_to m) st
          (adjacent_to_lt b1 hpadv m (hmem361 m hm1)) hcount
        rw [hfoldA]
        obtain ⟨seen2, hfold, hchar⟩ := ih
          (seenA, (pointAll.filter seenA).length)
          (fun x hx => hmm x (List.mem_cons_of_mem _ hx)) rfl
        refine ⟨seen2, hfold, ?_⟩
        intro v
        rw [hchar v]
        dsimp only
        rw [hcharA v]
        constructor
        · intro hx
          rcases hx with (hx | ⟨hx1, hx2⟩) | ⟨x, hxm, hx2⟩
          · exact Or.inl hx
          · exact Or.inr ⟨m, List.mem_cons_self m mem, hx1, hx2⟩
          · exact Or.inr ⟨x, List.mem_cons_of_mem _ hxm, hx2⟩
        · intro hx
          rcases hx with hx | ⟨x, hxm, hx2⟩
          · exact Or.inl (Or.inl hx)
          · rcases List.mem_cons.mp hxm with hxm | hxm
            · exact Or.inl (Or.inr (hxm ▸ hx2))
            · exact Or.inr ⟨x, hxm, hx2⟩
  unfold joinCount
  obtain ⟨seen2, hfold, hchar⟩ := outer (chainList b1 one)
    (fun _ => false, 0) (fun m hm => hm)
    (by
      dsimp only
      rw [show pointAll.filter (fun _ => false) = [] from
        List.filter_false pointAll, List.length_nil])
  rw [hfold]
  dsimp only
  refine congrArg List.length (List.filter_congr' ?_)
  intro v _
  refine bool_eq_of_iff ?_
  rw [hchar v]
  constructor
  · intro hx
    rcases hx with hx | ⟨x, hxm, hx1, hx2, hx3⟩
    · cases hx
    · rw [Bool.and_eq_true, Bool.and_eq_true]
      refine ⟨⟨decide_eq_true hx2, ?_⟩, decide_eq_true ⟨x, hxm, hx1⟩⟩
      rw [hx3]
      rfl
  · intro hx
    rw [Bool.and_eq_true, Bool.and_eq_true] at hx
    obtain ⟨⟨hx1, hx2⟩, hx3⟩ := hx
    obtain ⟨x, hxm, hxa⟩ := of_decide_eq_true hx3
    refine Or.inr ⟨x, hxm, hxa, of_decide_eq_true hx1, ?_⟩
    cases hlib : b1.is_liberty_of v h2
    · rfl
    · rw [hlib] at hx2
      cases hx2

theorem joinStructure_libs_self (b1 : BoardFast) (one two h2v : Nat) :
    ((joinStructure b1 one two h2v).vertices h2v).num_liberties =
      (b1.vertices h2v).num_liberties + joinCount b1 one h2v := by
  unfold joinStructure
  dsimp only
  rw [(set_next_point_others _ _ _ _).2.2.1,
    (set_next_point_others _ _ _ _).2.2.1,
    add_liberties_libs, if_pos rfl, (fold_set_head_others h2v _ _ _).2.2.1]

/-- Joining leaves the liberty list of any other block alone. -/
theorem join_libsList_other (bb : BoardFast) (at_point w h : Nat)
    (hne : (bb.vertices at_point).head_point ≠ (bb.vertices w).head_point)
    (hatheads : ∀ x ∈ chainList bb at_point,
      (bb.vertices x).head_point = (bb.vertices at_point).head_point)
    (hh2 : h ≠ (bb.vertices w).head_point)
    (hH : h ≠ (bb.vertices at_point).head_point) :
    libsList (bb.join_blocks at_point w) h = libsList bb h := by
  obtain ⟨hcolJ, hvalJ, _, hheadJ, _, _⟩ := join_blocks_fields bb at_point
    w hne
  unfold libsList
  refine List.filter_congr' ?_
  intro v _
  rw [hcolJ v]
  have hlib : (bb.join_blocks at_point w).is_liberty_of v h =
      bb.is_liberty_of v h := by
    unfold BoardFast.is_liberty_of
    rw [adjacent_to_congr bb _ hvalJ v]
    refine any_congr ?_
    intro x _
    rw [hcolJ x, hcolJ h, hheadJ x]
    by_cases hxc : x ∈ chainList bb at_point
    · rw [if_pos hxc]
      rw [decide_eq_false (show ¬ ((bb.vertices w).head_point = h) from
          fun hh => hh2 hh.symm),
        decide_eq_false (show ¬ ((bb.vertices x).head_point = h) from
          fun hh => hH (((hatheads x hxc).symm.trans hh).symm))]
    · rw [if_neg hxc]
  rw [hlib]

theorem adjacent_to_flip (b : BoardFast) (x y : Nat) (hx : x < 361)
    (hy : y < 361) (hvx : (b.vertices x).valid = true)
    (h : y ∈ b.adjacent_to x) : x ∈ b.adjacent_to y := by
  obtain ⟨hraw, _⟩ := mem_adjacent_to_raw b x y h
  exact mem_adjacent_to_of_valid b y x (adjacentRaw_symm x y hx hy hraw) hvx

/-- Joining gives the surviving head the union of the two liberty lists:
its old list plus the first chain's contributions counted by the loop. -/
theorem join_libsList_merged (bb : BoardFast) (at_point w : Nat)
    (hne : (bb.vertices at_point).head_point ≠ (bb.vertices w).head_point)
    (hpadv : (bb.vertices paddingPoint).valid = false)
    (hval361 : ∀ y, y < 361 → (bb.vertices y).valid = true)
    (hatcol : ∀ x ∈ chainList bb at_point,
      (bb.vertices x).color = (bb.vertices ((bb.vertices
        w).head_point)).color)
    (hatheads : ∀ x ∈ chainList bb at_point,
      (bb.vertices x).head_point = (bb.vertices at_point).head_point)
    (hat361 : ∀ x ∈ chainList bb at_point, x < 361)
    (hh2col : (bb.vertices ((bb.vertices w).head_point)).color ≠ none) :
    (libsList (bb.join_blocks at_point w)
        ((bb.vertices w).head_point)).length =
      (libsList bb ((bb.vertices w).head_point)).length +
        joinCount (bb.sub_liberties ((bb.vertices w).head_point) 1)
          at_point ((bb.vertices w).head_point) := by
  set h2 := (bb.vertices w).head_point with hh2def
  obtain ⟨hcolJ, hvalJ, _, hheadJ, _, _⟩ := join_blocks_fields bb at_point
    w hne
  set b1 := bb.sub_liberties h2 1 with hb1def
  have hb1col : ∀ q, (b1.vertices q).color = (bb.vertices q).color :=
    fun q => (sub_liberties_others bb h2 1 q).1
  have hb1head : ∀ q, (b1.vertices q).head_point =
      (bb.vertices q).head_point :=
    fun q => (sub_liberties_others bb h2 1 q).2.2.1
  have hb1val : ∀ q, (b1.vertices q).valid = (bb.vertices q).valid :=
    fun q => (sub_liberties_others bb h2 1 q).2.2.2.1
  have hb1chain : chainList b1 at_point = chainList bb at_point :=
    chainList_congr bb b1 at_point
      (fun q _ => (sub_liberties_others bb h2 1 q).2.1)
  have hb1pad : (b1.vertices paddingPoint).valid = false := by
    rw [hb1val]
    exact hpadv
  have hb1mem : ∀ m ∈ chainList b1 at_point, m < 361 := by
    intro m hm
    rw [hb1chain] at hm
    exact hat361 m hm
  rw [joinCount_spec b1 at_point h2 hb1pad hb1mem]
  have hDcong : pointAll.filter (fun v =>
      decide ((b1.vertices v).color = none) &&
      !(b1.is_liberty_of v h2) &&
      decide (∃ m ∈ chainList b1 at_point, v ∈ b1.adjacent_to m)) =
      pointAll.filter (fun v =>
      decide ((bb.vertices v).color = none) &&
      !(bb.is_liberty_of v h2) &&
      decide (∃ m ∈ chainList bb at_point, v ∈ bb.adjacent_to m)) := by
    refine List.filter_congr' ?_
    intro v _
    rw [hb1col v,
      is_liberty_of_congr bb b1 hb1val hb1col hb1head v h2]
    have hx : (∃ m ∈ chainList b1 at_point, v ∈ b1.adjacent_to m) ↔
        (∃ m ∈ chainList bb at_point, v ∈ bb.adjacent_to m) := by
      rw [hb1chain]
      constructor
      · intro ⟨m, hm, hv⟩
        rw [adjacent_to_congr bb b1 hb1val m] at hv
        exact ⟨m, hm, hv⟩
      · intro ⟨m, hm, hv⟩
        rw [← adjacent_to_congr bb b1 hb1val m] at hv
        exact ⟨m, hm, hv⟩
    by_cases hd : ∃ m ∈ chainList bb at_point, v ∈ bb.adjacent_to m
    · rw [decide_eq_true hd, decide_eq_true (hx.mpr hd)]
    · rw [decide_eq_false hd, decide_eq_false (fun hh => hd (hx.mp hh))]
  rw [hDcong]
  have hlibJ : ∀ x, x < 361 →
      ((bb.join_blocks at_point w).is_liberty_of x h2 = true ↔
        (bb.is_liberty_of x h2 = true ∨
          ∃ m ∈ chainList bb at_point, x ∈ bb.adjacent_to m)) := by
    intro x hx361
    rw [is_liberty_of_iff]
    constructor
    · intro ⟨y, hy, hc1, hc2⟩
      rw [adjacent_to_congr bb _ hvalJ x] at hy
      rw [hcolJ y, hcolJ h2] at hc1
      rw [hheadJ y] at hc2
      by_cases hyc : y ∈ chainList bb at_point
      · refine Or.inr ⟨y, hyc, ?_⟩
        exact adjacent_to_flip bb x y hx361 (hat361 y hyc)
          (hval361 x hx361) hy
      · rw [if_neg hyc] at hc2
        exact Or.inl ((is_liberty_of_iff bb x h2).mpr ⟨y, hy, hc1, hc2⟩)
    · intro hcase
      rcases hcase with hlib | ⟨m, hm, hadj⟩
      · obtain ⟨y, hy, hc1, hc2⟩ := (is_liberty_of_iff bb x h2).mp hlib
        have hyc : y ∉ chainList bb at_point := by
          intro hyc
          exact hne ((hatheads y hyc).symm.trans hc2)
        refine ⟨y, ?_, ?_, ?_⟩
        · rw [adjacent_to_congr bb _ hvalJ x]
          exact hy
        · rw [hcolJ y, hcolJ h2]
          exact hc1
        · rw [hheadJ y, if_neg hyc]
          exact hc2
      · have hm361 : m < 361 := hat361 m hm
        refine ⟨m, ?_, ?_, ?_⟩
        · rw [adjacent_to_congr bb _ hvalJ x]
          exact adjacent_to_flip bb m x hm361 hx361
            (hval361 m hm361) hadj
        · rw [hcolJ m, hcolJ h2]
          exact hatcol m hm
        · rw [hheadJ m, if_pos hm]
  have hnd2 : (pointAll.filter (fun v =>
      decide ((bb.vertices v).color = none) &&
      !(bb.is_liberty_of v h2) &&
      decide (∃ m ∈ chainList bb at_point, v ∈ bb.adjacent_to m)) ++
      libsList bb h2).Nodup := by
    rw [List.nodup_append]
    refine ⟨List.Nodup.filter _ pointAll_nodup, libsList_nodup bb h2, ?_⟩
    intro x hx hx2
    have hb := (List.mem_filter.mp hx).2
    rw [Bool.and_eq_true, Bool.and_eq_true] at hb
    have hb2 := hb.1.2
    rw [(mem_libsList bb h2 x).mp hx2 |>.2.2] at hb2
    cases hb2
  have hext : ∀ x, x ∈ libsList (bb.join_blocks at_point w) h2 ↔
      x ∈ (pointAll.filter (fun v =>
        decide ((bb.vertices v).color = none) &&
        !(bb.is_liberty_of v h2) &&
        decide (∃ m ∈ chainList bb at_point, v ∈ bb.adjacent_to m)) ++
        libsList bb h2) := by
    intro x
    rw [List.mem_append, mem_libsList, mem_libsList, List.mem_filter,
      Bool.and_eq_true, Bool.and_eq_true, mem_pointAll]
    constructor
    · intro ⟨h1, h2x, h3⟩
      rw [hcolJ x] at h2x
      rcases (hlibJ x h1).mp h3 with hlib | hadj
      · exact Or.inr ⟨h1, h2x, hlib⟩
      · by_cases hlib : bb.is_liberty_of x h2 = true
        · exact Or.inr ⟨h1, h2x, hlib⟩
        · refine Or.inl ⟨h1, ⟨decide_eq_true h2x, ?_⟩,
            decide_eq_true hadj⟩
          rw [Bool.eq_false_iff.mpr hlib]
          exact rfl
    · intro hcase
      rcases hcase with ⟨h1, ⟨h2x, _⟩, h4⟩ | ⟨h1, h2x, h3⟩
      · refine ⟨h1, ?_, ?_⟩
        · rw [hcolJ x]
          exact of_decide_eq_true h2x
        · exact (hlibJ x h1).mpr (Or.inr (of_decide_eq_true h4))
      · refine ⟨h1, ?_, ?_⟩
        · rw [hcolJ x]
          exact h2x
        · exact (hlibJ x h1).mpr (Or.inl h3)
  rw [length_eq_of_nodup_ext _ _ (libsList_nodup _ h2) hnd2 hext,
    List.length_append, Nat.add_comm]

/-! ### Exact liberty accounting through `place` -/

theorem exists_ne_of_nodup_two (l : List Nat) (a : Nat) (hnd : l.Nodup)
    (hlen : 2 ≤ l.length) : ∃ v ∈ l, v ≠ a := by
  cases l with
  | nil => simp at hlen
  | cons x t =>
    cases t with
    | nil => simp at hlen
    | cons y t2 =>
      by_cases hx : x = a
      · refine ⟨y, List.mem_cons_of_mem _ (List.mem_cons_self _ _), ?_⟩
        intro hy
        exact (List.nodup_cons.mp hnd).1
          (by rw [hx, ← hy]; exact List.mem_cons_self _ _)
      · exact ⟨x, List.mem_cons_self _ _, hx⟩

theorem length_filter_not_eq (l : List Nat) (a : Nat) :
    l.Nodup →
    (l.filter (fun v => !decide (v = a))).length +
      (if a ∈ l then 1 else 0) = l.length := by
  induction l with
  | nil => intro _; rfl
  | cons x t ih =>
    intro hnd
    obtain ⟨hx, hnd2⟩ := List.nodup_cons.mp hnd
    by_cases hxa : x = a
    · subst hxa
      rw [List.filter_cons_of_neg (by simp),
        if_pos (List.mem_cons_self _ _)]
      have iht := ih hnd2
      rw [if_neg hx] at iht
      simp only [List.length_cons]
      omega
    · rw [List.filter_cons_of_pos (by simp [hxa])]
      have iht := ih hnd2
      by_cases hat : a ∈ t
      · rw [if_pos (List.mem_cons_of_mem _ hat)]
        rw [if_pos hat] at iht
        simp only [List.length_cons]
        omega
      · rw [if_neg (by
          intro hh
          rcases List.mem_cons.mp hh with h1 | h2
          · exact hxa h1.symm
          · exact hat h2)]
        rw [if_neg hat] at iht
        simp only [List.length_cons]
        omega

/-- On a well-formed board the chains partition the stones: a stone whose
head field names `h` is a member of the traversal from `h`. -/
theorem mem_chain_of_head (b : BoardFast) (hWF : WFBoard b) (q h : Nat)
    (hq361 : q < 361) (hqcol : (b.vertices q).color ≠ none)
    (hqh : (b.vertices q).head_point = h) : q ∈ chainList b h := by
  have hok : ChainOk b q := hWF.1 q (mem_pointAll.mpr hq361) hqcol
  have hmem : h ∈ chainList b q := hqh ▸ hok.2.2.2
  exact ((hok.rotate h hmem).2 q).mpr (self_mem_chainList b q)

/-- No vertex beyond the playable range carries a stone; `BoardFast::new`
starts this way and the loop only writes stones at the played point. -/
def NoPhantom (b : BoardFast) : Prop :=
  ∀ w, ¬ w < 361 → (b.vertices w).color = none

theorem placeInv_nophantom {b : BoardFast} {color : Color} {at_point : Nat}
    {C S : List Nat} {bb : BoardFast} {hash : Nat} {sp : List Nat}
    (hNP : NoPhantom b) (hat : at_point < 361)
    (hinv : PlaceInv b color at_point C S bb hash sp) :
    NoPhantom bb := by
  intro w hw
  rw [hinv.color_char w]
  by_cases hcap : ∃ h ∈ C, w ∈ chainList b h
  · rw [if_pos hcap]
  · rw [if_neg hcap, if_neg (fun hh : w = at_point => hw (hh ▸ hat))]
    exact hNP w hw

/-- Mid-loop, every stone's head field points at a playable stone of its
own color that is its own head. -/
theorem placeInv_heads (b : BoardFast) (color : Color) (at_point : Nat)
    (C S : List Nat) (bb : BoardFast) (hash : Nat) (sp : List Nat)
    (hWF : WFBoard b) (hNP : NoPhantom b) (hat : at_point < 361)
    (hempty : (b.vertices at_point).color = none)
    (hinv : PlaceInv b color at_point C S bb hash sp) :
    ∀ w, (bb.vertices w).color ≠ none →
      w < 361 ∧ (bb.vertices w).head_point < 361 ∧
      (bb.vertices ((bb.vertices w).head_point)).color =
        (bb.vertices w).color ∧
      (bb.vertices ((bb.vertices w).head_point)).head_point =
        (bb.vertices w).head_point := by
  intro w hwcol
  have hw361 : w < 361 := by
    by_contra hw
    exact hwcol (placeInv_nophantom hNP hat hinv w hw)
  by_cases hmem : w ∈ chainList bb at_point
  · have hhw : (bb.vertices w).head_point =
        (bb.vertices at_point).head_point := (hinv.at_ok.2.1 w hmem).2.2
    have hHmem : (bb.vertices at_point).head_point ∈
        chainList bb at_point := hinv.at_ok.2.2.2
    refine ⟨hw361, ?_, ?_, ?_⟩
    · rw [hhw]
      exact (hinv.at_ok.2.1 _ hHmem).1
    · rw [hhw, hinv.at_colors _ hHmem, hinv.at_colors _ hmem]
    · rw [hhw, (hinv.at_ok.2.1 _ hHmem).2.2]
  · cases hcolv : (bb.vertices w).color with
    | none => exact absurd hcolv hwcol
    | some c =>
      by_cases hcc : c = color
      · rw [hcc] at hcolv
        have hwat : w ≠ at_point := fun hh =>
          hmem (by rw [hh]; exact self_mem_chainList bb at_point)
        have hbf : (b.vertices w).color = some color :=
          placeInv_bcolor_friendly hinv w hwat hcolv
        have hokbw : ChainOk b w := hWF.1 w (mem_pointAll.mpr hw361)
          (by rw [hbf]; exact Option.noConfusion)
        have huw := hinv.friendly_untouched w hbf hmem
        have hgmem : (b.vertices w).head_point ∈ chainList b w :=
          hokbw.2.2.2
        have hg361 : (b.vertices w).head_point < 361 :=
          (hokbw.2.1 _ hgmem).1
        have hgcol : (b.vertices ((b.vertices w).head_point)).color =
            some color := by
          rw [(hokbw.2.1 _ hgmem).2.1, hbf]
        have hghead : (b.vertices ((b.vertices w).head_point)).head_point =
            (b.vertices w).head_point :=
          (hokbw.2.1 _ hgmem).2.2
        have hgnot : (b.vertices w).head_point ∉ chainList bb at_point := by
          intro hgin
          have hclose := hinv.friendly_closed _ hgcol hgin
          have hwing : w ∈ chainList b ((b.vertices w).head_point) :=
            ((hokbw.rotate _ hgmem).2 w).mpr (self_mem_chainList b w)
          exact hmem (hclose w hwing)
        have hug := hinv.friendly_untouched _ hgcol hgnot
        have hgat : (b.vertices w).head_point ≠ at_point := by
          intro hh
          rw [hh, hempty] at hgcol
          exact Option.noConfusion hgcol
        have hgcolbb :
            (bb.vertices ((b.vertices w).head_point)).color = some color := by
          rw [hinv.color_char _, if_neg (placeInv_notcap hWF hinv _
              (by rw [hgcol]; exact color_clash color)), if_neg hgat]
          exact hgcol
        refine ⟨hw361, ?_, ?_, ?_⟩
        · rw [huw.2]
          exact hg361
        · rw [huw.2, hgcolbb, hcc]
        · rw [huw.2, hug.2, hghead]
      · have hco : c = color.opposite := color_cases color c hcc
        rw [hco] at hcolv
        have hbo : (b.vertices w).color = some color.opposite :=
          placeInv_bcolor_opp hinv w hcolv
        have hokbw : ChainOk b w := hWF.1 w (mem_pointAll.mpr hw361)
          (by rw [hbo]; exact Option.noConfusion)
        have hgmem : (b.vertices w).head_point ∈ chainList b w :=
          hokbw.2.2.2
        have hg361 : (b.vertices w).head_point < 361 :=
          (hokbw.2.1 _ hgmem).1
        have hgcol : (b.vertices ((b.vertices w).head_point)).color =
            some color.opposite := by
          rw [(hokbw.2.1 _ hgmem).2.1, hbo]
        have hghead : (b.vertices ((b.vertices w).head_point)).head_point =
            (b.vertices w).head_point :=
          (hokbw.2.1 _ hgmem).2.2
        have hgnotcap :
            ¬∃ h2 ∈ C, (b.vertices w).head_point ∈ chainList b h2 := by
          intro ⟨h2, hh2, hgin⟩
          have hhg := ((placeInv_capchain hWF hinv h2 hh2).2 _ hgin).2
          rw [hghead] at hhg
          have hwing : w ∈ chainList b ((b.vertices w).head_point) :=
            ((hokbw.rotate _ hgmem).2 w).mpr (self_mem_chainList b w)
          have hwcap : ∃ h2x ∈ C, w ∈ chainList b h2x :=
            ⟨h2, hh2, hhg ▸ hwing⟩
          have hcc2 := hinv.color_char w
          rw [if_pos hwcap] at hcc2
          rw [hcc2] at hcolv
          exact Option.noConfusion hcolv
        have hgat : (b.vertices w).head_point ≠ at_point := by
          intro hh
          rw [hh, hempty] at hgcol
          exact Option.noConfusion hgcol
        have hgcolbb : (bb.vertices ((b.vertices w).head_point)).color =
            some color.opposite := by
          rw [hinv.color_char _, if_neg hgnotcap, if_neg hgat]
          exact hgcol
        refine ⟨hw361, ?_, ?_, ?_⟩
        · rw [hinv.head_opp w hbo]
          exact hg361
        · rw [hinv.head_opp w hbo, hgcolbb, hco]
        · rw [hinv.head_opp w hbo, hinv.head_opp _ hgcol, hghead]

/-- When a board's liberty predicate for a block differs from the
original's exactly by excluding the played point, the list shrinks by one
exactly when the played point was a liberty of the block. -/
theorem libsList_minus_at (b bb : BoardFast) (at_point h : Nat)
    (hat : at_point < 361) (hatcol : (b.vertices at_point).color = none)
    (hpt : ∀ v ∈ pointAll,
      (decide ((bb.vertices v).color = none) && bb.is_liberty_of v h) =
      ((decide ((b.vertices v).color = none) && b.is_liberty_of v h) &&
        !decide (v = at_point))) :
    (libsList bb h).length +
      (if b.is_liberty_of at_point h = true then 1 else 0) =
      (libsList b h).length := by
  have h1 : libsList bb h =
      (libsList b h).filter (fun v => !decide (v = at_point)) := by
    unfold libsList
    rw [List.filter_filter]
    refine List.filter_congr' ?_
    intro v hv
    rw [hpt v hv, Bool.and_comm]
  rw [h1]
  by_cases hlib : b.is_liberty_of at_point h = true
  · rw [if_pos hlib]
    have hmem : at_point ∈ libsList b h :=
      (mem_libsList b h at_point).mpr ⟨hat, hatcol, hlib⟩
    have hkey := length_filter_not_eq (libsList b h) at_point
      (libsList_nodup b h)
    rw [if_pos hmem] at hkey
    exact hkey
  · rw [if_neg hlib]
    have hnmem : at_point ∉ libsList b h := fun hm =>
      hlib ((mem_libsList b h at_point).mp hm).2.2
    have hkey := length_filter_not_eq (libsList b h) at_point
      (libsList_nodup b h)
    rw [if_neg hnmem] at hkey
    omega

/-- An opposing block whose head the loop has not yet seen still stores
its original count: one above its current list exactly when the move
fills one of its liberties. -/
theorem opp_unseen_libs (b : BoardFast) (color : Color) (at_point : Nat)
    (C S : List Nat) (bb : BoardFast) (hash : Nat) (sp : List Nat)
    (hWF : WFBoard b) (hLG : LibsGood b) (hat : at_point < 361)
    (hempty : (b.vertices at_point).color = none)
    (hinv : PlaceInv b color at_point C S bb hash sp)
    (h : Nat) (hh361 : h < 361)
    (hhcol : (b.vertices h).color = some color.opposite)
    (hhhead : (b.vertices h).head_point = h)
    (hS : h ∉ S) :
    (bb.vertices h).num_liberties = (libsList bb h).length +
      (if b.is_liberty_of at_point h = true then 1 else 0) := by
  have hCnot : h ∉ C := fun hx => hS (hinv.C_sub h hx)
  have hcapcol : ∀ y, (∃ h2 ∈ C, y ∈ chainList b h2) →
      (b.vertices y).color = some color.opposite := fun y hy => by
    obtain ⟨h2, hh2, hm⟩ := hy
    exact ((placeInv_capchain hWF hinv h2 hh2).2 y hm).1
  have hcaphead : ∀ y, (∃ h2 ∈ C, y ∈ chainList b h2) →
      (b.vertices y).head_point ∈ C := fun y hy => by
    obtain ⟨h2, hh2, hm⟩ := hy
    rw [((placeInv_capchain hWF hinv h2 hh2).2 y hm).2]
    exact hh2
  have hhat : h ≠ at_point := by
    intro hh
    rw [hh, hempty] at hhcol
    exact Option.noConfusion hhcol
  have hhnotcap : ¬∃ h2 ∈ C, h ∈ chainList b h2 := by
    intro hc
    have := hcaphead h hc
    rw [hhhead] at this
    exact hCnot this
  have hhbb : (bb.vertices h).color = some color.opposite := by
    rw [hinv.color_char h, if_neg hhnotcap, if_neg hhat]
    exact hhcol
  have hpt : ∀ v ∈ pointAll,
      (decide ((bb.vertices v).color = none) && bb.is_liberty_of v h) =
      ((decide ((b.vertices v).color = none) && b.is_liberty_of v h) &&
        !decide (v = at_point)) := by
    intro v hv
    by_cases hcap : ∃ h2 ∈ C, v ∈ chainList b h2
    · have hvcol : (b.vertices v).color = some color.opposite :=
        hcapcol v hcap
      have hrhs : decide ((b.vertices v).color = none) = false :=
        decide_eq_false (by rw [hvcol]; exact Option.noConfusion)
      have hlhs : bb.is_liberty_of v h = false := by
        cases hx : bb.is_liberty_of v h
        · rfl
        · exfalso
          obtain ⟨y, hy, hc1, hc2⟩ := (is_liberty_of_iff bb v h).mp hx
          rw [hhbb] at hc1
          have hynotcap : ¬∃ h2 ∈ C, y ∈ chainList b h2 := by
            intro hyc
            have hcy := hinv.color_char y
            rw [if_pos hyc] at hcy
            rw [hcy] at hc1
            exact Option.noConfusion hc1
          have hyat : y ≠ at_point := by
            intro hh
            have hcy := hinv.color_char y
            rw [if_neg hynotcap, if_pos hh] at hcy
            rw [hcy] at hc1
            exact color_clash color hc1
          have hyb : (b.vertices y).color = some color.opposite := by
            have hcy := hinv.color_char y
            rw [if_neg hynotcap, if_neg hyat] at hcy
            rw [hcy] at hc1
            exact hc1
          have hyhb : (b.vertices y).head_point = h := by
            rw [← hinv.head_opp y hyb]
            exact hc2
          obtain ⟨hyraw, hyval⟩ := mem_adjacent_to_raw bb v y hy
          have hyvalb : (b.vertices y).valid = true := by
            rw [← hinv.valid_pres y]
            exact hyval
          have hyadj : y ∈ b.adjacent_to v :=
            mem_adjacent_to_of_valid b v y hyraw hyvalb
          have hW2 := hWF.2.1 v hv
            (by rw [hvcol]; exact Option.noConfusion) y hyadj
            (by rw [hyb, hvcol])
          rw [hyhb] at hW2
          have hvC := hcaphead v hcap
          rw [← hW2] at hvC
          exact hCnot hvC
      rw [hlhs, hrhs]
      simp
    · by_cases hvat : v = at_point
      · subst hvat
        have hbbat : (bb.vertices v).color = some color := by
          rw [hinv.color_char v, if_neg hcap, if_pos rfl]
        rw [hbbat]
        simp
      · have hvc : (bb.vertices v).color = (b.vertices v).color := by
          rw [hinv.color_char v, if_neg hcap, if_neg hvat]
        have hlib : bb.is_liberty_of v h = b.is_liberty_of v h := by
          unfold BoardFast.is_liberty_of
          rw [show bb.adjacent_to v = b.adjacent_to v from
            adjacent_to_congr b bb hinv.valid_pres v]
          refine any_congr ?_
          intro y hy
          by_cases hycap : ∃ h2 ∈ C, y ∈ chainList b h2
          · have hybb : (bb.vertices y).color = none := by
              rw [hinv.color_char y, if_pos hycap]
            have hyb : (b.vertices y).color = some color.opposite :=
              hcapcol y hycap
            have hne : (b.vertices y).head_point ≠ h := by
              intro hh
              have := hcaphead y hycap
              rw [hh] at this
              exact hCnot this
            rw [hybb, hhbb, hyb, hhcol, decide_eq_false hne]
            simp
          · by_cases hyat : y = at_point
            · subst hyat
              have h1 : (bb.vertices y).color = some color := by
                rw [hinv.color_char y, if_neg hycap, if_pos rfl]
              rw [h1, hhbb, hempty, hhcol,
                decide_eq_false (color_clash color),
                decide_eq_false
                  (show ¬ (none : Option Color) = some color.opposite from
                    Option.noConfusion)]
              simp
            · have hyc : (bb.vertices y).color = (b.vertices y).color := by
                rw [hinv.color_char y, if_neg hycap, if_neg hyat]
              rw [hyc, hhbb, hhcol]
              by_cases hyopp : (b.vertices y).color = some color.opposite
              · rw [hinv.head_opp y hyopp]
              · rw [decide_eq_false hyopp, Bool.false_and, Bool.false_and]
        rw [hvc, hlib, decide_eq_false (show ¬ v = at_point from hvat)]
        simp
  rw [hinv.libs_unseen h hhcol hS,
    hLG h (mem_pointAll.mpr hh361)
      (by rw [hhcol]; exact Option.noConfusion) hhhead]
  exact (libsList_minus_at b bb at_point h hat hempty hpt).symm

theorem placeInit_libs_self (b : BoardFast) (color : Color)
    (at_point : Nat) :
    ((placeInit b color at_point).vertices at_point).num_liberties =
      ((b.adjacent_to at_point).filter fun adj_point =>
        decide ((b.vertices adj_point).color = none)).length := by
  unfold placeInit BoardFast.set_visited BoardFast.set_liberties
    BoardFast.set_head_point BoardFast.set_next_point BoardFast.set_color
  dsimp only
  rw [modifyVertex_vertices_self, modifyVertex_vertices_self,
    modifyVertex_vertices_self, modifyVertex_vertices_self,
    modifyVertex_vertices_self]

/-- The played stone starts with an exact count: its stored immediate
liberties are precisely the liberty list of its fresh singleton chain. -/
theorem placeInit_at_exact (b : BoardFast) (color : Color) (at_point : Nat)
    (hWF : WFBoard b) (hat : at_point < 361)
    (hempty : (b.vertices at_point).color = none) :
    ((placeInit b color at_point).vertices at_point).num_liberties =
      (libsList (placeInit b color at_point) at_point).length := by
  have hne := placeInit_ne b color at_point
  have hself := placeInit_self b color at_point
  have hvalpres : ∀ q, ((placeInit b color at_point).vertices q).valid =
      (b.vertices q).valid := by
    intro q
    by_cases hq : q = at_point
    · rw [hq, hself.2.2.2]
    · rw [hne q hq]
  rw [placeInit_libs_self]
  refine length_eq_of_nodup_ext _ _
    (List.Nodup.filter _ (adjacent_to_nodup b hWF.2.2.1 at_point hat))
    (libsList_nodup _ at_point) ?_
  intro x
  rw [List.mem_filter, mem_libsList]
  constructor
  · intro ⟨hx1, hx2⟩
    have hx2' : (b.vertices x).color = none := of_decide_eq_true hx2
    have hx361 : x < 361 := adjacent_to_lt b hWF.2.2.1 at_point hat x hx1
    have hxat : x ≠ at_point := by
      intro hh
      have := (mem_adjacent_to_raw b at_point x hx1).1
      rw [hh] at this
      exact self_not_mem_adjacentRaw at_point hat this
    refine ⟨hx361, by rw [hne x hxat]; exact hx2', ?_⟩
    refine (is_liberty_of_iff _ x at_point).mpr ⟨at_point, ?_, rfl, ?_⟩
    · refine mem_adjacent_to_of_valid _ x at_point ?_ ?_
      · exact adjacentRaw_symm at_point x hat hx361
          (mem_adjacent_to_raw b at_point x hx1).1
      · rw [hself.2.2.2]
        exact hWF.2.2.2.2 at_point (mem_pointAll.mpr hat)
    · exact hself.2.2.1
  · intro ⟨hx361, hxcol, hxlib⟩
    have hxat : x ≠ at_point := by
      intro hh
      rw [hh, hself.1] at hxcol
      exact Option.noConfusion hxcol
    obtain ⟨y, hy, hyc, hyh⟩ := (is_liberty_of_iff _ x at_point).mp hxlib
    have hpad0 : ((placeInit b color at_point).vertices
        paddingPoint).valid = false := by
      rw [hvalpres paddingPoint]
      exact hWF.2.2.1
    have hy361 : y < 361 := adjacent_to_lt _ hpad0 x hx361 y hy
    have hyat : y = at_point := by
      by_contra hyne
      have hycb : (b.vertices y).color = some color := by
        rw [← hne y hyne, hyc, hself.1]
      have hyhb : (b.vertices y).head_point = at_point := by
        rw [← hne y hyne]
        exact hyh
      have hok : ChainOk b y := hWF.1 y (mem_pointAll.mpr hy361)
        (by rw [hycb]; exact Option.noConfusion)
      have hcolat := (hok.2.1 _ hok.2.2.2).2.1
      rw [hyhb, hempty, hycb] at hcolat
      exact Option.noConfusion hcolat
    refine ⟨?_, ?_⟩
    · refine mem_adjacent_to_of_valid b at_point x ?_ ?_
      · refine adjacentRaw_symm x at_point hx361 hat ?_
        have := (mem_adjacent_to_raw _ x y hy).1
        rw [hyat] at this
        exact this
      · exact hWF.2.2.2.2 x (mem_pointAll.mpr hx361)
    · exact decide_eq_true (by rw [← hne x hxat]; exact hxcol)

/-- Before the neighbour loop runs, every pre-existing block's stored
count sits one above its current list exactly when the move fills one of
its liberties. -/
theorem placeInit_head_off (b : BoardFast) (color : Color) (at_point : Nat)
    (hWF : WFBoard b) (hLG : LibsGood b) (hat : at_point < 361)
    (hempty : (b.vertices at_point).color = none)
    (h : Nat) (hh361 : h < 361) (hhcol : (b.vertices h).color ≠ none)
    (hhhead : (b.vertices h).head_point = h) :
    ((placeInit b color at_point).vertices h).num_liberties =
      (libsList (placeInit b color at_point) h).length +
        (if b.is_liberty_of at_point h = true then 1 else 0) := by
  have hne := placeInit_ne b color at_point
  have hself := placeInit_self b color at_point
  have hhat : h ≠ at_point := by
    intro hh
    rw [hh, hempty] at hhcol
    exact hhcol rfl
  have hvalpres : ∀ q, ((placeInit b color at_point).vertices q).valid =
      (b.vertices q).valid := by
    intro q
    by_cases hq : q = at_point
    · rw [hq, hself.2.2.2]
    · rw [hne q hq]
  have hpt : ∀ v ∈ pointAll,
      (decide (((placeInit b color at_point).vertices v).color = none) &&
        (placeInit b color at_point).is_liberty_of v h) =
      ((decide ((b.vertices v).color = none) && b.is_liberty_of v h) &&
        !decide (v = at_point)) := by
    intro v _
    by_cases hvat : v = at_point
    · subst hvat
      rw [hself.1]
      simp
    · have hvc : ((placeInit b color at_point).vertices v).color =
          (b.vertices v).color := by rw [hne v hvat]
      have hlib : (placeInit b color at_point).is_liberty_of v h =
          b.is_liberty_of v h := by
        unfold BoardFast.is_liberty_of
        rw [show (placeInit b color at_point).adjacent_to v =
          b.adjacent_to v from adjacent_to_congr b _ hvalpres v]
        refine any_congr ?_
        intro y _
        by_cases hyat : y = at_point
        · rw [hyat, hself.2.2.1, hne h hhat, hempty,
            decide_eq_false (show ¬ at_point = h from
              fun hh => hhat hh.symm),
            decide_eq_false (show ¬ (none : Option Color) =
              (b.vertices h).color from fun hh => hhcol hh.symm),
            Bool.and_false, Bool.false_and]
        · rw [hne y hyat, hne h hhat]
      rw [hvc, hlib, decide_eq_false (show ¬ v = at_point from hvat)]
      simp
  have hstored : ((placeInit b color at_point).vertices h).num_liberties =
      (b.vertices h).num_liberties := by rw [hne h hhat]
  rw [hstored, hLG h (mem_pointAll.mpr hh361) hhcol hhhead]
  exact (libsList_minus_at b _ at_point h hat hempty hpt).symm

/-- The liberty-accounting invariant carried through the neighbour loop
alongside `PlaceInv`: the growing chain's head is exact, untouched
friendly heads are one above their list exactly when the move fills one
of their liberties, and every seen surviving opposing head is exact. -/
structure LibsCarry (b : BoardFast) (color : Color) (at_point : Nat)
    (C S : List Nat) (bb : BoardFast) : Prop where
  at_exact :
    (bb.vertices ((bb.vertices at_point).head_point)).num_liberties =
      (libsList bb ((bb.vertices at_point).head_point)).length
  friendly_off : ∀ h, h < 361 → (bb.vertices h).color = some color →
    (bb.vertices h).head_point = h → h ∉ chainList bb at_point →
    (bb.vertices h).num_liberties = (libsList bb h).length +
      (if b.is_liberty_of at_point h = true then 1 else 0)
  opp_seen_exact : ∀ h ∈ S, h ∉ C →
    (bb.vertices h).num_liberties = (libsList bb h).length

/-- The liberty invariant holds as the neighbour loop starts. -/
theorem libsCarry_init (b : BoardFast) (color : Color) (at_point : Nat)
    (hWF : WFBoard b) (hLG : LibsGood b) (hat : at_point < 361)
    (hempty : (b.vertices at_point).color = none) :
    LibsCarry b color at_point [] [] (placeInit b color at_point) := by
  have hne := placeInit_ne b color at_point
  have hself := placeInit_self b color at_point
  refine ⟨?_, ?_, ?_⟩
  · rw [hself.2.2.1]
    exact placeInit_at_exact b color at_point hWF hat hempty
  · intro h hh361 hhcol hhhead hhchain
    have hhat : h ≠ at_point := by
      intro hh
      exact hhchain (by rw [hh]; exact self_mem_chainList _ at_point)
    have hhcolb : (b.vertices h).color = some color := by
      rw [← hne h hhat]
      exact hhcol
    have hhheadb : (b.vertices h).head_point = h := by
      rw [← hne h hhat]
      exact hhhead
    exact placeInit_head_off b color at_point hWF hLG hat hempty h hh361
      (by rw [hhcolb]; exact Option.noConfusion) hhheadb
  · intro h hh
    cases hh

/-- The neighbour loop, friendly-neighbour case: merging the two chains
keeps the liberty invariant, and only ever grows the played chain. -/
theorem libsCarry_join (b : BoardFast) (color : Color) (at_point : Nat)
    (C S : List Nat) (bb : BoardFast) (hash : Nat) (sp : List Nat)
    (hWF : WFBoard b) (hLG : LibsGood b) (hat : at_point < 361)
    (hempty : (b.vertices at_point).color = none)
    (hinv : PlaceInv b color at_point C S bb hash sp)
    (hlc : LibsCarry b color at_point C S bb)
    (w : Nat) (hw : w ∈ adjacentRaw at_point)
    (hwcol : (bb.vertices w).color = some color) :
    LibsCarry b color at_point C S (bb.join_blocks at_point w) ∧
    (∀ x ∈ chainList bb at_point,
      x ∈ chainList (bb.join_blocks at_point w) at_point) ∧
    w ∈ chainList (bb.join_blocks at_point w) at_point := by
  by_cases hmem : w ∈ chainList bb at_point
  · have hnoop : bb.join_blocks at_point w = bb := by
      unfold BoardFast.join_blocks
      rw [if_pos ((hinv.at_ok.2.1 w hmem).2.2).symm]
    rw [hnoop]
    exact ⟨hlc, fun x hx => hx, hmem⟩
  · have hw361 : w < 361 := by
      rcases adjacentRaw_cases at_point hat w hw with hx | hx
      · exfalso
        rw [hx, placeInv_pad_none hWF hat hinv] at hwcol
        exact Option.noConfusion hwcol
      · exact hx
    have hwat : w ≠ at_point := fun hh =>
      hmem (by rw [hh]; exact self_mem_chainList bb at_point)
    have hbf : (b.vertices w).color = some color :=
      placeInv_bcolor_friendly hinv w hwat hwcol
    have hokbw : ChainOk b w := hWF.1 w (mem_pointAll.mpr hw361)
      (by rw [hbf]; exact Option.noConfusion)
    have huw := hinv.friendly_untouched w hbf hmem
    obtain ⟨hokbbw, hlistw⟩ :=
      placeInv_friendly_chain hWF hempty hinv w hw361 hbf hmem
    have hH2memb : (b.vertices w).head_point ∈ chainList b w :=
      hokbw.2.2.2
    have hH2b361 : (b.vertices w).head_point < 361 :=
      (hokbw.2.1 _ hH2memb).1
    have hH2colb : (b.vertices ((b.vertices w).head_point)).color =
        some color := by
      rw [(hokbw.2.1 _ hH2memb).2.1, hbf]
    have hH2headb :
        (b.vertices ((b.vertices w).head_point)).head_point =
          (b.vertices w).head_point :=
      (hokbw.2.1 _ hH2memb).2.2
    have hH2notchain : (b.vertices w).head_point ∉
        chainList bb at_point := by
      intro hgin
      have hclose := hinv.friendly_closed _ hH2colb hgin
      have hwing : w ∈ chainList b ((b.vertices w).head_point) :=
        ((hokbw.rotate _ hH2memb).2 w).mpr (self_mem_chainList b w)
      exact hmem (hclose w hwing)
    have hne : (bb.vertices at_point).head_point ≠
        (bb.vertices w).head_point := by
      intro heq
      have hH := hinv.at_ok.2.2.2
      rw [heq, huw.2] at hH
      exact hH2notchain hH
    have hH2at : (b.vertices w).head_point ≠ at_point := by
      intro hh
      rw [hh, hempty] at hH2colb
      exact Option.noConfusion hH2colb
    have hugH2 := hinv.friendly_untouched _ hH2colb hH2notchain
    have hH2colbb :
        (bb.vertices ((b.vertices w).head_point)).color = some color := by
      rw [hinv.color_char _, if_neg (placeInv_notcap hWF hinv _
          (by rw [hH2colb]; exact color_clash color)), if_neg hH2at]
      exact hH2colb
    have hH2headbb :
        (bb.vertices ((b.vertices w).head_point)).head_point =
          (b.vertices w).head_point := by
      rw [hugH2.2, hH2headb]
    -- the same facts phrased through the loop board's head field
    have hH2colbb' : (bb.vertices ((bb.vertices w).head_point)).color =
        some color := by rw [huw.2]; exact hH2colbb
    have hH2headbb' :
        (bb.vertices ((bb.vertices w).head_point)).head_point =
          (bb.vertices w).head_point := by rw [huw.2]; exact hH2headbb
    have hH2notchain' : (bb.vertices w).head_point ∉
        chainList bb at_point := by rw [huw.2]; exact hH2notchain
    have hH2361' : (bb.vertices w).head_point < 361 := by
      rw [huw.2]; exact hH2b361
    obtain ⟨hcolJ, hvalJ, _, hheadJ, _, hlibsJ⟩ :=
      join_blocks_fields bb at_point w hne
    obtain ⟨_, hmemJ, _⟩ :=
      join_blocks_chain bb at_point w hne hinv.at_ok hokbbw
    have hatheads : ∀ x ∈ chainList bb at_point,
        (bb.vertices x).head_point = (bb.vertices at_point).head_point :=
      fun x hx => (hinv.at_ok.2.1 x hx).2.2
    have hH1mem : (bb.vertices at_point).head_point ∈
        chainList bb at_point := hinv.at_ok.2.2.2
    have hH2memJ : (bb.vertices w).head_point ∈ chainList bb w :=
      hokbbw.2.2.2
    have hvalbb : ∀ y, y < 361 → (bb.vertices y).valid = true := by
      intro y hy
      rw [hinv.valid_pres y]
      exact hWF.2.2.2.2 y (mem_pointAll.mpr hy)
    have hpadbb : (bb.vertices paddingPoint).valid = false := by
      rw [hinv.valid_pres paddingPoint]
      exact hWF.2.2.1
    refine ⟨⟨?_, ?_, ?_⟩, ?_, ?_⟩
    · -- the merged head is exact
      have hheadat : ((bb.join_blocks at_point w).vertices
          at_point).head_point = (bb.vertices w).head_point := by
        rw [hheadJ at_point, if_pos (self_mem_chainList bb at_point)]
      rw [hheadat]
      have hliboff : b.is_liberty_of at_point ((bb.vertices
          w).head_point) = true := by
        refine (is_liberty_of_iff b at_point _).mpr ⟨w, ?_, ?_, ?_⟩
        · exact mem_adjacent_to_of_valid b at_point w hw
            (hWF.2.2.2.2 w (mem_pointAll.mpr hw361))
        · rw [huw.2, hbf, hH2colb]
        · exact huw.2.symm
      have hoff := hlc.friendly_off ((bb.vertices w).head_point) hH2361'
        hH2colbb' hH2headbb' hH2notchain'
      rw [hliboff, if_pos rfl] at hoff
      have hmerged := join_libsList_merged bb at_point w hne hpadbb
        hvalbb
        (fun x hx => by
          rw [hinv.at_colors x hx, hH2colbb'])
        hatheads
        (fun x hx => (hinv.at_ok.2.1 x hx).1)
        (by rw [hH2colbb']; exact Option.noConfusion)
      have hstored : ((bb.join_blocks at_point w).vertices
          ((bb.vertices w).head_point)).num_liberties =
          ((bb.sub_liberties ((bb.vertices w).head_point) 1).vertices
            ((bb.vertices w).head_point)).num_liberties +
          joinCount (bb.sub_liberties ((bb.vertices w).head_point) 1)
            at_point ((bb.vertices w).head_point) := by
        rw [join_blocks_eq bb at_point w hne]
        exact joinStructure_libs_self _ at_point w _
      have hsub : ((bb.sub_liberties ((bb.vertices w).head_point)
          1).vertices ((bb.vertices w).head_point)).num_liberties =
          (bb.vertices ((bb.vertices w).head_point)).num_liberties - 1 := by
        rw [sub_liberties_libs, if_pos rfl]
      rw [hstored, hsub, hoff, hmerged]
      omega
    · -- untouched friendly heads
      intro h hh361 hcolJf hheadJf hchainJf
      have hnot1 : h ∉ chainList bb at_point := fun hx =>
        hchainJf ((hmemJ h).mpr (Or.inl hx))
      have hnot2 : h ∉ chainList bb w := fun hx =>
        hchainJf ((hmemJ h).mpr (Or.inr hx))
      have hhH2 : h ≠ (bb.vertices w).head_point := fun hx =>
        hnot2 (hx ▸ hH2memJ)
      have hhH1 : h ≠ (bb.vertices at_point).head_point := fun hx =>
        hnot1 (hx ▸ hH1mem)
      have hcolbbh : (bb.vertices h).color = some color := by
        rw [← hcolJ h]
        exact hcolJf
      have hheadbbh : (bb.vertices h).head_point = h := by
        have := hheadJf
        rw [hheadJ h, if_neg hnot1] at this
        exact this
      have hother := join_libsList_other bb at_point w h hne hatheads
        hhH2 hhH1
      rw [hlibsJ h hhH2, hother]
      exact hlc.friendly_off h hh361 hcolbbh hheadbbh hnot1
    · -- seen surviving opposing heads
      intro h hS hC
      obtain ⟨hhcolb, hhheadb, hh361⟩ := hinv.S_opp h hS
      have hhnotcap : ¬∃ h2 ∈ C, h ∈ chainList b h2 := by
        intro ⟨h2, hh2, hmem2⟩
        have hx := ((placeInv_capchain hWF hinv h2 hh2).2 h hmem2).2
        rw [hhheadb] at hx
        exact hC (by rw [hx]; exact hh2)
      have hhat : h ≠ at_point := by
        intro hh
        rw [hh, hempty] at hhcolb
        exact Option.noConfusion hhcolb
      have hhcolbb : (bb.vertices h).color = some color.opposite := by
        rw [hinv.color_char h, if_neg hhnotcap, if_neg hhat]
        exact hhcolb
      have hhH2 : h ≠ (bb.vertices w).head_point := by
        intro hx
        rw [hx, hH2colbb'] at hhcolbb
        exact color_clash color hhcolbb
      have hhH1 : h ≠ (bb.vertices at_point).head_point := by
        intro hx
        have := hinv.at_colors _ hH1mem
        rw [← hx, hhcolbb] at this
        exact color_clash color this.symm
      have hother := join_libsList_other bb at_point w h hne hatheads
        hhH2 hhH1
      rw [hlibsJ h hhH2, hother]
      exact hlc.opp_seen_exact h hS hC
    · exact fun x hx => (hmemJ x).mpr (Or.inl hx)
    · exact (hmemJ w).mpr (Or.inr (self_mem_chainList bb w))

/-- An opposing head of the original board not yet captured keeps its
stone and its head field on the loop board. -/
theorem placeInv_opp_alive {b : BoardFast} {color : Color}
    {at_point : Nat} {C S : List Nat} {bb : BoardFast} {hash : Nat}
    {sp : List Nat}
    (hWF : WFBoard b) (hempty : (b.vertices at_point).color = none)
    (hinv : PlaceInv b color at_point C S bb hash sp)
    (h : Nat) (hhcolb : (b.vertices h).color = some color.opposite)
    (hhheadb : (b.vertices h).head_point = h) (hCnot : h ∉ C) :
    (bb.vertices h).color = some color.opposite ∧
    (bb.vertices h).head_point = h := by
  have hhnotcap : ¬∃ h2 ∈ C, h ∈ chainList b h2 := by
    intro ⟨h2, hh2, hmem2⟩
    have hx := ((placeInv_capchain hWF hinv h2 hh2).2 h hmem2).2
    rw [hhheadb] at hx
    exact hCnot (by rw [hx]; exact hh2)
  have hhat : h ≠ at_point := by
    intro hh
    rw [hh, hempty] at hhcolb
    exact Option.noConfusion hhcolb
  constructor
  · rw [hinv.color_char h, if_neg hhnotcap, if_neg hhat]
    exact hhcolb
  · rw [hinv.head_opp h hhcolb, hhheadb]

/-- The neighbour loop, fresh opposing block with liberties to spare:
deducting the filled liberty keeps the liberty invariant. -/
theorem libsCarry_sub (b : BoardFast) (color : Color) (at_point : Nat)
    (C S : List Nat) (bb : BoardFast) (hash : Nat) (sp : List Nat)
    (hWF : WFBoard b) (hLG : LibsGood b) (hat : at_point < 361)
    (hempty : (b.vertices at_point).color = none)
    (hinv : PlaceInv b color at_point C S bb hash sp)
    (hlc : LibsCarry b color at_point C S bb)
    (h : Nat) (hh361 : h < 361)
    (hhcol : (b.vertices h).color = some color.opposite)
    (hhhead : (b.vertices h).head_point = h)
    (hnew : h ∉ S)
    (hlibat : b.is_liberty_of at_point h = true) :
    LibsCarry b color at_point C (S ++ [h]) (bb.sub_liberties h 1) ∧
    chainList (bb.sub_liberties h 1) at_point = chainList bb at_point := by
  have hothers := sub_liberties_others bb h 1
  have hchain : chainList (bb.sub_liberties h 1) at_point =
      chainList bb at_point :=
    chainList_congr bb _ at_point (fun q _ => (hothers q).2.1)
  have hlibspres : ∀ q, libsList (bb.sub_liberties h 1) q =
      libsList bb q :=
    fun q => libsList_congr bb _ (fun x => (hothers x).2.2.2.1)
      (fun x => (hothers x).1) (fun x => (hothers x).2.2.1) q
  have hCnot : h ∉ C := fun hx => hnew (hinv.C_sub h hx)
  have halive := placeInv_opp_alive hWF hempty hinv h hhcol hhhead hCnot
  refine ⟨⟨?_, ?_, ?_⟩, hchain⟩
  · -- the played chain's head
    have hH1mem : (bb.vertices at_point).head_point ∈
        chainList bb at_point := hinv.at_ok.2.2.2
    have hH1h : (bb.vertices at_point).head_point ≠ h := by
      intro hx
      have hcol := hinv.at_colors _ hH1mem
      rw [hx, halive.1] at hcol
      exact color_clash color hcol.symm
    rw [(hothers at_point).2.2.1, sub_liberties_libs, if_neg hH1h,
      hlibspres]
    exact hlc.at_exact
  · intro h2 hh361' hcolS hheadS hchainS
    have hcolbb : (bb.vertices h2).color = some color := by
      rw [← (hothers h2).1]
      exact hcolS
    have hheadbb : (bb.vertices h2).head_point = h2 := by
      rw [← (hothers h2).2.2.1]
      exact hheadS
    have hh2h : h2 ≠ h := by
      intro hx
      rw [hx, halive.1] at hcolbb
      exact color_clash color hcolbb.symm
    rw [hchain] at hchainS
    rw [sub_liberties_libs, if_neg hh2h, hlibspres]
    exact hlc.friendly_off h2 hh361' hcolbb hheadbb hchainS
  · intro h2 hh2 hC2
    rcases List.mem_append.mp hh2 with hcase | hcase
    · have hh2h : h2 ≠ h := fun hx => hnew (hx ▸ hcase)
      rw [sub_liberties_libs, if_neg hh2h, hlibspres]
      exact hlc.opp_seen_exact h2 hcase hC2
    · have hh2h : h2 = h := List.mem_singleton.mp hcase
      subst hh2h
      rw [sub_liberties_libs, if_pos rfl, hlibspres]
      have hoff := opp_unseen_libs b color at_point C S bb hash sp hWF
        hLG hat hempty hinv h2 hh361 hhcol hhhead hnew
      rw [hlibat, if_pos rfl] at hoff
      omega

/-- The neighbour loop, fresh opposing block out of liberties: capturing
it keeps the liberty invariant, since each stone coming off credits
exactly the blocks that gain it as a liberty, and surviving opposing
blocks never border the captured chain. -/
theorem libsCarry_capture (b : BoardFast) (color : Color) (at_point : Nat)
    (C S : List Nat) (bb : BoardFast) (hash : Nat) (sp : List Nat)
    (hWF : WFBoard b) (hLG : LibsGood b) (hNP : NoPhantom b)
    (hat : at_point < 361)
    (hempty : (b.vertices at_point).color = none)
    (hinv : PlaceInv b color at_point C S bb hash sp)
    (hlc : LibsCarry b color at_point C S bb)
    (h : Nat) (hh361 : h < 361)
    (hhcol : (b.vertices h).color = some color.opposite)
    (hhhead : (b.vertices h).head_point = h)
    (hnew : h ∉ S) :
    LibsCarry b color at_point (C ++ [h]) (S ++ [h])
      ((bb.sub_liberties h 1).capture color.opposite h).1 ∧
    chainList ((bb.sub_liberties h 1).capture color.opposite h).1
      at_point = chainList bb at_point := by
  have hothers := sub_liberties_others bb h 1
  have hheads := placeInv_heads b color at_point C S bb hash sp hWF hNP
    hat hempty hinv
  have hCnot : h ∉ C := fun hx => hnew (hinv.C_sub h hx)
  have halive := placeInv_opp_alive hWF hempty hinv h hhcol hhhead hCnot
  have hhat : h ≠ at_point := by
    intro hh
    rw [hh, hempty] at hhcol
    exact Option.noConfusion hhcol
  have hok_bh : ChainOk b h := hWF.1 h (mem_pointAll.mpr hh361)
    (by rw [hhcol]; exact Option.noConfusion)
  have hmem_col : ∀ q ∈ chainList b h,
      (b.vertices q).color = some color.opposite ∧
      (b.vertices q).head_point = h := by
    intro q hq
    obtain ⟨_, hc, hhd⟩ := hok_bh.2.1 q hq
    exact ⟨by rw [hc, hhcol], by rw [hhd, hhhead]⟩
  have hchbb : chainList bb h = chainList b h :=
    chainList_congr b bb h (fun q hq => hinv.next_opp q (hmem_col q hq).1)
  have hch : chainList (bb.sub_liberties h 1) h = chainList b h := by
    rw [chainList_congr bb _ h (fun q _ => (hothers q).2.1)]
    exact hchbb
  have hnotcap_mem : ∀ q ∈ chainList b h,
      ¬∃ h2 ∈ C, q ∈ chainList b h2 := by
    intro q hq hex
    obtain ⟨h2, hc2, hm2⟩ := hex
    have h1 := ((placeInv_capchain hWF hinv h2 hc2).2 q hm2).2
    have h2x := (hmem_col q hq).2
    rw [h1] at h2x
    exact hCnot (by rw [← h2x]; exact hc2)
  have hq_ne_at : ∀ q ∈ chainList b h, q ≠ at_point := by
    intro q hq hx
    have := (hmem_col q hq).1
    rw [hx, hempty] at this
    exact Option.noConfusion this
  have hcolbbmem : ∀ q ∈ chainList b h,
      (bb.vertices q).color = some color.opposite := by
    intro q hq
    rw [hinv.color_char q, if_neg (hnotcap_mem q hq),
      if_neg (hq_ne_at q hq)]
    exact (hmem_col q hq).1
  have hsl : SameLinks (bb.sub_liberties h 1)
      ((bb.sub_liberties h 1).capture color.opposite h).1 :=
    sameLinks_capture _ color.opposite h
  have hAnext : ∀ q, (((bb.sub_liberties h 1).capture
      color.opposite h).1.vertices q).next_point =
      (bb.vertices q).next_point := by
    intro q
    rw [(hsl q).1, (hothers q).2.1]
  have hAhead : ∀ q, (((bb.sub_liberties h 1).capture
      color.opposite h).1.vertices q).head_point =
      (bb.vertices q).head_point := by
    intro q
    rw [(hsl q).2.1, (hothers q).2.2.1]
  have hAval : ∀ q, (((bb.sub_liberties h 1).capture
      color.opposite h).1.vertices q).valid = (bb.vertices q).valid := by
    intro q
    rw [(hsl q).2.2, (hothers q).2.2.2.1]
  have hAcol : ∀ q, (((bb.sub_liberties h 1).capture
      color.opposite h).1.vertices q).color =
      if q ∈ chainList b h then none else (bb.vertices q).color := by
    intro q
    rw [capture_color, hch, (hothers q).1]
  have hchainA : chainList ((bb.sub_liberties h 1).capture
      color.opposite h).1 at_point = chainList bb at_point :=
    chainList_congr bb _ at_point (fun q _ => hAnext q)
  -- shared hypotheses of the two counting lemmas
  have hhb1head : ((bb.sub_liberties h 1).vertices h).head_point = h := by
    rw [(hothers h).2.2.1]
    exact halive.2
  have hsame : ∀ v ∈ chainList (bb.sub_liberties h 1) h,
      ((bb.sub_liberties h 1).vertices v).head_point =
        ((bb.sub_liberties h 1).vertices h).head_point := by
    intro v hv
    rw [hch] at hv
    rw [hhb1head, (hothers v).2.2.1,
      hinv.head_opp v (hmem_col v hv).1]
    exact (hmem_col v hv).2
  have hheads_b1 : ∀ w, ((bb.sub_liberties h 1).vertices w).color ≠
      none → ((bb.sub_liberties h 1).vertices w).head_point < 361 := by
    intro w hw
    rw [(hothers w).1] at hw
    rw [(hothers w).2.2.1]
    exact (hheads w hw).2.1
  have hcolhead_b1 : ∀ q w,
      ((bb.sub_liberties h 1).vertices w).color ≠ none →
      ((bb.sub_liberties h 1).vertices w).head_point = q →
      ((bb.sub_liberties h 1).vertices w).color =
        ((bb.sub_liberties h 1).vertices q).color := by
    intro q w hw hwq
    rw [(hothers w).1] at hw
    rw [(hothers w).2.2.1] at hwq
    rw [(hothers w).1, (hothers q).1, ← hwq]
    exact ((hheads w hw).2.2.1).symm
  have hval_b1 : ∀ w, ((bb.sub_liberties h 1).vertices w).color ≠ none →
      ((bb.sub_liberties h 1).vertices w).valid = true := by
    intro w hw
    rw [(hothers w).1] at hw
    rw [(hothers w).2.2.2.1, hinv.valid_pres w]
    exact hWF.2.2.2.2 w (mem_pointAll.mpr (hheads w hw).1)
  have hmem_b1 : ∀ v ∈ chainList (bb.sub_liberties h 1) h, v < 361 ∧
      ((bb.sub_liberties h 1).vertices v).color ≠ none := by
    intro v hv
    rw [hch] at hv
    refine ⟨(hok_bh.2.1 v hv).1, ?_⟩
    rw [(hothers v).1, hcolbbmem v hv]
    exact Option.noConfusion
  have hnd_b1 : (chainList (bb.sub_liberties h 1) h).Nodup := by
    rw [hch]
    exact hok_bh.1
  have hlibs_pres : ∀ q, libsList (bb.sub_liberties h 1) q =
      libsList bb q :=
    fun q => libsList_congr bb _ (fun x => (hothers x).2.2.2.1)
      (fun x => (hothers x).1) (fun x => (hothers x).2.2.1) q
  refine ⟨⟨?_, ?_, ?_⟩, hchainA⟩
  · -- the played chain's head gains one liberty per adjacent removal
    have hH1mem : (bb.vertices at_point).head_point ∈
        chainList bb at_point := hinv.at_ok.2.2.2
    have hH1h : (bb.vertices at_point).head_point ≠ h := by
      intro hx
      have hcol := hinv.at_colors _ hH1mem
      rw [hx, halive.1] at hcol
      exact color_clash color hcol.symm
    have hq : (bb.vertices at_point).head_point ≠
        ((bb.sub_liberties h 1).vertices h).head_point := by
      rw [hhb1head]
      exact hH1h
    have hcred := capture_libs_credit (bb.sub_liberties h 1)
      color.opposite h ((bb.vertices at_point).head_point) hq hsame
      hheads_b1
    have hlist := capture_libsList (bb.sub_liberties h 1)
      color.opposite h ((bb.vertices at_point).head_point) hq
      (by rw [(hothers _).2.2.1]; exact (hinv.at_ok.2.1 _ hH1mem).2.2)
      (by rw [(hothers _).1, hinv.at_colors _ hH1mem]
          exact Option.noConfusion)
      hsame hmem_b1 hnd_b1 (hcolhead_b1 _) hval_b1
    have hsubq : ((bb.sub_liberties h 1).vertices
        ((bb.vertices at_point).head_point)).num_liberties =
        (bb.vertices ((bb.vertices at_point).head_point)).num_liberties :=
      by rw [sub_liberties_libs, if_neg hH1h]
    have hAat : (((bb.sub_liberties h 1).capture color.opposite
        h).1.vertices at_point).head_point =
        (bb.vertices at_point).head_point := hAhead at_point
    rw [hAat, hcred, hlist, hsubq, hlibs_pres, hlc.at_exact]
  · -- untouched friendly heads: stored and list grow alike
    intro h2 hh361' hcolA2 hheadA2 hchainA2
    have hnotin : h2 ∉ chainList b h := by
      intro hin
      rw [hAcol h2, if_pos hin] at hcolA2
      exact Option.noConfusion hcolA2
    have hcolbb2 : (bb.vertices h2).color = some color := by
      rw [hAcol h2, if_neg hnotin] at hcolA2
      exact hcolA2
    have hheadbb2 : (bb.vertices h2).head_point = h2 := by
      rw [hAhead h2] at hheadA2
      exact hheadA2
    have hchainbb2 : h2 ∉ chainList bb at_point := by
      rw [hchainA] at hchainA2
      exact hchainA2
    have hh2h : h2 ≠ h := by
      intro hx
      rw [hx, halive.1] at hcolbb2
      exact color_clash color hcolbb2.symm
    have hq : h2 ≠ ((bb.sub_liberties h 1).vertices h).head_point := by
      rw [hhb1head]
      exact hh2h
    have hcred := capture_libs_credit (bb.sub_liberties h 1)
      color.opposite h h2 hq hsame hheads_b1
    have hlist := capture_libsList (bb.sub_liberties h 1)
      color.opposite h h2 hq
      (by rw [(hothers _).2.2.1]; exact hheadbb2)
      (by rw [(hothers _).1, hcolbb2]; exact Option.noConfusion)
      hsame hmem_b1 hnd_b1 (hcolhead_b1 _) hval_b1
    have hsubq : ((bb.sub_liberties h 1).vertices h2).num_liberties =
        (bb.vertices h2).num_liberties := by
      rw [sub_liberties_libs, if_neg hh2h]
    have hbase := hlc.friendly_off h2 hh361' hcolbb2 hheadbb2 hchainbb2
    rw [hcred, hlist, hsubq, hlibs_pres, hbase]
    omega
  · -- seen surviving opposing heads: never adjacent to the capture
    intro h2 hmemS hmemC
    have hS2 : h2 ∈ S := by
      rcases List.mem_append.mp hmemS with hc | hc
      · exact hc
      · exfalso
        exact hmemC (List.mem_append.mpr (Or.inr hc))
    have hC2 : h2 ∉ C := fun hx =>
      hmemC (List.mem_append.mpr (Or.inl hx))
    have hh2h : h2 ≠ h := fun hx => hnew (hx ▸ hS2)
    obtain ⟨hh2colb, hh2headb, hh2361⟩ := hinv.S_opp h2 hS2
    have halive2 := placeInv_opp_alive hWF hempty hinv h2 hh2colb
      hh2headb hC2
    have hq : h2 ≠ ((bb.sub_liberties h 1).vertices h).head_point := by
      rw [hhb1head]
      exact hh2h
    have hcred := capture_libs_credit (bb.sub_liberties h 1)
      color.opposite h h2 hq hsame hheads_b1
    have hlist := capture_libsList (bb.sub_liberties h 1)
      color.opposite h h2 hq
      (by rw [(hothers _).2.2.1]; exact halive2.2)
      (by rw [(hothers _).1, halive2.1]; exact Option.noConfusion)
      hsame hmem_b1 hnd_b1 (hcolhead_b1 _) hval_b1
    have hzero : (chainList (bb.sub_liberties h 1) h).countP
        (fun v => decide (∃ w ∈ adjacentRaw v,
          ((bb.sub_liberties h 1).vertices w).color ≠ none ∧
          w ∉ chainList (bb.sub_liberties h 1) h ∧
          ((bb.sub_liberties h 1).vertices w).head_point = h2)) = 0 := by
      refine List.countP_eq_zero.mpr ?_
      intro v hv hdec
      obtain ⟨w, hwraw, hwcol1, _, hwhead⟩ := of_decide_eq_true hdec
      rw [hch] at hv
      rw [(hothers w).1] at hwcol1
      rw [(hothers w).2.2.1] at hwhead
      have hw361 : w < 361 := (hheads w hwcol1).1
      have hwcolbb : (bb.vertices w).color = (bb.vertices h2).color := by
        rw [← hwhead]
        exact ((hheads w hwcol1).2.2.1).symm
      rw [halive2.1] at hwcolbb
      have hwcolb : (b.vertices w).color = some color.opposite :=
        placeInv_bcolor_opp hinv w hwcolbb
      have hwheadb : (b.vertices w).head_point = h2 := by
        rw [← hinv.head_opp w hwcolb]
        exact hwhead
      have hv361 : v < 361 := (hok_bh.2.1 v hv).1
      have hwadj : w ∈ b.adjacent_to v :=
        mem_adjacent_to_of_valid b v w hwraw
          (hWF.2.2.2.2 w (mem_pointAll.mpr hw361))
      have hW2 := hWF.2.1 v (mem_pointAll.mpr hv361)
        (by rw [(hmem_col v hv).1]; exact Option.noConfusion) w hwadj
        (by rw [hwcolb, (hmem_col v hv).1])
      rw [hwheadb, (hmem_col v hv).2] at hW2
      exact hnew (by rw [← hW2]; exact hS2)
    have hsubq : ((bb.sub_liberties h 1).vertices h2).num_liberties =
        (bb.vertices h2).num_liberties := by
      rw [sub_liberties_libs, if_neg hh2h]
    have hbase := hlc.opp_seen_exact h2 hS2 hC2
    rw [hcred, hlist, hsubq, hlibs_pres, hbase, hzero]

/-- The liberty invariant carried through the whole neighbour loop of
`place`, together with the facts the end states need: seen heads only
accumulate, the played chain only grows, every friendly neighbour ends
inside it, and every opposing neighbour's head ends seen. -/
theorem libs_fold_sim (b : BoardFast) (color : Color) (at_point : Nat)
    (hWF : WFBoard b) (hLG : LibsGood b) (hNP : NoPhantom b)
    (hat : at_point < 361)
    (hempty : (b.vertices at_point).color = none) :
    ∀ (L : List Nat) (i : Nat) (C S : List Nat) (bb : BoardFast)
      (hash : Nat) (sp : List Nat),
      (∀ w ∈ L, w ∈ adjacentRaw at_point) →
      i + L.length ≤ 4 →
      PlaceInv b color at_point C S bb hash sp →
      (∀ k, i ≤ k → k < 4 → sp.get? k = some pointDefault) →
      LibsCarry b color at_point C S bb →
      ∃ C2 S2,
        PlaceInv b color at_point C2 S2
          ((L.enumFrom i).foldl (placeStep color at_point)
            (bb, hash, sp)).1
          ((L.enumFrom i).foldl (placeStep color at_point)
            (bb, hash, sp)).2.1
          ((L.enumFrom i).foldl (placeStep color at_point)
            (bb, hash, sp)).2.2 ∧
        LibsCarry b color at_point C2 S2
          ((L.enumFrom i).foldl (placeStep color at_point)
            (bb, hash, sp)).1 ∧
        (∀ x ∈ S, x ∈ S2) ∧
        (∀ x ∈ chainList bb at_point,
          x ∈ chainList ((L.enumFrom i).foldl (placeStep color at_point)
            (bb, hash, sp)).1 at_point) ∧
        (∀ w ∈ L, (b.vertices w).color = some color →
          w ∈ chainList ((L.enumFrom i).foldl (placeStep color at_point)
            (bb, hash, sp)).1 at_point) ∧
        (∀ w ∈ L, (b.vertices w).color = some color.opposite →
          (b.vertices w).head_point ∈ S2) := by
  intro L
  induction L with
  | nil =>
      intro i C S bb hash sp _ _ hinv _ hlc
      refine ⟨C, S, hinv, hlc, fun x hx => hx, fun x hx => hx, ?_, ?_⟩
      · intro x hx
        cases hx
      · intro x hx
        cases hx
  | cons w L' ih =>
      intro i C S bb hash sp hL hi hinv htail hlc
      have hw : w ∈ adjacentRaw at_point := hL w (List.mem_cons_self w L')
      have hL' : ∀ x ∈ L', x ∈ adjacentRaw at_point := fun x hx =>
        hL x (List.mem_cons_of_mem _ hx)
      have hwat : w ≠ at_point := fun hh =>
        self_not_mem_adjacentRaw at_point hat (hh ▸ hw)
      have hi' : i < 4 := by
        simp only [List.length_cons] at hi
        omega
      have hilen : i + 1 + L'.length ≤ 4 := by
        simp only [List.length_cons] at hi
        omega
      have htail' : ∀ k, i + 1 ≤ k → k < 4 →
          sp.get? k = some pointDefault :=
        fun k hk1 hk2 => htail k (by omega) hk2
      rw [show (w :: L').enumFrom i = (i, w) :: L'.enumFrom (i + 1) from rfl,
        List.foldl_cons]
      cases hval : (bb.vertices w).color with
      | none =>
          rw [placeStep_none color at_point bb hash sp i w hval]
          obtain ⟨C2, S2, hinv2, hlc2, hmS, hmC, hfr, hop⟩ :=
            ih (i + 1) C S bb hash sp hL' hilen hinv htail' hlc
          refine ⟨C2, S2, hinv2, hlc2, hmS, hmC, ?_, ?_⟩
          · intro x hx hcolx
            rcases List.mem_cons.mp hx with hx1 | hx1
            · exfalso
              rw [hx1] at hcolx
              have hchar := hinv.color_char w
              rw [hval, if_neg (placeInv_notcap hWF hinv w
                  (by rw [hcolx]; exact color_clash color)),
                if_neg hwat, hcolx] at hchar
              exact Option.noConfusion hchar
            · exact hfr x hx1 hcolx
          · intro x hx hcolx
            rcases List.mem_cons.mp hx with hx1 | hx1
            · rw [hx1] at hcolx ⊢
              by_cases hcap : ∃ h2 ∈ C, w ∈ chainList b h2
              · obtain ⟨h2, hh2, hm2⟩ := hcap
                have hhd := ((placeInv_capchain hWF hinv h2 hh2).2 w hm2).2
                rw [hhd]
                exact hmS h2 (hinv.C_sub h2 hh2)
              · exfalso
                have hchar := hinv.color_char w
                rw [hval, if_neg hcap, if_neg hwat, hcolx] at hchar
                exact Option.noConfusion hchar
            · exact hop x hx1 hcolx
      | some c =>
          by_cases hcc : c = color
          · -- friendly neighbour: merge and recurse
            rw [hcc] at hval
            rw [placeStep_friendly color at_point bb hash sp i w hval]
            have hw361 : w < 361 := by
              rcases adjacentRaw_cases at_point hat w hw with hx | hx
              · exfalso
                rw [hx, placeInv_pad_none hWF hat hinv] at hval
                exact Option.noConfusion hval
              · exact hx
            have hbf : (b.vertices w).color = some color :=
              placeInv_bcolor_friendly hinv w hwat hval
            have hinv2 := placeInv_join b color at_point hWF hempty C S bb
              hash sp hinv w hw361 hwat hval
            obtain ⟨hlc2, hjmono, hwin⟩ := libsCarry_join b color at_point
              C S bb hash sp hWF hLG hat hempty hinv hlc w hw hval
            obtain ⟨C2, S2, hinv3, hlc3, hmS, hmC, hfr, hop⟩ :=
              ih (i + 1) C S (bb.join_blocks at_point w) hash sp hL'
                hilen hinv2 htail' hlc2
            refine ⟨C2, S2, hinv3, hlc3, hmS,
              fun x hx => hmC x (hjmono x hx), ?_, ?_⟩
            · intro x hx hcolx
              rcases List.mem_cons.mp hx with hx1 | hx1
              · rw [hx1]
                exact hmC w hwin
              · exact hfr x hx1 hcolx
            · intro x hx hcolx
              rcases List.mem_cons.mp hx with hx1 | hx1
              · exfalso
                rw [hx1, hbf] at hcolx
                exact color_clash color hcolx
              · exact hop x hx1 hcolx
          · -- opposing neighbour
            have hco : c = color.opposite := color_cases color c hcc
            rw [hco] at hval
            have hbo : (b.vertices w).color = some color.opposite :=
              placeInv_bcolor_opp hinv w hval
            have hw361 : w < 361 := by
              rcases adjacentRaw_cases at_point hat w hw with hx | hx
              · exfalso
                rw [hx, placeInv_pad_none hWF hat hinv] at hval
                exact Option.noConfusion hval
              · exact hx
            have hvalid : (b.vertices w).valid = true :=
              hWF.2.2.2.2 w (mem_pointAll.mpr hw361)
            have hok_bw : ChainOk b w := hWF.1 w (mem_pointAll.mpr hw361)
              (by rw [hbo]; exact Option.noConfusion)
            have hmemh : (b.vertices w).head_point ∈ chainList b w :=
              hok_bw.2.2.2
            have hh361 : (b.vertices w).head_point < 361 :=
              (hok_bw.2.1 _ hmemh).1
            have hhcol :
                (b.vertices ((b.vertices w).head_point)).color =
                  some color.opposite := by
              rw [(hok_bw.2.1 _ hmemh).2.1, hbo]
            have hhhead :
                (b.vertices ((b.vertices w).head_point)).head_point =
                  (b.vertices w).head_point :=
              (hok_bw.2.1 _ hmemh).2.2
            have hheadw : (bb.vertices w).head_point =
                (b.vertices w).head_point := hinv.head_opp w hbo
            by_cases hseen : (b.vertices w).head_point ∈ S
            · -- head already seen: nothing changes
              have hcont : sp.contains ((bb.vertices w).head_point) =
                  true := by
                rw [hheadw]
                exact List.elem_iff.mpr (hinv.sp_sub _ hseen)
              rw [placeStep_opp_seen color at_point bb hash sp i w hval
                hcont]
              obtain ⟨C2, S2, hinv2, hlc2, hmS, hmC, hfr, hop⟩ :=
                ih (i + 1) C S bb hash sp hL' hilen hinv htail' hlc
              refine ⟨C2, S2, hinv2, hlc2, hmS, hmC, ?_, ?_⟩
              · intro x hx hcolx
                rcases List.mem_cons.mp hx with hx1 | hx1
                · exfalso
                  rw [hx1, hbo] at hcolx
                  exact color_clash color hcolx.symm
                · exact hfr x hx1 hcolx
              · intro x hx hcolx
                rcases List.mem_cons.mp hx with hx1 | hx1
                · rw [hx1]
                  exact hmS _ hseen
                · exact hop x hx1 hcolx
            · -- fresh opposing head
              have hcont : sp.contains ((bb.vertices w).head_point) =
                  false := by
                rw [hheadw]
                exact contains_eq_false_of_not_mem (fun hm =>
                  hseen (seen_mem_of_contains S sp _ hinv.sp_sup hh361 hm))
              have hheadsub : ((bb.sub_liberties
                  ((bb.vertices w).head_point) 1).vertices
                    ((bb.vertices w).head_point)).head_point =
                  (b.vertices w).head_point := by
                rw [(sub_liberties_others bb _ 1 _).2.2.1, hheadw,
                  hinv.head_opp _ hhcol, hhhead]
              have hlibs_bb : ((bb.sub_liberties
                  ((bb.vertices w).head_point) 1).vertices
                    ((bb.vertices w).head_point)).num_liberties =
                  (b.vertices ((b.vertices w).head_point)).num_liberties
                    - 1 := by
                rw [sub_liberties_libs, if_pos rfl, hheadw,
                  hinv.libs_unseen _ hhcol hseen]
              have hlibat : b.is_liberty_of at_point
                  ((b.vertices w).head_point) = true := by
                refine (is_liberty_of_iff b at_point _).mpr
                  ⟨w, mem_adjacent_to_of_valid b at_point w hw hvalid,
                    ?_, rfl⟩
                rw [hbo, hhcol]
              by_cases hlib :
                  (b.vertices ((b.vertices w).head_point)).num_liberties ≤ 1
              · -- no liberties remain: capture the block
                have hnot1 : ¬ (bb.sub_liberties
                    ((bb.vertices w).head_point) 1).has_n_liberty
                      ((bb.vertices w).head_point) 1 := by
                  unfold BoardFast.has_n_liberty BoardFast.get_n_liberty
                  rw [hheadsub]
                  rw [← hheadw, hheadw] at hlibs_bb
                  rw [hheadw, hlibs_bb]
                  omega
                rw [placeStep_opp_capture color at_point bb hash sp i w
                  hval hcont hnot1, hheadw]
                obtain ⟨hinv2, _, htail2⟩ := placeInv_capture b color
                  at_point hWF hat hempty C S bb hash sp hinv i hi' htail
                  ((b.vertices w).head_point) hh361 hhcol hhhead hseen hlib
                obtain ⟨hlc2, hcheq⟩ := libsCarry_capture b color at_point
                  C S bb hash sp hWF hLG hNP hat hempty hinv hlc
                  ((b.vertices w).head_point) hh361 hhcol hhhead hseen
                obtain ⟨C2, S2, hinv3, hlc3, hmS, hmC, hfr, hop⟩ :=
                  ih (i + 1) (C ++ [(b.vertices w).head_point])
                    (S ++ [(b.vertices w).head_point])
                    ((bb.sub_liberties ((b.vertices w).head_point)
                      1).capture color.opposite
                        ((b.vertices w).head_point)).1
                    (hash ^^^ ((bb.sub_liberties ((b.vertices
                      w).head_point) 1).capture color.opposite
                        ((b.vertices w).head_point)).2)
                    (sp.set i ((b.vertices w).head_point))
                    hL' hilen hinv2 htail2 hlc2
                refine ⟨C2, S2, hinv3, hlc3,
                  fun x hx => hmS x (List.mem_append.mpr (Or.inl hx)),
                  fun x hx => hmC x (by rw [hcheq]; exact hx), ?_, ?_⟩
                · intro x hx hcolx
                  rcases List.mem_cons.mp hx with hx1 | hx1
                  · exfalso
                    rw [hx1, hbo] at hcolx
                    exact color_clash color hcolx.symm
                  · exact hfr x hx1 hcolx
                · intro x hx hcolx
                  rcases List.mem_cons.mp hx with hx1 | hx1
                  · rw [hx1]
                    exact hmS _ (List.mem_append.mpr
                      (Or.inr (List.mem_singleton.mpr rfl)))
                  · exact hop x hx1 hcolx
              · -- liberties remain: deduct one and move on
                have hhas1 : (bb.sub_liberties
                    ((bb.vertices w).head_point) 1).has_n_liberty
                      ((bb.vertices w).head_point) 1 := by
                  unfold BoardFast.has_n_liberty BoardFast.get_n_liberty
                  rw [hheadsub]
                  rw [← hheadw, hheadw] at hlibs_bb
                  rw [hheadw, hlibs_bb]
                  omega
                rw [placeStep_opp_sub color at_point bb hash sp i w hval
                  hcont hhas1, hheadw]
                obtain ⟨hinv2, htail2⟩ := placeInv_sub b color at_point C S
                  bb hash sp hinv i hi' htail ((b.vertices w).head_point)
                  hh361 hhcol hhhead hseen (by omega)
                obtain ⟨hlc2, hcheq⟩ := libsCarry_sub b color at_point
                  C S bb hash sp hWF hLG hat hempty hinv hlc
                  ((b.vertices w).head_point) hh361 hhcol hhhead hseen
                  hlibat
                obtain ⟨C2, S2, hinv3, hlc3, hmS, hmC, hfr, hop⟩ :=
                  ih (i + 1) C (S ++ [(b.vertices w).head_point])
                    (bb.sub_liberties ((b.vertices w).head_point) 1) hash
                    (sp.set i ((b.vertices w).head_point))
                    hL' hilen hinv2 htail2 hlc2
                refine ⟨C2, S2, hinv3, hlc3,
                  fun x hx => hmS x (List.mem_append.mpr (Or.inl hx)),
                  fun x hx => hmC x (by rw [hcheq]; exact hx), ?_, ?_⟩
                · intro x hx hcolx
                  rcases List.mem_cons.mp hx with hx1 | hx1
                  · exfalso
                    rw [hx1, hbo] at hcolx
                    exact color_clash color hcolx.symm
                  · exact hfr x hx1 hcolx
                · intro x hx hcolx
                  rcases List.mem_cons.mp hx with hx1 | hx1
                  · rw [hx1]
                    exact hmS _ (List.mem_append.mpr
                      (Or.inr (List.mem_singleton.mpr rfl)))
                  · exact hop x hx1 hcolx

/-- The whole neighbour loop of `place`, with the liberty invariant and
the coverage facts at its end state. -/
theorem place_libs_main (b : BoardFast) (color : Color) (at_point : Nat)
    (hWF : WFBoard b) (hLG : LibsGood b) (hNP : NoPhantom b)
    (hat : at_point < 361)
    (hempty : (b.vertices at_point).color = none) :
    ∃ C2 S2 sp2,
      PlaceInv b color at_point C2 S2 (b.place color at_point).1
        (b.place color at_point).2 sp2 ∧
      LibsCarry b color at_point C2 S2 (b.place color at_point).1 ∧
      (∀ w ∈ adjacentRaw at_point, (b.vertices w).color = some color →
        w ∈ chainList (b.place color at_point).1 at_point) ∧
      (∀ w ∈ adjacentRaw at_point,
        (b.vertices w).color = some color.opposite →
        (b.vertices w).head_point ∈ S2) := by
  obtain ⟨C2, S2, hinv, hlc, _, _, hfr, hop⟩ := libs_fold_sim b color
    at_point hWF hLG hNP hat hempty (adjacentRaw at_point) 0 [] []
    (placeInit b color at_point) (TABLE color at_point)
    (List.replicate 4 pointDefault)
    (fun w hw => hw)
    (by
      have h4 : (adjacentRaw at_point).length = 4 := rfl
      omega)
    (placeInv_init b color at_point hat hempty)
    (fun k _ hk2 => get?_replicate _ 4 k hk2)
    (libsCarry_init b color at_point hWF hLG hat hempty)
  exact ⟨C2, S2, _, hinv, hlc, hfr, hop⟩

/-- A liberty of an untouched block other than the played point is still
a liberty of it on the loop board. -/
theorem libsList_persist (b : BoardFast) (color : Color) (at_point : Nat)
    (C S : List Nat) (bb : BoardFast) (hash : Nat) (sp : List Nat)
    (hWF : WFBoard b) (hempty : (b.vertices at_point).color = none)
    (hinv : PlaceInv b color at_point C S bb hash sp)
    (h : Nat) (hh361 : h < 361) (hhcol : (b.vertices h).color ≠ none)
    (hhhead : (b.vertices h).head_point = h)
    (hnotC : h ∉ C) (hnotchain : h ∉ chainList bb at_point)
    (v : Nat) (hv : v ∈ libsList b h) (hvat : v ≠ at_point) :
    v ∈ libsList bb h := by
  obtain ⟨hv361, hvcol, hvlib⟩ := (mem_libsList b h v).mp hv
  obtain ⟨y, hy, hyc, hyh⟩ := (is_liberty_of_iff b v h).mp hvlib
  have hy361 : y < 361 := adjacent_to_lt b hWF.2.2.1 v hv361 y hy
  have hycol : (b.vertices y).color ≠ none := by
    rw [hyc]
    exact hhcol
  have hynotcap : ¬∃ h2 ∈ C, y ∈ chainList b h2 := by
    intro ⟨h2, hh2, hm2⟩
    have hx := ((placeInv_capchain hWF hinv h2 hh2).2 y hm2).2
    rw [hyh] at hx
    exact hnotC (by rw [hx]; exact hh2)
  have hyat : y ≠ at_point := by
    intro hh
    rw [hh, hempty] at hycol
    exact hycol rfl
  have hhnotcap : ¬∃ h2 ∈ C, h ∈ chainList b h2 := by
    intro ⟨h2, hh2, hm2⟩
    have hx := ((placeInv_capchain hWF hinv h2 hh2).2 h hm2).2
    rw [hhhead] at hx
    exact hnotC (by rw [hx]; exact hh2)
  have hhat : h ≠ at_point := by
    intro hh
    rw [hh, hempty] at hhcol
    exact hhcol rfl
  have hycbb : (bb.vertices y).color = (b.vertices y).color := by
    rw [hinv.color_char y, if_neg hynotcap, if_neg hyat]
  have hhcbb : (bb.vertices h).color = (b.vertices h).color := by
    rw [hinv.color_char h, if_neg hhnotcap, if_neg hhat]
  have hyhead : (bb.vertices y).head_point = h := by
    cases hcol : (b.vertices h).color with
    | none => exact absurd hcol hhcol
    | some c =>
      by_cases hcc : c = color
      · rw [hcc] at hcol
        have hycolb : (b.vertices y).color = some color := by
          rw [hyc, hcol]
        have hokby : ChainOk b y := hWF.1 y (mem_pointAll.mpr hy361)
          (by rw [hycolb]; exact Option.noConfusion)
        have hynotchain : y ∉ chainList bb at_point := by
          intro hyin
          have hclose := hinv.friendly_closed y hycolb hyin
          have hhy : h ∈ chainList b y := hyh ▸ hokby.2.2.2
          exact hnotchain (hclose h hhy)
        rw [(hinv.friendly_untouched y hycolb hynotchain).2]
        exact hyh
      · have hco : c = color.opposite := color_cases color c hcc
        rw [hco] at hcol
        have hycolb : (b.vertices y).color = some color.opposite := by
          rw [hyc, hcol]
        rw [hinv.head_opp y hycolb]
        exact hyh
  have hvnotcap : ¬∃ h2 ∈ C, v ∈ chainList b h2 :=
    placeInv_notcap hWF hinv v
      (by rw [hvcol]; exact Option.noConfusion)
  have hvcbb : (bb.vertices v).color = none := by
    rw [hinv.color_char v, if_neg hvnotcap, if_neg hvat]
    exact hvcol
  refine (mem_libsList bb h v).mpr ⟨hv361, hvcbb, ?_⟩
  refine (is_liberty_of_iff bb v h).mpr ⟨y, ?_, ?_, hyhead⟩
  · rw [show bb.adjacent_to v = b.adjacent_to v from
      adjacent_to_congr b bb hinv.valid_pres v]
    exact hy
  · rw [hycbb, hhcbb]
    exact hyc

/-- `place` writes stones only at the played point. -/
theorem place_NoPhantom (b : BoardFast) (color : Color) (at_point : Nat)
    (hWF : WFBoard b) (hLG : LibsGood b) (hNP : NoPhantom b)
    (hat : at_point < 361)
    (hempty : (b.vertices at_point).color = none) :
    NoPhantom (b.place color at_point).1 := by
  obtain ⟨C2, S2, sp2, hinv, _, _, _⟩ := place_libs_main b color at_point
    hWF hLG hNP hat hempty
  exact placeInv_nophantom hNP hat hinv

/-- `place` keeps the board well-formed: every stone still sits on a
well-formed chain, blocks stay maximal, and the padding row is intact. -/
theorem place_WF (b : BoardFast) (color : Color) (at_point : Nat)
    (hWF : WFBoard b) (hLG : LibsGood b) (hNP : NoPhantom b)
    (hat : at_point < 361)
    (hempty : (b.vertices at_point).color = none) :
    WFBoard (b.place color at_point).1 := by
  obtain ⟨C2, S2, sp2, hinv, _, hfr, _⟩ := place_libs_main b color
    at_point hWF hLG hNP hat hempty
  refine ⟨?_, ?_, ?_, ?_, ?_⟩
  · -- W1: chains stay well-formed
    intro p hp hpcol
    by_cases hmem : p ∈ chainList (b.place color at_point).1 at_point
    · exact (hinv.at_ok.rotate p hmem).1
    · have hpat : p ≠ at_point := fun hh =>
        hmem (by rw [hh]; exact self_mem_chainList _ at_point)
      have hpnotcap : ¬∃ h2 ∈ C2, p ∈ chainList b h2 := by
        intro hcap
        have := hinv.color_char p
        rw [if_pos hcap] at this
        exact hpcol this
      have hpcolb : (b.vertices p).color =
          ((b.place color at_point).1.vertices p).color := by
        have := hinv.color_char p
        rw [if_neg hpnotcap, if_neg hpat] at this
        exact this.symm
      have hpcolbne : (b.vertices p).color ≠ none := by
        rw [hpcolb]
        exact hpcol
      have hp361 : p < 361 := mem_pointAll.mp hp
      cases hcol : (b.vertices p).color with
      | none => exact absurd hcol hpcolbne
      | some c =>
        by_cases hcc : c = color
        · rw [hcc] at hcol
          exact (placeInv_friendly_chain hWF hempty hinv p hp361 hcol
            hmem).1
        · have hco : c = color.opposite := color_cases color c hcc
          rw [hco] at hcol
          have hokbp : ChainOk b p := hWF.1 p hp hpcolbne
          have hmemprops : ∀ r ∈ chainList b p,
              (b.vertices r).color = some color.opposite ∧
              (b.vertices r).head_point = (b.vertices p).head_point := by
            intro r hr
            obtain ⟨_, hc2, hh2⟩ := hokbp.2.1 r hr
            exact ⟨by rw [hc2, hcol], hh2⟩
          have hrnotcap : ∀ r ∈ chainList b p,
              ¬∃ h2 ∈ C2, r ∈ chainList b h2 := by
            intro r hr hcap
            obtain ⟨h2, hh2, hm2⟩ := hcap
            have hx := ((placeInv_capchain hWF hinv h2 hh2).2 r hm2).2
            rw [(hmemprops r hr).2] at hx
            refine hpnotcap ⟨h2, hh2, ?_⟩
            refine mem_chain_of_head b hWF p h2 hp361 hpcolbne ?_
            exact hx
          have hrat : ∀ r ∈ chainList b p, r ≠ at_point := by
            intro r hr hx
            have := (hmemprops r hr).1
            rw [hx, hempty] at this
            exact Option.noConfusion this
          exact (hokbp.congr_board (b.place color at_point).1
            (fun r hr => hinv.next_opp r (hmemprops r hr).1)
            (fun r hr => hinv.head_opp r (hmemprops r hr).1)
            (fun r hr => by
              rw [hinv.color_char r, if_neg (hrnotcap r hr),
                if_neg (hrat r hr)])).1
  · -- W2: blocks stay maximal
    intro p hp hpcol q hq hqcol
    have hp361 : p < 361 := mem_pointAll.mp hp
    have hpadf : ((b.place color at_point).1.vertices
        paddingPoint).valid = false := by
      rw [hinv.valid_pres paddingPoint]
      exact hWF.2.2.1
    have hq361 : q < 361 :=
      adjacent_to_lt _ hpadf p hp361 q hq
    have hqadj_b : q ∈ b.adjacent_to p := by
      rw [← adjacent_to_congr b _ hinv.valid_pres p]
      exact hq
    have hqraw : q ∈ adjacentRaw p := (mem_adjacent_to_raw b p q
      hqadj_b).1
    by_cases hpm : p ∈ chainList (b.place color at_point).1 at_point
    · by_cases hqm : q ∈ chainList (b.place color at_point).1 at_point
      · rw [(hinv.at_ok.2.1 q hqm).2.2, (hinv.at_ok.2.1 p hpm).2.2]
      · exfalso
        have hqcolf : ((b.place color at_point).1.vertices q).color =
            some color := by
          rw [hqcol, hinv.at_colors p hpm]
        have hqat : q ≠ at_point := fun hh =>
          hqm (by rw [hh]; exact self_mem_chainList _ at_point)
        have hqcolb : (b.vertices q).color = some color :=
          placeInv_bcolor_friendly hinv q hqat hqcolf
        rcases hinv.at_members p hpm with hpx | hpx
        · refine hqm (hfr q ?_ hqcolb)
          rw [← hpx]
          exact hqraw
        · have hW2b := hWF.2.1 p hp
            (by rw [hpx]; exact Option.noConfusion) q hqadj_b
            (by rw [hqcolb, hpx])
          have hokbp : ChainOk b p := hWF.1 p hp
            (by rw [hpx]; exact Option.noConfusion)
          have hqmem : q ∈ chainList b p := by
            have hqin : q ∈ chainList b ((b.vertices p).head_point) :=
              mem_chain_of_head b hWF q ((b.vertices p).head_point)
                hq361 (by rw [hqcolb]; exact Option.noConfusion) hW2b
            exact ((hokbp.rotate _ hokbp.2.2.2).2 q).mp hqin
          exact hqm (hinv.friendly_closed p hpx hpm q hqmem)
    · by_cases hqm : q ∈ chainList (b.place color at_point).1 at_point
      · exfalso
        have hpcolf : ((b.place color at_point).1.vertices p).color =
            some color := by
          rw [← hqcol, hinv.at_colors q hqm]
        have hpat : p ≠ at_point := fun hh =>
          hpm (by rw [hh]; exact self_mem_chainList _ at_point)
        have hpcolb : (b.vertices p).color = some color :=
          placeInv_bcolor_friendly hinv p hpat hpcolf
        have hpadjq : p ∈ b.adjacent_to q := by
          refine mem_adjacent_to_of_valid b q p
            (adjacentRaw_symm p q hp361 hq361 hqraw) ?_
          exact hWF.2.2.2.2 p hp
        rcases hinv.at_members q hqm with hqx | hqx
        · refine hpm (hfr p ?_ hpcolb)
          rw [← hqx]
          exact adjacentRaw_symm p q hp361 hq361 hqraw
        · have hW2b := hWF.2.1 q (mem_pointAll.mpr hq361)
            (by rw [hqx]; exact Option.noConfusion) p hpadjq
            (by rw [hpcolb, hqx])
          have hokbq : ChainOk b q := hWF.1 q (mem_pointAll.mpr hq361)
            (by rw [hqx]; exact Option.noConfusion)
          have hpmem : p ∈ chainList b q := by
            have hpin : p ∈ chainList b ((b.vertices q).head_point) :=
              mem_chain_of_head b hWF p ((b.vertices q).head_point)
                hp361 (by rw [hpcolb]; exact Option.noConfusion) hW2b
            exact ((hokbq.rotate _ hokbq.2.2.2).2 p).mp hpin
          exact hpm (hinv.friendly_closed q hqx hqm p hpmem)
      · -- both outside the played chain
        have hpat : p ≠ at_point := fun hh =>
          hpm (by rw [hh]; exact self_mem_chainList _ at_point)
        have hqat : q ≠ at_point := fun hh =>
          hqm (by rw [hh]; exact self_mem_chainList _ at_point)
        have hqcolfne : ((b.place color at_point).1.vertices q).color ≠
            none := by
          rw [hqcol]
          exact hpcol
        cases hcolf : ((b.place color at_point).1.vertices p).color with
        | none => exact absurd hcolf hpcol
        | some c =>
          have hqcolf : ((b.place color at_point).1.vertices q).color =
              some c := by rw [hqcol, hcolf]
          by_cases hcc : c = color
          · rw [hcc] at hcolf hqcolf
            have hpcolb : (b.vertices p).color = some color :=
              placeInv_bcolor_friendly hinv p hpat hcolf
            have hqcolb : (b.vertices q).color = some color :=
              placeInv_bcolor_friendly hinv q hqat hqcolf
            have hW2b := hWF.2.1 p hp
              (by rw [hpcolb]; exact Option.noConfusion) q hqadj_b
              (by rw [hqcolb, hpcolb])
            rw [(hinv.friendly_untouched p hpcolb hpm).2,
              (hinv.friendly_untouched q hqcolb hqm).2]
            exact hW2b
          · have hco : c = color.opposite := color_cases color c hcc
            rw [hco] at hcolf hqcolf
            have hpcolb : (b.vertices p).color = some color.opposite :=
              placeInv_bcolor_opp hinv p hcolf
            have hqcolb : (b.vertices q).color = some color.opposite :=
              placeInv_bcolor_opp hinv q hqcolf
            have hW2b := hWF.2.1 p hp
              (by rw [hpcolb]; exact Option.noConfusion) q hqadj_b
              (by rw [hqcolb, hpcolb])
            rw [hinv.head_opp p hpcolb, hinv.head_opp q hqcolb]
            exact hW2b
  · rw [hinv.valid_pres paddingPoint]
    exact hWF.2.2.1
  · exact placeInv_pad_none hWF hat hinv
  · intro p hp
    rw [hinv.valid_pres p]
    exact hWF.2.2.2.2 p hp

/-- `place` keeps every head's stored liberty count exact. -/
theorem place_LibsGood (b : BoardFast) (color : Color) (at_point : Nat)
    (hWF : WFBoard b) (hLG : LibsGood b) (hNP : NoPhantom b)
    (hat : at_point < 361)
    (hempty : (b.vertices at_point).color = none) :
    LibsGood (b.place color at_point).1 := by
  obtain ⟨C2, S2, sp2, hinv, hlc, hfr, hop⟩ := place_libs_main b color
    at_point hWF hLG hNP hat hempty
  intro h hh hhcol hhhead
  have hh361 : h < 361 := mem_pointAll.mp hh
  by_cases hmem : h ∈ chainList (b.place color at_point).1 at_point
  · have hx : ((b.place color at_point).1.vertices
        at_point).head_point = h :=
      ((hinv.at_ok.2.1 h hmem).2.2).symm.trans hhhead
    rw [← hx]
    exact hlc.at_exact
  · have hhat : h ≠ at_point := fun hh2 =>
      hmem (by rw [hh2]; exact self_mem_chainList _ at_point)
    cases hcolf : ((b.place color at_point).1.vertices h).color with
    | none => exact absurd hcolf hhcol
    | some c =>
      by_cases hcc : c = color
      · rw [hcc] at hcolf
        have hoff := hlc.friendly_off h hh361 hcolf hhhead hmem
        have hcolb : (b.vertices h).color = some color :=
          placeInv_bcolor_friendly hinv h hhat hcolf
        have hnolib : ¬ b.is_liberty_of at_point h = true := by
          intro hlib
          obtain ⟨y, hy, hyc, hyh⟩ :=
            (is_liberty_of_iff b at_point h).mp hlib
          have hycolb : (b.vertices y).color = some color := by
            rw [hyc, hcolb]
          have hy361 : y < 361 :=
            adjacent_to_lt b hWF.2.2.1 at_point hat y hy
          have hyin := hfr y (mem_adjacent_to_raw b at_point y hy).1
            hycolb
          have hokby : ChainOk b y := hWF.1 y (mem_pointAll.mpr hy361)
            (by rw [hycolb]; exact Option.noConfusion)
          have hhy : h ∈ chainList b y := hyh ▸ hokby.2.2.2
          exact hmem (hinv.friendly_closed y hycolb hyin h hhy)
        rw [hoff, if_neg hnolib, Nat.add_zero]
      · have hco : c = color.opposite := color_cases color c hcc
        rw [hco] at hcolf
        have hcolb : (b.vertices h).color = some color.opposite :=
          placeInv_bcolor_opp hinv h hcolf
        have hheadb : (b.vertices h).head_point = h := by
          rw [← hinv.head_opp h hcolb]
          exact hhhead
        have hC : h ∉ C2 := by
          intro hC2
          have hself : h ∈ chainList b h := self_mem_chainList b h
          have := hinv.color_char h
          rw [if_pos ⟨h, hC2, hself⟩] at this
          rw [this] at hcolf
          exact Option.noConfusion hcolf
        by_cases hS : h ∈ S2
        · exact hlc.opp_seen_exact h hS hC
        · have hoff := opp_unseen_libs b color at_point C2 S2
            (b.place color at_point).1 (b.place color at_point).2 sp2
            hWF hLG hat hempty hinv h hh361 hcolb hheadb hS
          have hnolib : ¬ b.is_liberty_of at_point h = true := by
            intro hlib
            obtain ⟨y, hy, hyc, hyh⟩ :=
              (is_liberty_of_iff b at_point h).mp hlib
            have hycolb : (b.vertices y).color = some color.opposite :=
              by rw [hyc, hcolb]
            have hyS := hop y (mem_adjacent_to_raw b at_point y hy).1
              hycolb
            rw [hyh] at hyS
            exact hS hyS
          rw [hoff, if_neg hnolib, Nat.add_zero]

/-- A legal move has a witnessing neighbour: an empty one, a friendly one
whose block keeps a liberty, or an opposing one left in atari. -/
theorem is_valid_witness_cases (b : BoardFast) (c : Color) (p : Nat)
    (h : b.is_valid c p = true) :
    ∃ n ∈ b.adjacent_to p,
      (b.vertices n).color = none ∨
      ((b.vertices n).color = some c ∧
        2 ≤ (b.vertices ((b.vertices n).head_point)).num_liberties) ∨
      ((b.vertices n).color = some c.opposite ∧
        (b.vertices ((b.vertices n).head_point)).num_liberties ≤ 1) := by
  unfold BoardFast.is_valid at h
  simp only [Bool.and_eq_true, decide_eq_true_eq, List.any_eq_true,
    Bool.or_eq_true, beq_iff_eq, decide_eq_decide] at h
  obtain ⟨_, n, hn, hcond⟩ := h
  refine ⟨n, hn, ?_⟩
  rcases hcond with hcond | hiff
  · exact Or.inl hcond
  · rcases hor : (b.vertices n).color with _ | col
    · exact Or.inl rfl
    · rw [hor] at hiff
      by_cases hcc : col = c
      · subst hcc
        have h2 : b.has_n_liberty n 2 := hiff.mp rfl
        unfold BoardFast.has_n_liberty BoardFast.get_n_liberty at h2
        exact Or.inr (Or.inl ⟨rfl, h2⟩)
      · have hopc : col = c.opposite := color_cases c col hcc
        subst hopc
        have h2 : ¬ b.has_n_liberty n 2 := by
          intro hl
          exact (opposite_ne c) (Option.some.injEq .. ▸ (hiff.mpr hl))
        unfold BoardFast.has_n_liberty BoardFast.get_n_liberty at h2
        exact Or.inr (Or.inr ⟨rfl, by omega⟩)

/-- After a legal `place`, no block is left without a liberty: the played
chain keeps one through the move's witnessing neighbour, and every other
surviving block keeps one of its old liberties. -/
theorem place_LibsPos (b : BoardFast) (color : Color) (at_point : Nat)
    (hWF : WFBoard b) (hLG : LibsGood b) (hLP : LibsPos b)
    (hNP : NoPhantom b) (hat : at_point < 361)
    (hvalid : b.is_valid color at_point = true) :
    LibsPos (b.place color at_point).1 := by
  have hempty : (b.vertices at_point).color = none :=
    is_valid_empty b color at_point hvalid
  obtain ⟨C2, S2, sp2, hinv, hlc, hfr, hop⟩ := place_libs_main b color
    at_point hWF hLG hNP hat hempty
  have hLGf : LibsGood (b.place color at_point).1 :=
    place_LibsGood b color at_point hWF hLG hNP hat hempty
  intro h hh hhcol hhhead
  have hh361 : h < 361 := mem_pointAll.mp hh
  rw [hLGf h hh hhcol hhhead]
  suffices hne : ∃ v, v ∈ libsList (b.place color at_point).1 h by
    obtain ⟨v, hv⟩ := hne
    exact List.length_pos_of_mem hv
  by_cases hmem : h ∈ chainList (b.place color at_point).1 at_point
  · -- the played chain
    have hx : ((b.place color at_point).1.vertices
        at_point).head_point = h :=
      ((hinv.at_ok.2.1 h hmem).2.2).symm.trans hhhead
    have hkey : ∀ m, m ∈ adjacentRaw at_point → m < 361 →
        ((b.place color at_point).1.vertices m).color = none →
        m ∈ libsList (b.place color at_point).1 h := by
      intro m hmraw hm361 hmcol
      refine (mem_libsList _ h m).mpr ⟨hm361, hmcol, ?_⟩
      refine (is_liberty_of_iff _ m h).mpr ⟨at_point, ?_, ?_, hx⟩
      · refine mem_adjacent_to_of_valid _ m at_point
          (adjacentRaw_symm at_point m hat hm361 hmraw) ?_
        rw [hinv.valid_pres at_point]
        exact hWF.2.2.2.2 at_point (mem_pointAll.mpr hat)
      · rw [hinv.at_colors at_point (self_mem_chainList _ at_point),
          hinv.at_colors h hmem]
    obtain ⟨n, hn, hcase⟩ := is_valid_witness_cases b color at_point
      hvalid
    have hn361 : n < 361 := adjacent_to_lt b hWF.2.2.1 at_point hat n hn
    have hnraw : n ∈ adjacentRaw at_point :=
      (mem_adjacent_to_raw b at_point n hn).1
    have hnat : n ≠ at_point := fun hh2 =>
      self_not_mem_adjacentRaw at_point hat (hh2 ▸ hnraw)
    rcases hcase with hncol | ⟨hncol, hnlib⟩ | ⟨hncol, hnlib⟩
    · -- empty witnessing neighbour
      have hncolf : ((b.place color at_point).1.vertices n).color =
          none := by
        rw [hinv.color_char n, if_neg (placeInv_notcap hWF hinv n
          (by rw [hncol]; exact Option.noConfusion)), if_neg hnat]
        exact hncol
      exact ⟨n, hkey n hnraw hn361 hncolf⟩
    · -- friendly witnessing neighbour with a spare liberty
      have hokbn : ChainOk b n := hWF.1 n (mem_pointAll.mpr hn361)
        (by rw [hncol]; exact Option.noConfusion)
      have hgmem : (b.vertices n).head_point ∈ chainList b n :=
        hokbn.2.2.2
      have hg361 : (b.vertices n).head_point < 361 :=
        (hokbn.2.1 _ hgmem).1
      have hgcol : (b.vertices ((b.vertices n).head_point)).color =
          some color := by
        rw [(hokbn.2.1 _ hgmem).2.1, hncol]
      have hghead :
          (b.vertices ((b.vertices n).head_point)).head_point =
            (b.vertices n).head_point :=
        (hokbn.2.1 _ hgmem).2.2
      have hlen2 : 2 ≤ (libsList b ((b.vertices n).head_point)).length :=
        by
        rw [← hLG _ (mem_pointAll.mpr hg361)
          (by rw [hgcol]; exact Option.noConfusion) hghead]
        exact hnlib
      obtain ⟨v, hvmem, hvat⟩ := exists_ne_of_nodup_two _ at_point
        (libsList_nodup b ((b.vertices n).head_point)) hlen2
      obtain ⟨hv361, hvcol, hvlib⟩ := (mem_libsList b _ v).mp hvmem
      obtain ⟨y, hy, hyc, hyh⟩ := (is_liberty_of_iff b v _).mp hvlib
      have hy361 : y < 361 := adjacent_to_lt b hWF.2.2.1 v hv361 y hy
      have hycolb : (b.vertices y).color = some color := by
        rw [hyc, hgcol]
      have hnin : n ∈ chainList (b.place color at_point).1 at_point :=
        hfr n hnraw hncol
      have hyinbg : y ∈ chainList b ((b.vertices n).head_point) :=
        mem_chain_of_head b hWF y ((b.vertices n).head_point) hy361
          (by rw [hycolb]; exact Option.noConfusion) hyh
      have hyinbn : y ∈ chainList b n :=
        ((hokbn.rotate _ hgmem).2 y).mp hyinbg
      have hyin : y ∈ chainList (b.place color at_point).1 at_point :=
        hinv.friendly_closed n hncol hnin y hyinbn
      refine ⟨v, (mem_libsList _ h v).mpr ⟨hv361, ?_, ?_⟩⟩
      · rw [hinv.color_char v, if_neg (placeInv_notcap hWF hinv v
          (by rw [hvcol]; exact Option.noConfusion)), if_neg hvat]
        exact hvcol
      · refine (is_liberty_of_iff _ v h).mpr ⟨y, ?_, ?_, ?_⟩
        · rw [show (b.place color at_point).1.adjacent_to v =
            b.adjacent_to v from
            adjacent_to_congr b _ hinv.valid_pres v]
          exact hy
        · rw [hinv.at_colors y hyin, hinv.at_colors h hmem]
        · exact ((hinv.at_ok.2.1 y hyin).2.2).trans hx
    · -- opposing witnessing neighbour in atari: it gets captured
      have hokbn : ChainOk b n := hWF.1 n (mem_pointAll.mpr hn361)
        (by rw [hncol]; exact Option.noConfusion)
      have hgS : (b.vertices n).head_point ∈ S2 := hop n hnraw hncol
      have hgC : (b.vertices n).head_point ∈ C2 := by
        refine (hinv.C_iff _ hgS).mpr ?_
        have hgmem : (b.vertices n).head_point ∈ chainList b n :=
          hokbn.2.2.2
        have hghead :
            (b.vertices ((b.vertices n).head_point)).head_point =
              (b.vertices n).head_point :=
          (hokbn.2.1 _ hgmem).2.2
        exact hnlib
      have hnmem_g : n ∈ chainList b ((b.vertices n).head_point) :=
        mem_chain_of_head b hWF n ((b.vertices n).head_point) hn361
          (by rw [hncol]; exact Option.noConfusion) rfl
      have hncolf : ((b.place color at_point).1.vertices n).color =
          none := by
        rw [hinv.color_char n,
          if_pos ⟨(b.vertices n).head_point, hgC, hnmem_g⟩]
      exact ⟨n, hkey n hnraw hn361 hncolf⟩
  · -- untouched blocks keep an old liberty
    have hhat : h ≠ at_point := fun hh2 =>
      hmem (by rw [hh2]; exact self_mem_chainList _ at_point)
    cases hcolf : ((b.place color at_point).1.vertices h).color with
    | none => exact absurd hcolf hhcol
    | some c =>
      by_cases hcc : c = color
      · rw [hcc] at hcolf
        have hcolb : (b.vertices h).color = some color :=
          placeInv_bcolor_friendly hinv h hhat hcolf
        have hheadb : (b.vertices h).head_point = h := by
          rw [← (hinv.friendly_untouched h hcolb hmem).2]
          exact hhhead
        have hC : h ∉ C2 := by
          intro hC2
          have := (hinv.S_opp h (hinv.C_sub h hC2)).1
          rw [hcolb] at this
          exact color_clash color this
        have hnolib : ¬ b.is_liberty_of at_point h = true := by
          intro hlib
          obtain ⟨y, hy, hyc, hyh⟩ :=
            (is_liberty_of_iff b at_point h).mp hlib
          have hycolb : (b.vertices y).color = some color := by
            rw [hyc, hcolb]
          have hy361 : y < 361 :=
            adjacent_to_lt b hWF.2.2.1 at_point hat y hy
          have hyin := hfr y (mem_adjacent_to_raw b at_point y hy).1
            hycolb
          have hokby : ChainOk b y := hWF.1 y (mem_pointAll.mpr hy361)
            (by rw [hycolb]; exact Option.noConfusion)
          have hhy : h ∈ chainList b y := hyh ▸ hokby.2.2.2
          exact hmem (hinv.friendly_closed y hycolb hyin h hhy)
        have hlen1 : 1 ≤ (libsList b h).length := by
          rw [← hLG h (mem_pointAll.mpr hh361)
            (by rw [hcolb]; exact Option.noConfusion) hheadb]
          exact hLP h (mem_pointAll.mpr hh361)
            (by rw [hcolb]; exact Option.noConfusion) hheadb
        obtain ⟨v, hvmem⟩ : ∃ v, v ∈ libsList b h := by
          cases hket : libsList b h with
          | nil =>
              rw [hket] at hlen1
              simp at hlen1
          | cons a t => exact ⟨a, List.mem_cons_self a t⟩
        have hvat : v ≠ at_point := by
          intro hh2
          rw [hh2] at hvmem
          exact hnolib ((mem_libsList b h at_point).mp hvmem).2.2
        exact ⟨v, libsList_persist b color at_point C2 S2 _ _ sp2 hWF
          hempty hinv h hh361
          (by rw [hcolb]; exact Option.noConfusion) hheadb hC hmem v
          hvmem hvat⟩
      · have hco : c = color.opposite := color_cases color c hcc
        rw [hco] at hcolf
        have hcolb : (b.vertices h).color = some color.opposite :=
          placeInv_bcolor_opp hinv h hcolf
        have hheadb : (b.vertices h).head_point = h := by
          rw [← hinv.head_opp h hcolb]
          exact hhhead
        have hC : h ∉ C2 := by
          intro hC2
          have hself : h ∈ chainList b h := self_mem_chainList b h
          have := hinv.color_char h
          rw [if_pos ⟨h, hC2, hself⟩] at this
          rw [this] at hcolf
          exact Option.noConfusion hcolf
        by_cases hS : h ∈ S2
        · have hge2 : 2 ≤ (b.vertices h).num_liberties := by
            by_contra hlt
            exact hC ((hinv.C_iff h hS).mpr (by omega))
          have hlen2 : 2 ≤ (libsList b h).length := by
            rw [← hLG h (mem_pointAll.mpr hh361)
              (by rw [hcolb]; exact Option.noConfusion) hheadb]
            exact hge2
          obtain ⟨v, hvmem, hvat⟩ := exists_ne_of_nodup_two _ at_point
            (libsList_nodup b h) hlen2
          exact ⟨v, libsList_persist b color at_point C2 S2 _ _ sp2 hWF
            hempty hinv h hh361
            (by rw [hcolb]; exact Option.noConfusion) hheadb hC hmem v
            hvmem hvat⟩
        · have hnolib : ¬ b.is_liberty_of at_point h = true := by
            intro hlib
            obtain ⟨y, hy, hyc, hyh⟩ :=
              (is_liberty_of_iff b at_point h).mp hlib
            have hycolb : (b.vertices y).color = some color.opposite :=
              by rw [hyc, hcolb]
            have hyS := hop y (mem_adjacent_to_raw b at_point y hy).1
              hycolb
            rw [hyh] at hyS
            exact hS hyS
          have hlen1 : 1 ≤ (libsList b h).length := by
            rw [← hLG h (mem_pointAll.mpr hh361)
              (by rw [hcolb]; exact Option.noConfusion) hheadb]
            exact hLP h (mem_pointAll.mpr hh361)
              (by rw [hcolb]; exact Option.noConfusion) hheadb
          obtain ⟨v, hvmem⟩ : ∃ v, v ∈ libsList b h := by
            cases hket : libsList b h with
            | nil =>
                rw [hket] at hlen1
                simp at hlen1
            | cons a t => exact ⟨a, List.mem_cons_self a t⟩
          have hvat : v ≠ at_point := by
            intro hh2
            rw [hh2] at hvmem
            exact hnolib ((mem_libsList b h at_point).mp hvmem).2.2
          exact ⟨v, libsList_persist b color at_point C2 S2 _ _ sp2 hWF
            hempty hinv h hh361
            (by rw [hcolb]; exact Option.noConfusion) hheadb hC hmem v
            hvmem hvat⟩

theorem new_color_none (p : Nat) :
    (BoardFast.new.vertices p).color = none := by
  show ((if p < numPoints then Vertex.empty else Vertex.invalid)).color =
    none
  split
  · rfl
  · rfl

theorem WF_new : WFBoard BoardFast.new := by
  refine ⟨?_, ?_, rfl, rfl, ?_⟩
  · intro p _ hcol
    exact absurd (new_color_none p) hcol
  · intro p _ hcol
    exact absurd (new_color_none p) hcol
  · intro p hp
    show ((if p < numPoints then Vertex.empty else
      Vertex.invalid)).valid = true
    rw [if_pos (show p < numPoints from mem_pointAll.mp hp)]
    rfl

theorem LibsGood_new : LibsGood BoardFast.new := by
  intro h _ hcol
  exact absurd (new_color_none h) hcol

theorem LibsPos_new : LibsPos BoardFast.new := by
  intro h _ hcol
  exact absurd (new_color_none h) hcol

theorem NoPhantom_new : NoPhantom BoardFast.new :=
  fun w _ => new_color_none w

/-- The board states the engine reaches: the empty board, then any
sequence of placements at playable points it accepts as valid. -/
inductive Reachable : BoardFast → Prop
  | init : Reachable BoardFast.new
  | step (b : BoardFast) (color : Color) (p : Nat) (hp : p < 361)
      (hr : Reachable b) (hv : b.is_valid color p = true) :
      Reachable (b.place color p).1

/-- Every reachable state is well-formed, has exact stored liberty
counts, no block without a liberty, and no stone off the board. -/
theorem reachable_invariants (b : BoardFast) (hb : Reachable b) :
    WFBoard b ∧ LibsGood b ∧ LibsPos b ∧ NoPhantom b := by
  induction hb with
  | init => exact ⟨WF_new, LibsGood_new, LibsPos_new, NoPhantom_new⟩
  | step b0 color p hp hr hv ih =>
      obtain ⟨hWF, hLG, hLP, hNP⟩ := ih
      have hempty := is_valid_empty b0 color p hv
      exact ⟨place_WF b0 color p hWF hLG hNP hp hempty,
        place_LibsGood b0 color p hWF hLG hNP hp hempty,
        place_LibsPos b0 color p hWF hLG hLP hNP hp hv,
        place_NoPhantom b0 color p hWF hLG hNP hp hempty⟩

/-- On a well-formed board, the head-field liberty test and the literal
chain traversal give the same liberty list. -/
theorem libsList_eq_chainLibs (b : BoardFast) (hWF : WFBoard b)
    (h : Nat) (hh361 : h < 361) (hhcol : (b.vertices h).color ≠ none)
    (hhhead : (b.vertices h).head_point = h) :
    libsList b h = chainLibs b h := by
  have hokh : ChainOk b h := hWF.1 h (mem_pointAll.mpr hh361) hhcol
  unfold libsList chainLibs
  refine List.filter_congr' ?_
  intro v hv
  have hv361 := mem_pointAll.mp hv
  suffices hs : b.is_liberty_of v h =
      decide (∃ m ∈ chainList b h, v ∈ adjacentRaw m) by rw [hs]
  refine bool_eq_of_iff ?_
  constructor
  · intro hlib
    obtain ⟨y, hy, hyc, hyh⟩ := (is_liberty_of_iff b v h).mp hlib
    have hy361 : y < 361 := adjacent_to_lt b hWF.2.2.1 v hv361 y hy
    have hycol : (b.vertices y).color ≠ none := by
      rw [hyc]
      exact hhcol
    have hymem : y ∈ chainList b h :=
      mem_chain_of_head b hWF y h hy361 hycol hyh
    refine decide_eq_true ⟨y, hymem, ?_⟩
    exact adjacentRaw_symm v y hv361 hy361
      (mem_adjacent_to_raw b v y hy).1
  · intro hdec
    obtain ⟨m, hm, hvm⟩ := of_decide_eq_true hdec
    obtain ⟨hm361, hmcol, hmhead⟩ := hokh.2.1 m hm
    refine (is_liberty_of_iff b v h).mpr ⟨m, ?_, hmcol, ?_⟩
    · refine mem_adjacent_to_of_valid b v m
        (adjacentRaw_symm m v hm361 hv361 hvm) ?_
      exact hWF.2.2.2.2 m (mem_pointAll.mpr hm361)
    · rw [hmhead, hhhead]

/-- C4: for any sequence of legal placements from the empty board, every
chain head stores exactly the number of distinct empty vertices
4-adjacent to at least one member of its chain. -/
theorem liberty_counts_exact (b : BoardFast) (hb : Reachable b) :
    ∀ h ∈ pointAll, (b.vertices h).color ≠ none →
      (b.vertices h).head_point = h →
      (b.vertices h).num_liberties = (chainLibs b h).length := by
  obtain ⟨hWF, hLG, _, _⟩ := reachable_invariants b hb
  intro h hh hhcol hhhead
  rw [hLG h hh hhcol hhhead,
    libsList_eq_chainLibs b hWF h (mem_pointAll.mp hh) hhcol hhhead]

/-- C5: for any sequence of legal placements from the empty board, no
chain head rests with a zero liberty count. -/
theorem no_zero_liberty_blocks (b : BoardFast) (hb : Reachable b) :
    ∀ h ∈ pointAll, (b.vertices h).color ≠ none →
      (b.vertices h).head_point = h →
      1 ≤ (b.vertices h).num_liberties := by
  obtain ⟨_, _, hLP, _⟩ := reachable_invariants b hb
  exact hLP

set_option maxRecDepth 40000 in
theorem liberty_counts_exact_witness :
    ((BoardFast.new.place Color.black 0).1.vertices 0).num_liberties =
      (chainLibs (BoardFast.new.place Color.black 0).1 0).length :=
  liberty_counts_exact (BoardFast.new.place Color.black 0).1
    (Reachable.step BoardFast.new Color.black 0 (by decide)
      Reachable.init (by decide))
    0 (by decide) (by decide) (by decide)

set_option maxRecDepth 40000 in
theorem no_zero_liberty_blocks_witness :
    1 ≤ ((BoardFast.new.place Color.black 0).1.vertices 0).num_liberties :=
  no_zero_liberty_blocks (BoardFast.new.place Color.black 0).1
    (Reachable.step BoardFast.new Color.black 0 (by decide)
      Reachable.init (by decide))
    0 (by decide) (by decide) (by decide)
